import Mathlib

/-!
# Outbox publisher and inbox processor of `gladkovandrey/queues`

A shallow embedding of the two replication processes of `homework-4,5`:

* `inbox-processor/main.go`: `processMessageBatch`, `processMessage`,
  `isEventProcessed`, `saveToInbox`, `processUserEvent`,
  `processPaymentEvent`, `markInboxProcessed`;
* `outbox-publisher/main.go`: `processOutboxBatch`, `getUnprocessedEvents`,
  `markEventsProcessed`.

The databases are explicit values (lists of rows), a transaction is a pair of
the committed snapshot and a working copy, and everything the code obtains from
outside (whether a statement fails, `uuid.New()`, the clocks) is read from an
explicit environment record, so that every function below is a total,
executable function of its arguments.
-/

namespace Queues

/-- The type `uuid.UUID`; only equality of identifiers matters. -/
abbrev UUID := Nat

/-- The type `time.Time`, as a number of clock ticks. -/
abbrev Time := Nat

/-- The type `json.RawMessage`: an uninterpreted payload. -/
abbrev RawMessage := String

/-- The Go struct `ReplicationMessage` (declared identically in both programs). -/
structure ReplicationMessage where
  EventID : UUID
  AggregateID : UUID
  AggregateType : String
  EventType : String
  EventData : RawMessage
  OriginalTime : Time
  PublishedAt : Time
  deriving DecidableEq, Repr

/-! ## Inbox processor: data model -/

/-- The Go struct `InboxEvent` built by `processMessage`. -/
structure InboxEvent where
  ID : UUID
  EventID : UUID
  AggregateID : UUID
  AggregateType : String
  EventType : String
  EventData : RawMessage
  CreatedAt : Time
  deriving DecidableEq, Repr

/-- A row of the table `inbox`: the seven columns written by `saveToInbox`
and the two columns `processed`, `processed_at` written by `markInboxProcessed`. -/
structure InboxRow where
  id : UUID
  event_id : UUID
  aggregate_id : UUID
  aggregate_type : String
  event_type : String
  event_data : RawMessage
  created_at : Time
  processed : Bool
  processed_at : Option Time
  deriving DecidableEq, Repr

/-- The target database: the table `inbox` and the aggregate tables, the latter
kept abstract as a value of type `σ` that only the apply functions interpret. -/
structure TargetDB (σ : Type) where
  inbox : List InboxRow
  agg : σ
  deriving DecidableEq, Repr

/-- A `jetstream.Msg` as the processor sees it: a delivery tag that tells
deliveries apart, and what `json.Unmarshal(msg.Data(), &replicationMsg)` yields,
`none` standing for a returned error. -/
structure Msg where
  tag : Nat
  decoded : Option ReplicationMessage
  deriving DecidableEq, Repr

/-- The SQL functions `process_user_event` and `process_payment_event` of the
target database. They are not part of the Go sources, so they are parameters:
given the arguments and the aggregate state seen by the transaction they either
fail (`none`) or return the boolean and the new aggregate state. -/
structure ApplyFns (σ : Type) where
  process_user_event : UUID → String → RawMessage → σ → Option (Bool × σ)
  process_payment_event : UUID → String → RawMessage → σ → Option (Bool × σ)

/-- What one call of `processMessage` reads from outside the program. -/
structure Env where
  /-- The query of `isEventProcessed` returns an error. -/
  checkErr : Bool
  /-- The call `db.Begin()` returns an error. -/
  beginErr : Bool
  /-- The `INSERT` of `saveToInbox` returns an error. -/
  insertErr : Bool
  /-- The query of the apply function fails for a reason of the connection. -/
  applyErr : Bool
  /-- The `UPDATE` of `markInboxProcessed` returns an error. -/
  markErr : Bool
  /-- The call `tx.Commit()` returns an error. -/
  commitErr : Bool
  /-- The value of `uuid.New()`. -/
  newID : UUID
  /-- The value of `time.Now()`. -/
  now : Time
  /-- The value of SQL `NOW()` inside the transaction. -/
  sqlNow : Time
  deriving DecidableEq, Repr

/-- The handle a statement is executed on: the pool `db` or the transaction `tx`. -/
inductive Handle where
  | db
  | tx
  deriving DecidableEq, Repr

/-- The database calls of `processMessage`, in the order they are issued. -/
inductive Step where
  | isEventProcessed (h : Handle) (eventID : UUID)
  | begin
  | saveToInbox (h : Handle) (event : InboxEvent)
  | processUserEvent (h : Handle) (eventID : UUID) (eventType : String) (eventData : RawMessage)
  | processPaymentEvent (h : Handle) (eventID : UUID) (eventType : String)
      (eventData : RawMessage)
  | markInboxProcessed (h : Handle) (ids : List UUID)
  | commit
  | rollback
  deriving DecidableEq, Repr

/-- The `return` statement by which `processMessage` leaves. -/
inductive Exit where
  | parseError
  | checkError
  | duplicate
  | beginError
  | insertError
  | unknownAggregate
  | applyError
  | markError
  | commitError
  | done
  deriving DecidableEq, Repr

/-- The observable result of one call of `processMessage`: the returned
boolean, the committed database afterwards, the exit taken and the calls made. -/
structure Result (σ : Type) where
  ok : Bool
  db : TargetDB σ
  exit : Exit
  steps : List Step
  deriving DecidableEq, Repr

/-- A `*sql.Tx`: the committed state at `Begin` and the state the transaction
sees. `Rollback` discards the second, `Commit` installs it. -/
structure Tx (σ : Type) where
  snapshot : TargetDB σ
  work : TargetDB σ
  deriving DecidableEq, Repr

/-- The call `db.Begin()`. -/
def Begin {σ : Type} (env : Env) (db : TargetDB σ) : Option (Tx σ) :=
  if env.beginErr then none else some ⟨db, db⟩

/-- The deferred `tx.Rollback()`: the committed state is the one at `Begin`. -/
def Tx.Rollback {σ : Type} (tx : Tx σ) : TargetDB σ := tx.snapshot

/-- The call `tx.Commit()`: on success the working copy becomes the committed state. -/
def Tx.Commit {σ : Type} (env : Env) (tx : Tx σ) : Option (TargetDB σ) :=
  if env.commitErr then none else some tx.work

/-- Modelled from the spec: the SQL function `is_event_processed`, which is not
in the Go sources. It is true exactly when the inbox holds a row with the given
`event_id` and `processed = true`. -/
def is_event_processed {σ : Type} (db : TargetDB σ) (eventID : UUID) : Bool :=
  db.inbox.any (fun r => r.event_id == eventID && r.processed)

/-- The function `isEventProcessed`: `SELECT is_event_processed($1)` on the pool. -/
def isEventProcessed {σ : Type} (env : Env) (db : TargetDB σ) (eventID : UUID) : Option Bool :=
  if env.checkErr then none else some (is_event_processed db eventID)

/-- The row that the `INSERT` of `saveToInbox` creates; the columns `processed`
and `processed_at` are not listed and take their defaults. -/
def InboxEvent.toRow (event : InboxEvent) : InboxRow :=
  { id := event.ID, event_id := event.EventID, aggregate_id := event.AggregateID,
    aggregate_type := event.AggregateType, event_type := event.EventType,
    event_data := event.EventData, created_at := event.CreatedAt,
    processed := false, processed_at := none }

/-- The function `saveToInbox`: one `INSERT INTO inbox` inside the transaction. -/
def saveToInbox {σ : Type} (env : Env) (tx : Tx σ) (event : InboxEvent) : Option (Tx σ) :=
  if env.insertErr then none
  else some { tx with work := { tx.work with inbox := tx.work.inbox ++ [event.toRow] } }

/-- The function `processUserEvent`: `SELECT process_user_event($1, $2, $3)`. -/
def processUserEvent {σ : Type} (F : ApplyFns σ) (env : Env) (tx : Tx σ) (eventID : UUID)
    (eventType : String) (eventData : RawMessage) : Option (Bool × Tx σ) :=
  if env.applyErr then none
  else match F.process_user_event eventID eventType eventData tx.work.agg with
    | none => none
    | some (processed, agg) => some (processed, { tx with work := { tx.work with agg := agg } })

/-- The function `processPaymentEvent`: `SELECT process_payment_event($1, $2, $3)`. -/
def processPaymentEvent {σ : Type} (F : ApplyFns σ) (env : Env) (tx : Tx σ) (eventID : UUID)
    (eventType : String) (eventData : RawMessage) : Option (Bool × Tx σ) :=
  if env.applyErr then none
  else match F.process_payment_event eventID eventType eventData tx.work.agg with
    | none => none
    | some (processed, agg) => some (processed, { tx with work := { tx.work with agg := agg } })

/-- The effect on one row of `UPDATE inbox SET processed = true,
processed_at = NOW() WHERE id = $1 AND processed = false`. -/
def markInboxRow (sqlNow : Time) (id : UUID) (r : InboxRow) : InboxRow :=
  if r.id = id ∧ r.processed = false then
    { r with processed := true, processed_at := some sqlNow }
  else r

/-- One `UPDATE inbox SET processed = true, processed_at = NOW()
WHERE id = $1 AND processed = false`. -/
def updateInboxProcessed (sqlNow : Time) (id : UUID) (inbox : List InboxRow) : List InboxRow :=
  inbox.map (markInboxRow sqlNow id)

/-- The function `markInboxProcessed`: nothing for an empty list, otherwise one
`UPDATE` per id, returning at the first error. `processMessage` passes a
one-element list, so a single error flag covers the loop. -/
def markInboxProcessed {σ : Type} (env : Env) (tx : Tx σ) : List UUID → Option (Tx σ)
  | [] => some tx
  | id :: rest =>
    if env.markErr then none
    else markInboxProcessed env
      { tx with work := { tx.work with inbox := updateInboxProcessed env.sqlNow id tx.work.inbox } }
      rest

/-! ## Inbox processor: `processMessage` -/

/-- The `if`/`else if`/`else` of `processMessage` on `AggregateType`: `none` is
the `else` branch (unknown aggregate type); otherwise the call made and what it
returned (`processResult` and the transaction, or `none` for `err != nil`). -/
def dispatch {σ : Type} (F : ApplyFns σ) (env : Env) (tx : Tx σ)
    (replicationMsg : ReplicationMessage) : Option (Step × Option (Bool × Tx σ)) :=
  if replicationMsg.AggregateType = "user" then
    some (.processUserEvent .tx replicationMsg.EventID replicationMsg.EventType
        replicationMsg.EventData,
      processUserEvent F env tx replicationMsg.EventID replicationMsg.EventType
        replicationMsg.EventData)
  else if replicationMsg.AggregateType = "payment" then
    some (.processPaymentEvent .tx replicationMsg.EventID replicationMsg.EventType
        replicationMsg.EventData,
      processPaymentEvent F env tx replicationMsg.EventID replicationMsg.EventType
        replicationMsg.EventData)
  else none

/-- The function `processMessage`. Every `return` after `db.Begin()` other than
the last runs the deferred `tx.Rollback()`; after a successful `Commit` the
deferred rollback has no effect. -/
def processMessage {σ : Type} (F : ApplyFns σ) (env : Env) (db : TargetDB σ) (msg : Msg) :
    Result σ :=
  match msg.decoded with
  | none => ⟨false, db, .parseError, []⟩
  | some replicationMsg =>
    let s1 := [Step.isEventProcessed .db replicationMsg.EventID]
    match isEventProcessed env db replicationMsg.EventID with
    | none => ⟨false, db, .checkError, s1⟩
    | some true => ⟨true, db, .duplicate, s1⟩
    | some false =>
      match Begin env db with
      | none => ⟨false, db, .beginError, s1 ++ [.begin]⟩
      | some tx =>
        let inboxEvent : InboxEvent :=
          { ID := env.newID
            EventID := replicationMsg.EventID
            AggregateID := replicationMsg.AggregateID
            AggregateType := replicationMsg.AggregateType
            EventType := replicationMsg.EventType
            EventData := replicationMsg.EventData
            CreatedAt := env.now }
        let s2 := s1 ++ [.begin, .saveToInbox .tx inboxEvent]
        match saveToInbox env tx inboxEvent with
        | none => ⟨false, tx.Rollback, .insertError, s2 ++ [.rollback]⟩
        | some tx1 =>
          match dispatch F env tx1 replicationMsg with
          | none => ⟨false, tx1.Rollback, .unknownAggregate, s2 ++ [.rollback]⟩
          | some (call, none) => ⟨false, tx1.Rollback, .applyError, s2 ++ [call, .rollback]⟩
          | some (call, some (_, tx2)) =>
            let s3 := s2 ++ [call, .markInboxProcessed .tx [inboxEvent.ID]]
            match markInboxProcessed env tx2 [inboxEvent.ID] with
            | none => ⟨false, tx2.Rollback, .markError, s3 ++ [.rollback]⟩
            | some tx3 =>
              match tx3.Commit env with
              | none => ⟨false, tx3.Rollback, .commitError, s3 ++ [.commit, .rollback]⟩
              | some db1 => ⟨true, db1, .done, s3 ++ [.commit]⟩

/-! ## Inbox processor: `processMessageBatch` -/

/-- The two calls `msg.Ack()` and `msg.Nak()`. -/
inductive AckDecision where
  | Ack
  | Nak
  deriving DecidableEq, Repr

/-- One iteration of the second loop of `processMessageBatch`: the message,
what `processMessage` returned for it and the call issued on the message. -/
structure Handled (σ : Type) where
  msg : Msg
  result : Result σ
  decision : AckDecision
  deriving DecidableEq, Repr

/-- The body of the first loop of `processMessageBatch`: a message that does
not parse is skipped by `continue`, a user message is appended to
`userMessages`, a payment message to `paymentMessages`, any other is left out. -/
def sortStep (acc : List Msg × List Msg) (msg : Msg) : List Msg × List Msg :=
  match msg.decoded with
  | none => acc
  | some replicationMsg =>
    if replicationMsg.AggregateType = "user" then (acc.1 ++ [msg], acc.2)
    else if replicationMsg.AggregateType = "payment" then (acc.1, acc.2 ++ [msg])
    else acc

/-- The slice `allMessages` of `processMessageBatch`:
`append(userMessages, paymentMessages...)` after the first loop. -/
def allMessages (messages : List Msg) : List Msg :=
  let sorted := messages.foldl sortStep ([], [])
  sorted.1 ++ sorted.2

/-- The second loop of `processMessageBatch`, from iteration `i` on: each
message is passed to `processMessage` on the database left by the previous
one, then `Ack` is called if it returned true and `Nak` otherwise. An error
of `Ack` or `Nak` is only logged. -/
def processLoop {σ : Type} (F : ApplyFns σ) (env : Nat → Env) :
    Nat → TargetDB σ → List Msg → TargetDB σ × List (Handled σ)
  | _, db, [] => (db, [])
  | i, db, msg :: rest =>
    let r := processMessage F (env i) db msg
    let d := if r.ok then AckDecision.Ack else AckDecision.Nak
    let out := processLoop F env (i + 1) r.db rest
    (out.1, ⟨msg, r, d⟩ :: out.2)

/-- The function `processMessageBatch`: the committed database after the batch
and the iterations of the second loop in order. `env i` is the environment of
iteration `i`. -/
def processMessageBatch {σ : Type} (F : ApplyFns σ) (env : Nat → Env) (db : TargetDB σ)
    (messages : List Msg) : TargetDB σ × List (Handled σ) :=
  processLoop F env 0 db (allMessages messages)

/-! ## Outbox publisher: data model -/

/-- The Go struct `OutboxEvent` filled by `rows.Scan` in `getUnprocessedEvents`. -/
structure OutboxEvent where
  ID : UUID
  AggregateID : UUID
  AggregateType : String
  EventType : String
  EventData : RawMessage
  CreatedAt : Time
  deriving DecidableEq, Repr

/-- A row of the table `outbox`: the six selected columns and the two columns
`processed`, `processed_at` written by `markEventsProcessed`. -/
structure OutboxRow where
  id : UUID
  aggregate_id : UUID
  aggregate_type : String
  event_type : String
  event_data : RawMessage
  created_at : Time
  processed : Bool
  processed_at : Option Time
  deriving DecidableEq, Repr

/-- The table `outbox`, in storage order. -/
abbrev OutboxTable := List OutboxRow

/-- What one poll cycle reads from outside the program; the functions are
indexed by the iteration of the loop concerned. -/
structure PollEnv where
  /-- The call `db.Query` returns an error. -/
  queryErr : Bool
  /-- The call `rows.Scan` returns an error at the given row. -/
  scanErr : Nat → Bool
  /-- The call `rows.Err()` returns an error after the last row. -/
  rowsErr : Bool
  /-- The call `json.Marshal` returns an error for the given event of the batch. -/
  marshalErr : Nat → Bool
  /-- The call `js.Publish` returns an error for the given event of the batch. -/
  publishErr : Nat → Bool
  /-- The call `db.Exec` of `markEventsProcessed` returns an error for the given id. -/
  markErr : Nat → Bool
  /-- The value of `time.Now()` for the given event of the batch. -/
  now : Nat → Time
  /-- The value of SQL `NOW()` in the given `UPDATE`. -/
  sqlNow : Nat → Time

/-- The method `String()` of `uuid.UUID`: the text form of the identifier. -/
def UUID.String (id : UUID) : String := Nat.repr id

/-- The columns of a row that the `SELECT` lists, as `rows.Scan` stores them. -/
def OutboxRow.toEvent (r : OutboxRow) : OutboxEvent :=
  { ID := r.id, AggregateID := r.aggregate_id, AggregateType := r.aggregate_type,
    EventType := r.event_type, EventData := r.event_data, CreatedAt := r.created_at }

/-! ## Outbox publisher: `getUnprocessedEvents` -/

/-- The order of `ORDER BY created_at ASC`. -/
def createdLE (a b : OutboxRow) : Prop := a.created_at ≤ b.created_at

instance : DecidableRel createdLE := fun a b => Nat.decLe a.created_at b.created_at

instance : IsTotal OutboxRow createdLE := ⟨fun a b => Nat.le_total a.created_at b.created_at⟩

instance : IsTrans OutboxRow createdLE :=
  ⟨fun a b _ hab hbc => Nat.le_trans (show a.created_at ≤ b.created_at from hab) hbc⟩

/-- The rows that satisfy `WHERE processed = false`, in storage order. -/
def pendingRows (table : OutboxTable) : List OutboxRow :=
  table.filter (fun r => r.processed = false)

/-- The rows returned by `SELECT ... FROM outbox WHERE processed = false
ORDER BY created_at ASC LIMIT $1`. Rows with equal `created_at` keep their
storage order. -/
def selectUnprocessed (table : OutboxTable) (limit : Nat) : List OutboxRow :=
  ((pendingRows table).insertionSort createdLE).take limit

/-- The loop `for rows.Next()` of `getUnprocessedEvents`, from row `i` on: a
failing `Scan` returns `nil, err`. -/
def scanRows (env : PollEnv) : Nat → List OutboxRow → Option (List OutboxEvent)
  | _, [] => some []
  | i, r :: rest =>
    if env.scanErr i then none
    else match scanRows env (i + 1) rest with
      | none => none
      | some events => some (r.toEvent :: events)

/-- The function `getUnprocessedEvents`; `none` stands for a returned error.
The database rejects a negative `LIMIT`. -/
def getUnprocessedEvents (env : PollEnv) (table : OutboxTable) (limit : Int) :
    Option (List OutboxEvent) :=
  if env.queryErr ∨ limit < 0 then none
  else match scanRows env 0 (selectUnprocessed table limit.toNat) with
    | none => none
    | some events => if env.rowsErr then none else some events

/-! ## Outbox publisher: `markEventsProcessed` -/

/-- The effect on one row of `UPDATE outbox SET processed = true,
processed_at = NOW() WHERE id = $1 AND processed = false`. -/
def markRow (sqlNow : Time) (id : UUID) (r : OutboxRow) : OutboxRow :=
  if r.id = id ∧ r.processed = false then
    { r with processed := true, processed_at := some sqlNow }
  else r

/-- One `UPDATE outbox SET processed = true, processed_at = NOW()
WHERE id = $1 AND processed = false`. -/
def updateOutboxProcessed (sqlNow : Time) (id : UUID) (table : OutboxTable) : OutboxTable :=
  table.map (markRow sqlNow id)

/-- The loop of `markEventsProcessed`, from the `i`-th id on: one `UPDATE` per
id, `return err` at the first failing one. The boolean tells whether an error
was returned. -/
def markLoop (env : PollEnv) : Nat → OutboxTable → List UUID → OutboxTable × Bool
  | _, table, [] => (table, false)
  | i, table, id :: rest =>
    if env.markErr i then (table, true)
    else markLoop env (i + 1) (updateOutboxProcessed (env.sqlNow i) id table) rest

/-- The function `markEventsProcessed`: the table afterwards and whether an
error was returned. -/
def markEventsProcessed (env : PollEnv) (table : OutboxTable) (eventIDs : List UUID) :
    OutboxTable × Bool :=
  if eventIDs.length = 0 then (table, false) else markLoop env 0 table eventIDs

/-! ## Outbox publisher: `processOutboxBatch` -/

/-- What happened to one event in the loop of `processOutboxBatch`. -/
inductive Attempt where
  /-- Exit by `continue` after `json.Marshal` failed. -/
  | marshalFailed (event : OutboxEvent)
  /-- Exit by `continue` after `js.Publish` failed. -/
  | publishFailed (event : OutboxEvent) (msgID : String) (message : ReplicationMessage)
  /-- The message reached the broker and the id was appended to `processedIDs`. -/
  | published (event : OutboxEvent) (msgID : String) (message : ReplicationMessage)
  deriving DecidableEq, Repr

/-- The event an iteration was about. -/
def Attempt.event : Attempt → OutboxEvent
  | .marshalFailed e => e
  | .publishFailed e _ _ => e
  | .published e _ _ => e

/-- Whether the iteration published its message. -/
def Attempt.isPublished : Attempt → Bool
  | .published _ _ _ => true
  | _ => false

/-- The loop over `events` in `processOutboxBatch`, from iteration `i` on: the
iterations in order and the slice `processedIDs`. -/
def publishLoop (env : PollEnv) : Nat → List OutboxEvent → List Attempt × List UUID
  | _, [] => ([], [])
  | i, event :: rest =>
    let message : ReplicationMessage :=
      { EventID := event.ID
        AggregateID := event.AggregateID
        AggregateType := event.AggregateType
        EventType := event.EventType
        EventData := event.EventData
        OriginalTime := event.CreatedAt
        PublishedAt := env.now i }
    let out := publishLoop env (i + 1) rest
    if env.marshalErr i then (.marshalFailed event :: out.1, out.2)
    else if env.publishErr i then
      (.publishFailed event (UUID.String event.ID) message :: out.1, out.2)
    else (.published event (UUID.String event.ID) message :: out.1, event.ID :: out.2)

/-- The observable result of one poll cycle. -/
structure PollResult where
  /-- The table `outbox` after the cycle. -/
  table : OutboxTable
  /-- Whether `getUnprocessedEvents` returned an error. -/
  readFailed : Bool
  /-- The iterations of the publishing loop, in order. -/
  attempts : List Attempt
  /-- The slice `processedIDs` after the loop. -/
  processedIDs : List UUID
  /-- Whether `markEventsProcessed` returned an error. -/
  markFailed : Bool
  deriving DecidableEq, Repr

/-- The function `processOutboxBatch`. -/
def processOutboxBatch (env : PollEnv) (table : OutboxTable) (batchSize : Int) : PollResult :=
  match getUnprocessedEvents env table batchSize with
  | none => ⟨table, true, [], [], false⟩
  | some events =>
    if events.length = 0 then ⟨table, false, [], [], false⟩
    else
      let out := publishLoop env 0 events
      if out.2.length > 0 then
        let marked := markEventsProcessed env table out.2
        ⟨marked.1, false, out.1, out.2, marked.2⟩
      else ⟨table, false, out.1, out.2, false⟩

/-! ## Auxiliary definitions of the statements -/

/-- The row of `inbox` that a committed `processMessage` leaves for the message. -/
def committedRow (env : Env) (rm : ReplicationMessage) : InboxRow :=
  { id := env.newID, event_id := rm.EventID, aggregate_id := rm.AggregateID,
    aggregate_type := rm.AggregateType, event_type := rm.EventType,
    event_data := rm.EventData, created_at := env.now,
    processed := true, processed_at := some env.sqlNow }

/-- Redelivery: the same message is handed to `processMessage` once per
environment of the list, each time on the database left by the previous call. -/
def deliver {σ : Type} (F : ApplyFns σ) (msg : Msg) : List Env → TargetDB σ → List (Result σ)
  | [], _ => []
  | env :: envs, db =>
    let r := processMessage F env db msg
    r :: deliver F msg envs r.db

/-- Whether the message parses with `aggregate_type = "user"`. -/
def Msg.isUser (m : Msg) : Bool :=
  match m.decoded with
  | none => false
  | some rm => decide (rm.AggregateType = "user")

/-- Whether the message parses with `aggregate_type = "payment"`. -/
def Msg.isPayment (m : Msg) : Bool :=
  match m.decoded with
  | none => false
  | some rm => decide (rm.AggregateType = "payment")

/-- The order the specification prescribes for a batch: the user messages in
received order followed by the payment messages in received order. -/
def stableReorder (messages : List Msg) : List Msg :=
  messages.filter Msg.isUser ++ messages.filter Msg.isPayment

/-- The change one poll cycle may make to a row, given the ids it marks: none,
or the flag goes from false to true and a time is stored, for a row whose id is
among the ids. -/
def MarkedFrom (ids : List UUID) (r r1 : OutboxRow) : Prop :=
  r1 = r ∨ (r.processed = false ∧ r.id ∈ ids ∧
    ∃ t, r1 = { r with processed := true, processed_at := some t })

/-- A run of poll cycles of the Outbox Publisher, each with its own
environment and batch size, on the table left by the previous one. -/
def pollCycles : List (PollEnv × Int) → OutboxTable → OutboxTable
  | [], table => table
  | c :: cycles, table => pollCycles cycles (processOutboxBatch c.1 table c.2).table

/-- What the specification asks of the envelope published for the event `e`
under the broker message id `msgID`: the fields are copied from the event and
the id is the text form of the event's id. -/
def Envelope (e : OutboxEvent) (msgID : String) (m : ReplicationMessage) : Prop :=
  m.EventID = e.ID ∧ m.AggregateID = e.AggregateID ∧ m.AggregateType = e.AggregateType ∧
    m.EventType = e.EventType ∧ m.EventData = e.EventData ∧ m.OriginalTime = e.CreatedAt ∧
    msgID = UUID.String e.ID

/-- The value of a decimal digit character. -/
def digitValue (c : Char) : Nat := c.toNat - 48

/-- The number read from a list of decimal digit characters, continuing from `acc`. -/
def decimalValue (acc : Nat) (cs : List Char) : Nat :=
  cs.foldl (fun a c => a * 10 + digitValue c) acc

/-- The SQL apply function that `processMessage` calls for a message of
aggregate type user or payment, on the aggregate state the transaction sees. -/
def applyFor {σ : Type} (F : ApplyFns σ) (rm : ReplicationMessage) (agg : σ) :
    Option (Bool × σ) :=
  if rm.AggregateType = "user" then
    F.process_user_event rm.EventID rm.EventType rm.EventData agg
  else F.process_payment_event rm.EventID rm.EventType rm.EventData agg

/-- The call of the apply function for a message of aggregate type user or
payment, with the three arguments passed. -/
def applyStep (rm : ReplicationMessage) : Step :=
  if rm.AggregateType = "user" then
    .processUserEvent .tx rm.EventID rm.EventType rm.EventData
  else .processPaymentEvent .tx rm.EventID rm.EventType rm.EventData

/-- The struct `inboxEvent` that `processMessage` builds for the message. -/
def inboxEventOf (env : Env) (rm : ReplicationMessage) : InboxEvent :=
  { ID := env.newID, EventID := rm.EventID, AggregateID := rm.AggregateID,
    AggregateType := rm.AggregateType, EventType := rm.EventType, EventData := rm.EventData,
    CreatedAt := env.now }

/-- The calls of a `processMessage` that commits, in order. -/
def committedSteps (env : Env) (rm : ReplicationMessage) : List Step :=
  [.isEventProcessed .db rm.EventID, .begin, .saveToInbox .tx (inboxEventOf env rm), applyStep rm,
    .markInboxProcessed .tx [env.newID], .commit]

/-- Whether a call is one of the two apply calls. -/
def Step.isApply : Step → Bool
  | .processUserEvent _ _ _ _ => true
  | .processPaymentEvent _ _ _ _ => true
  | _ => false

/-- Whether a call is the inbox insert. -/
def Step.isInsert : Step → Bool
  | .saveToInbox _ _ => true
  | _ => false

/-- No statement of the call fails for a reason of the connection. -/
def Env.NoFault (env : Env) : Prop :=
  env.checkErr = false ∧ env.beginErr = false ∧ env.insertErr = false ∧
    env.applyErr = false ∧ env.markErr = false ∧ env.commitErr = false

/-- The number of inbox rows with the given `event_id` and `processed = true`. -/
def processedCount (inbox : List InboxRow) (e : UUID) : Nat :=
  inbox.countP (fun r => r.event_id == e && r.processed)

/-- The invariant of the Inbox Table: at most one row with `processed = true`
per `event_id`. -/
def AtMostOnce {σ : Type} (db : TargetDB σ) : Prop :=
  ∀ e, processedCount db.inbox e ≤ 1

/-- Whether an iteration of `processMessageBatch` committed the apply function
for the given `event_id`: it took the exit `done` on a message of that event. -/
def Handled.committed {σ : Type} (e : UUID) (h : Handled σ) : Bool :=
  decide (h.result.exit = .done) &&
    match h.msg.decoded with
    | some rm => rm.EventID == e
    | none => false

/-- The number of iterations of a batch that committed the apply function for
the given `event_id`. -/
def commitCount {σ : Type} (handled : List (Handled σ)) (e : UUID) : Nat :=
  handled.countP (Handled.committed e)

/-- Whether a call belongs to the transaction: `Begin`, `Commit` and `Rollback`
do, the idempotency query does not, and any other call does when it is issued
on the handle `tx`. -/
def Step.inTransaction : Step → Bool
  | .isEventProcessed _ _ => false
  | .saveToInbox h _ => decide (h = .tx)
  | .processUserEvent h _ _ _ => decide (h = .tx)
  | .processPaymentEvent h _ _ _ => decide (h = .tx)
  | .markInboxProcessed h _ => decide (h = .tx)
  | .begin => true
  | .commit => true
  | .rollback => true

/-- The call sequences that `processMessage` can issue after the idempotency
query once it has called `db.Begin()`: `Begin` alone when it fails; otherwise
`Begin`, then a prefix of insert, apply call and mark, all on `tx`, closed by
the deferred `Rollback` (a failing step, an unknown aggregate type, a failed
`Commit`) or by `Commit`. Each holds `Begin` once, at its head. -/
def transactionTraces (env : Env) (rm : ReplicationMessage) : List (List Step) :=
  [[.begin],
    [.begin, .saveToInbox .tx (inboxEventOf env rm), .rollback],
    [.begin, .saveToInbox .tx (inboxEventOf env rm), applyStep rm, .rollback],
    [.begin, .saveToInbox .tx (inboxEventOf env rm), applyStep rm,
      .markInboxProcessed .tx [env.newID], .rollback],
    [.begin, .saveToInbox .tx (inboxEventOf env rm), applyStep rm,
      .markInboxProcessed .tx [env.newID], .commit, .rollback],
    [.begin, .saveToInbox .tx (inboxEventOf env rm), applyStep rm,
      .markInboxProcessed .tx [env.newID], .commit]]

/-! ## Outbox publisher: configuration read by `main` -/

/-- The function `getEnvOrDefault`, given the value of `os.Getenv(key)`, which
is the empty string for a variable that is not set. -/
def getEnvOrDefault (value defaultValue : String) : String :=
  if value ≠ "" then value else defaultValue

/-- The digits part of `strconv.Atoi`: a non-empty run of decimal digits. -/
def parseDigits (cs : List Char) : Option Nat :=
  if cs = [] ∨ ¬ cs.all Char.isDigit then none else some (decimalValue 0 cs)

/-- The function `strconv.Atoi` for a 64-bit `int`: an optional sign, then
decimal digits; `none` stands for a returned error (syntax or range). -/
def Atoi (s : String) : Option Int :=
  match s.data with
  | '-' :: cs =>
    match parseDigits cs with
    | some n => if (n : Int) ≤ 2 ^ 63 then some (-(n : Int)) else none
    | none => none
  | '+' :: cs =>
    match parseDigits cs with
    | some n => if (n : Int) < 2 ^ 63 then some (n : Int) else none
    | none => none
  | cs =>
    match parseDigits cs with
    | some n => if (n : Int) < 2 ^ 63 then some (n : Int) else none
    | none => none

/-- The two numbers `main` of the Outbox Publisher derives from the
environment: `pollInterval` and `batchSize`. -/
structure PublisherConfig where
  pollInterval : Int
  batchSize : Int
  deriving DecidableEq, Repr

/-- Lines 52-62 of `main`: each variable is read with its default, converted
by `strconv.Atoi`, and replaced by the default when the conversion fails. -/
def publisherConfig (pollIntervalEnv batchSizeEnv : String) : PublisherConfig :=
  let pollIntervalStr := getEnvOrDefault pollIntervalEnv "1"
  let pollInterval := match Atoi pollIntervalStr with
    | some v => v
    | none => 1
  let batchSizeStr := getEnvOrDefault batchSizeEnv "10"
  let batchSize := match Atoi batchSizeStr with
    | some v => v
    | none => 10
  ⟨pollInterval, batchSize⟩

/-- The value of `time.Duration(pollInterval) * time.Second`: nanoseconds in a
signed 64-bit integer. -/
def tickerDuration (pollInterval : Int) : Int :=
  (pollInterval * 1000000000 + 2 ^ 63) % 2 ^ 64 - 2 ^ 63

/-- The function `time.NewTicker`, which panics (`none`) for a duration that is
not positive. -/
def NewTicker (d : Int) : Option Int :=
  if d ≤ 0 then none else some d

/-! ## Data generator: `transliterate` -/

/-- The map `translitMap` of `transliterate`; `none` for a rune that is not a key. -/
def translitMap (c : Char) : Option String :=
  match c with
  | 'А' => some "a" | 'Б' => some "b" | 'В' => some "v" | 'Г' => some "g"
  | 'Д' => some "d" | 'Е' => some "e" | 'Ж' => some "zh" | 'З' => some "z"
  | 'И' => some "i" | 'Й' => some "y" | 'К' => some "k" | 'Л' => some "l"
  | 'М' => some "m" | 'Н' => some "n" | 'О' => some "o" | 'П' => some "p"
  | 'Р' => some "r" | 'С' => some "s" | 'Т' => some "t" | 'У' => some "u"
  | 'Ф' => some "f" | 'Х' => some "h" | 'Ц' => some "ts" | 'Ч' => some "ch"
  | 'Ш' => some "sh" | 'Щ' => some "sch" | 'Ы' => some "y" | 'Э' => some "e"
  | 'Ю' => some "yu" | 'Я' => some "ya" | 'Ь' => some "" | 'Ъ' => some ""
  | 'а' => some "a" | 'б' => some "b" | 'в' => some "v" | 'г' => some "g"
  | 'д' => some "d" | 'е' => some "e" | 'ж' => some "zh" | 'з' => some "z"
  | 'и' => some "i" | 'й' => some "y" | 'к' => some "k" | 'л' => some "l"
  | 'м' => some "m" | 'н' => some "n" | 'о' => some "o" | 'п' => some "p"
  | 'р' => some "r" | 'с' => some "s" | 'т' => some "t" | 'у' => some "u"
  | 'ф' => some "f" | 'х' => some "h" | 'ц' => some "ts" | 'ч' => some "ch"
  | 'ш' => some "sh" | 'щ' => some "sch" | 'ы' => some "y" | 'э' => some "e"
  | 'ю' => some "yu" | 'я' => some "ya" | 'ь' => some "" | 'ъ' => some ""
  | _ => none

/-- The function `transliterate`: the runes of the text are visited in order;
a rune that is a key of the map contributes its Latin text, any other rune is
appended unchanged. -/
def transliterate (text : String) : String :=
  text.data.foldl
    (fun result char =>
      match translitMap char with
      | some latin => result ++ latin
      | none => result ++ String.singleton char)
    ""

/-- Whether a text consists of lower-case ASCII Latin letters only. -/
def isLowerLatin (s : String) : Bool :=
  s.data.all (fun c => decide ('a' ≤ c ∧ c ≤ 'z'))

/-- The slice `firstNames` of the data generator. -/
def firstNames : List String :=
  ["Александр", "Мария", "Дмитрий", "Елена", "Сергей", "Ольга", "Андрей", "Наталья",
    "Максим", "Анна", "Игорь", "Светлана", "Алексей", "Татьяна", "Владимир", "Ирина"]

/-- The slice `lastNames` of the data generator. -/
def lastNames : List String :=
  ["Иванов", "Петров", "Сидоров", "Козлов", "Соколов", "Попов", "Новиков", "Морозов",
    "Волков", "Зайцев", "Михайлов", "Федоров", "Смирнов", "Васильев", "Николаев", "Романов"]

/-- The field `Email` that `generateUser` builds from the two names and the
domain it has drawn: `fmt.Sprintf("%s.%s@%s", ...)`. -/
def generateUserEmail (firstName lastName domain : String) : String :=
  transliterate firstName ++ "." ++ transliterate lastName ++ "@" ++ domain

/-- Whether a rune is one of the 64 letters `А`..`я` (U+0410..U+044F): the 32
upper-case letters `А`..`Я` followed by the 32 lower-case letters `а`..`я`.
The letters `Ё` (U+0401) and `ё` (U+0451) lie outside this range. -/
def isRussianLetter (c : Char) : Bool :=
  decide ('А' ≤ c ∧ c ≤ 'я')

/-! ## Aggregator (`homework-3/aggregator`) -/

/-- The Go struct `ErrorLog`. -/
structure ErrorLog where
  Timestamp : String
  Service : String
  Error : String
  ProcessedAt : String
  deriving DecidableEq, Repr

/-- A `map[string]int` as a list of entries with distinct keys; counts are
taken far below the 64-bit range of `int`. -/
abbrev CountMap := List (String × Nat)

/-- The read `m[k]`: the zero value for a key that is absent. -/
def CountMap.get (m : CountMap) (k : String) : Nat :=
  match m.lookup k with
  | some v => v
  | none => 0

/-- The write `m[k] = v`. -/
def CountMap.set : CountMap → String → Nat → CountMap
  | [], k, v => [(k, v)]
  | (k1, v1) :: rest, k, v =>
    if k1 = k then (k, v) :: rest else (k1, v1) :: CountMap.set rest k v

/-- The statement `errorCounts[errorLog.Service]++`. -/
def CountMap.incr (m : CountMap) (k : String) : CountMap :=
  m.set k (m.get k + 1)

/-- The loop `for _, count := range errorCounts { totalErrors += count }`. -/
def CountMap.total (m : CountMap) : Nat :=
  m.foldl (fun totalErrors kv => totalErrors + kv.2) 0

/-- The function `copyMap`. -/
def copyMap (original : CountMap) : CountMap :=
  original.foldl (fun copy kv => copy.set kv.1 kv.2) []

/-- The Go struct `ErrorStats`, with the three times kept as clock values. -/
structure ErrorStats where
  WindowStart : Time
  WindowEnd : Time
  Services : CountMap
  TotalErrors : Nat
  GeneratedAt : Time
  deriving DecidableEq, Repr

/-- The two cases of the `select` in the main loop of the aggregator: a message
from `messageChan`, with what `json.Unmarshal` yields for its value (`none` for
an error), or a tick, with the two readings of the clock and whether
`json.Marshal` and `writer.WriteMessages` fail. -/
inductive AggEvent where
  | message (errorLog : Option ErrorLog)
  | tick (now generatedAt : Time) (marshalErr writeErr : Bool)
  deriving DecidableEq, Repr

/-- The variables `errorCounts` and `windowStart` of the main loop. -/
structure AggState where
  errorCounts : CountMap
  windowStart : Time
  deriving DecidableEq, Repr

/-- One iteration of the main loop of the aggregator: the new state and the
statistics written to the output topic in this iteration. -/
def aggStep (st : AggState) : AggEvent → AggState × List ErrorStats
  | .message none => (st, [])
  | .message (some errorLog) =>
    ({ st with errorCounts := st.errorCounts.incr errorLog.Service }, [])
  | .tick now generatedAt marshalErr writeErr =>
    if st.errorCounts.length > 0 then
      let stats : ErrorStats :=
        { WindowStart := st.windowStart
          WindowEnd := now
          Services := copyMap st.errorCounts
          TotalErrors := st.errorCounts.total
          GeneratedAt := generatedAt }
      if marshalErr then (st, [])
      else ({ errorCounts := [], windowStart := now }, if writeErr then [] else [stats])
    else (st, [])

/-- The main loop of the aggregator over a sequence of events: the final state
and the statistics written, in order. -/
def aggRun (st : AggState) : List AggEvent → AggState × List ErrorStats
  | [] => (st, [])
  | ev :: rest =>
    let r := aggStep st ev
    let out := aggRun r.1 rest
    (out.1, r.2 ++ out.2)

/-- The number of successfully parsed messages of a window whose service is `s`. -/
def serviceCount (w : List (Option ErrorLog)) (s : String) : Nat :=
  (w.filterMap id).countP (fun e => e.Service = s)

/-- The number of successfully parsed messages of a window. -/
def parsedCount (w : List (Option ErrorLog)) : Nat :=
  (w.filterMap id).length

/-- The counters after the messages of a window, starting from `m`: a message
that does not parse is skipped, any other increments the counter of its service. -/
def countWindow (m : CountMap) (w : List (Option ErrorLog)) : CountMap :=
  w.foldl
    (fun c o =>
      match o with
      | some errorLog => c.incr errorLog.Service
      | none => c)
    m

/-- The window after one more event of the main loop, `w` being the messages
of the window so far: a received message joins the window; a tick closes the
window, and the next one starts empty, when the counters are not empty (some
message of the window parsed) and `json.Marshal` succeeds, whether or not the
write succeeds; any other tick leaves the window open. -/
def windowStep (w : List (Option ErrorLog)) : AggEvent → List (Option ErrorLog)
  | .message errorLog => w ++ [errorLog]
  | .tick _ _ marshalErr _ => if 0 < parsedCount w ∧ marshalErr = false then [] else w

/-- The open window after a sequence of events of the main loop: the messages
received since the counters were last reset, or since the start. -/
def sinceReset (evs : List AggEvent) : List (Option ErrorLog) :=
  evs.foldl windowStep []

/-! ## Stats consumer (`homework-3/stats-consumer`): the sort of `displayStats` -/

/-- The local struct `serviceError` of `displayStats`. -/
structure ServiceError where
  name : String
  count : Int
  deriving DecidableEq, Repr

/-- The body of the inner loop of `displayStats`:
`if sorted[j].count > sorted[i].count { sorted[i], sorted[j] = sorted[j], sorted[i] }`. -/
def compareSwap (sorted : List ServiceError) (i j : Nat) : List ServiceError :=
  match sorted[i]?, sorted[j]? with
  | some si, some sj =>
    if sj.count > si.count then (sorted.set i sj).set j si else sorted
  | _, _ => sorted

/-- The inner loop `for j := i + 1; j < len(sorted); j++` for a given `i`. -/
def innerLoop (sorted : List ServiceError) (i : Nat) : List ServiceError :=
  (List.range' (i + 1) (sorted.length - (i + 1))).foldl (fun acc j => compareSwap acc i j) sorted

/-- The nested loops of `displayStats`: `for i := 0; i < len(sorted); i++`
around the inner loop. -/
def sortDescending (sorted : List ServiceError) : List ServiceError :=
  (List.range' 0 sorted.length).foldl innerLoop sorted

/-- The inner loop seen from position `i`: the entry held at position `i` is
compared with each later entry in turn and exchanged with it when that entry has
the larger count. The result is the entry left at position `i` and the later
entries. -/
def exchangePass : ServiceError → List ServiceError → ServiceError × List ServiceError
  | si, [] => (si, [])
  | si, sj :: rest =>
    if sj.count > si.count then ((exchangePass sj rest).1, si :: (exchangePass sj rest).2)
    else ((exchangePass si rest).1, sj :: (exchangePass si rest).2)

/-! ## Sample data -/

/-- Sample apply functions on a list of payloads: the user function fails on
the payload `bad`, the payment function reports whether the payload is new. -/
def sampleApply : ApplyFns (List String) :=
  { process_user_event := fun _ _ d agg => if d = "bad" then none else some (true, agg ++ [d])
    process_payment_event := fun _ _ d agg => some (decide (d ∉ agg), agg ++ [d]) }

/-- An environment in which no statement fails. -/
def calmEnv : Env :=
  { checkErr := false, beginErr := false, insertErr := false, applyErr := false,
    markErr := false, commitErr := false, newID := 100, now := 7, sqlNow := 8 }

/-- A user message. -/
def userMsg : Msg := ⟨1, some ⟨11, 21, "user", "created", "u1", 1, 2⟩⟩

/-- A payment message. -/
def paymentMsg : Msg := ⟨2, some ⟨12, 22, "payment", "created", "p1", 1, 2⟩⟩

/-- A message whose payload does not parse. -/
def poisonMsg : Msg := ⟨3, none⟩

/-- A message that parses with an aggregate type other than user and payment. -/
def orderMsg : Msg := ⟨4, some ⟨14, 24, "order", "created", "o1", 1, 2⟩⟩

/-- A target database whose inbox holds a processed row for event 14. -/
def dbWithOrder : TargetDB (List String) :=
  ⟨[⟨90, 14, 24, "order", "created", "o1", 5, true, some 6⟩], []⟩

/-- A poll environment in which nothing fails; the clocks advance with the
iteration. -/
def steadyPoll : PollEnv :=
  { queryErr := false, scanErr := fun _ => false, rowsErr := false,
    marshalErr := fun _ => false, publishErr := fun _ => false, markErr := fun _ => false,
    now := fun i => 10 + i, sqlNow := fun i => 20 + i }

/-- The pending outbox row A, created at time 1. -/
def rowA : OutboxRow := ⟨1, 51, "user", "created", "a", 1, false, none⟩

/-- The pending outbox row B, created at time 2. -/
def rowB : OutboxRow := ⟨2, 52, "payment", "created", "b", 2, false, none⟩

/-- The pending outbox row C, created at time 3. -/
def rowC : OutboxRow := ⟨3, 53, "user", "created", "c", 3, false, none⟩

/-- A target database whose inbox holds a processed row for event 11. -/
def dbWithUser : TargetDB (List String) :=
  ⟨[⟨91, 11, 21, "user", "created", "u1", 5, true, some 6⟩], ["u1"]⟩

/-- An environment in which the query of the apply function fails. -/
def applyFailEnv : Env := { calmEnv with applyErr := true }

/-- A poll environment in which `js.Publish` fails for the first event only. -/
def flakyPoll : PollEnv := { steadyPoll with publishErr := fun i => decide (i = 0) }

/-- A poll environment in which the first `UPDATE` of the marking step fails. -/
def markFailPoll : PollEnv := { steadyPoll with markErr := fun i => decide (i = 0) }

/-- A poll environment in which the second `UPDATE` of the marking step fails. -/
def secondMarkFailPoll : PollEnv := { steadyPoll with markErr := fun i => decide (i = 1) }

/-- Environments of a batch in which nothing fails and iteration `i` draws the
new id `100 + i`. -/
def countingEnv (i : Nat) : Env := { calmEnv with newID := 100 + i }

/-- A poll environment in which the query for unprocessed events fails. -/
def downPoll : PollEnv := { steadyPoll with queryErr := true }

/-- A target database whose aggregate state already holds the payload `p1`,
so that the sample payment function returns false for it. -/
def dbPaid : TargetDB (List String) := ⟨[], ["p1"]⟩

/-- A window of four messages: two of the service `auth`, one that does not
parse and one of the service `db`. -/
def sampleWindow : List (Option ErrorLog) :=
  [some ⟨"t1", "auth", "e1", "p1"⟩, none, some ⟨"t2", "db", "e2", "p2"⟩,
    some ⟨"t3", "auth", "e3", "p3"⟩]

/-! ## Inbox processor: basic facts -/

theorem saveToInbox_snapshot {σ : Type} {env : Env} {tx tx1 : Tx σ} {event : InboxEvent}
    (h : saveToInbox env tx event = some tx1) :
    tx1.snapshot = tx.snapshot ∧ tx1.work.agg = tx.work.agg ∧
      tx1.work.inbox = tx.work.inbox ++ [event.toRow] := by
  unfold saveToInbox at h
  split at h
  · cases h
  · cases h; exact ⟨rfl, rfl, rfl⟩

theorem markInboxProcessed_one {σ : Type} {env : Env} {tx tx3 : Tx σ} {id : UUID}
    (h : markInboxProcessed env tx [id] = some tx3) :
    tx3.snapshot = tx.snapshot ∧ tx3.work.agg = tx.work.agg ∧
      tx3.work.inbox = updateInboxProcessed env.sqlNow id tx.work.inbox := by
  simp only [markInboxProcessed] at h
  split at h
  · cases h
  · cases h; exact ⟨rfl, rfl, rfl⟩

theorem dispatch_snapshot {σ : Type} {F : ApplyFns σ} {env : Env} {tx tx2 : Tx σ}
    {rm : ReplicationMessage} {call : Step} {b : Bool}
    (h : dispatch F env tx rm = some (call, some (b, tx2))) :
    tx2.snapshot = tx.snapshot ∧ tx2.work.inbox = tx.work.inbox ∧
      (rm.AggregateType = "user" ∨ rm.AggregateType = "payment") := by
  unfold dispatch at h
  split at h
  · rename_i hu
    simp only [Option.some.injEq, Prod.mk.injEq] at h
    obtain ⟨-, h⟩ := h
    unfold processUserEvent at h
    split at h
    · cases h
    · split at h
      · cases h
      · cases h; exact ⟨rfl, rfl, Or.inl hu⟩
  · split at h
    · rename_i hp
      simp only [Option.some.injEq, Prod.mk.injEq] at h
      obtain ⟨-, h⟩ := h
      unfold processPaymentEvent at h
      split at h
      · cases h
      · split at h
        · cases h
        · cases h; exact ⟨rfl, rfl, Or.inr hp⟩
    · cases h

/-- Every call of `processMessage` either leaves the committed database as it
was and does not take the exit `done`, or takes the exit `done`, returns true
and commits the inbox with the new row appended and the rows of the new id marked. -/
theorem processMessage_cases {σ : Type} (F : ApplyFns σ) (env : Env) (db : TargetDB σ)
    (msg : Msg) :
    ((processMessage F env db msg).db = db ∧ (processMessage F env db msg).exit ≠ .done ∧
        ((processMessage F env db msg).ok = true ↔
          (processMessage F env db msg).exit = .duplicate)) ∨
    (∃ rm, msg.decoded = some rm ∧ (processMessage F env db msg).exit = .done ∧
        (processMessage F env db msg).ok = true ∧
        isEventProcessed env db rm.EventID = some false ∧
        (rm.AggregateType = "user" ∨ rm.AggregateType = "payment") ∧
        (processMessage F env db msg).db.inbox =
          updateInboxProcessed env.sqlNow env.newID
            (db.inbox ++ [{ committedRow env rm with processed := false, processed_at := none }])) := by
  unfold processMessage
  split
  · left; simp
  · rename_i rm hrm
    split
    · left; simp
    · left; simp
    · rename_i hchk
      split
      · left; simp
      · rename_i tx htx
        have htx0 : tx.snapshot = db ∧ tx.work = db := by
          unfold Begin at htx
          split at htx
          · cases htx
          · cases htx; exact ⟨rfl, rfl⟩
        dsimp only
        split
        · left; simp [Tx.Rollback, htx0.1]
        · rename_i tx1 h1
          have e1 := saveToInbox_snapshot h1
          split
          · left; simp [Tx.Rollback, htx0.1, e1.1]
          · left; simp [Tx.Rollback, htx0.1, e1.1]
          · rename_i call b tx2 h2
            have e2 := dispatch_snapshot h2
            split
            · left; simp [Tx.Rollback, htx0.1, e1.1, e2.1]
            · rename_i tx3 h3
              have e3 := markInboxProcessed_one h3
              split
              · left; simp [Tx.Rollback, htx0.1, e1.1, e2.1, e3.1]
              · rename_i db1 h4
                right
                refine ⟨rm, hrm, rfl, rfl, hchk, e2.2.2, ?_⟩
                unfold Tx.Commit at h4
                split at h4
                · cases h4
                · cases h4
                  simp only
                  rw [e3.2.2, e2.2.1, e1.2.2, htx0.2]
                  rfl

theorem is_event_processed_append {σ : Type} (db : TargetDB σ) (agg : σ) (e : UUID)
    (sqlNow : Time) (id : UUID) (row : InboxRow) (hrow : row.event_id = e) (hid : row.id = id) :
    is_event_processed
      (⟨updateInboxProcessed sqlNow id (db.inbox ++ [row]), agg⟩ : TargetDB σ) e = true := by
  unfold is_event_processed updateInboxProcessed markInboxRow
  rw [List.any_eq_true]
  by_cases hp : row.processed = true
  · refine ⟨row, ?_, by simp [hrow, hp]⟩
    rw [List.mem_map]
    exact ⟨row, by simp, by simp [hp]⟩
  · refine ⟨{ row with processed := true, processed_at := some sqlNow }, ?_, by simp [hrow]⟩
    rw [List.mem_map]
    refine ⟨row, by simp, ?_⟩
    have : row.processed = false := by simpa using hp
    simp [hid, this]

/-- The exit `duplicate` is taken only when the idempotency query answered true. -/
theorem processMessage_exit_duplicate {σ : Type} (F : ApplyFns σ) (env : Env) (db : TargetDB σ)
    (msg : Msg) (h : (processMessage F env db msg).exit = .duplicate) :
    ∃ rm, msg.decoded = some rm ∧ isEventProcessed env db rm.EventID = some true := by
  unfold processMessage at h
  split at h
  · simp at h
  · rename_i rm hrm
    split at h
    · simp at h
    · rename_i hc
      exact ⟨rm, hrm, hc⟩
    · exfalso
      revert h
      dsimp only
      repeat' split
      all_goals simp

/-- After a call that returned true the idempotency predicate holds for the
event of the message. -/
theorem processMessage_marks {σ : Type} (F : ApplyFns σ) (env : Env) (db : TargetDB σ)
    (msg : Msg) (rm : ReplicationMessage) (hm : msg.decoded = some rm)
    (hok : (processMessage F env db msg).ok = true) :
    is_event_processed (processMessage F env db msg).db rm.EventID = true := by
  rcases processMessage_cases F env db msg with ⟨hdb, -, hiff⟩ | ⟨rm1, hm1, -, -, -, -, hin⟩
  · obtain ⟨rm1, hm1, hq⟩ := processMessage_exit_duplicate F env db msg (hiff.1 hok)
    rw [hm] at hm1
    cases hm1
    rw [hdb]
    unfold isEventProcessed at hq
    split at hq
    · cases hq
    · simpa using hq
  · rw [hm] at hm1
    cases hm1
    have := is_event_processed_append db (processMessage F env db msg).db.agg rm.EventID
      env.sqlNow env.newID
      { committedRow env rm with processed := false, processed_at := none } rfl rfl
    rw [← hin] at this
    exact this

/-- The duplicate path: when the message parses and the idempotency query
answers true, `processMessage` returns true at once. -/
theorem processMessage_duplicate {σ : Type} (F : ApplyFns σ) (env : Env) (db : TargetDB σ)
    (msg : Msg) (rm : ReplicationMessage) (hm : msg.decoded = some rm)
    (hdup : isEventProcessed env db rm.EventID = some true) :
    processMessage F env db msg =
      ⟨true, db, .duplicate, [Step.isEventProcessed .db rm.EventID]⟩ := by
  unfold processMessage
  rw [hm]
  simp only [hdup]

/-- When the predicate holds for the event of the message, `processMessage`
makes the idempotency query and nothing else, whatever the environment. -/
theorem processMessage_processed {σ : Type} (F : ApplyFns σ) (env : Env) (db : TargetDB σ)
    (msg : Msg) (rm : ReplicationMessage) (hm : msg.decoded = some rm)
    (hp : is_event_processed db rm.EventID = true) :
    (processMessage F env db msg).db = db ∧
      (processMessage F env db msg).steps = [Step.isEventProcessed .db rm.EventID] ∧
      ((processMessage F env db msg).ok = true ↔ env.checkErr = false) := by
  by_cases hc : env.checkErr = true
  · have : isEventProcessed env db rm.EventID = none := by simp [isEventProcessed, hc]
    unfold processMessage
    rw [hm]
    simp [this, hc]
  · have hc0 : env.checkErr = false := by simpa using hc
    have : isEventProcessed env db rm.EventID = some true := by
      simp [isEventProcessed, hc0, hp]
    rw [processMessage_duplicate F env db msg rm hm this]
    simp [hc0]

theorem deliver_length {σ : Type} (F : ApplyFns σ) (msg : Msg) (envs : List Env)
    (db : TargetDB σ) : (deliver F msg envs db).length = envs.length := by
  induction envs generalizing db with
  | nil => rfl
  | cons env envs ih => simp [deliver, ih]

theorem deliver_processed {σ : Type} (F : ApplyFns σ) (msg : Msg) (rm : ReplicationMessage)
    (hm : msg.decoded = some rm) (envs : List Env) (db : TargetDB σ)
    (hp : is_event_processed db rm.EventID = true) :
    (∀ r ∈ deliver F msg envs db,
        r.db = db ∧ r.steps = [Step.isEventProcessed .db rm.EventID]) ∧
      ((∀ env ∈ envs, env.checkErr = false) → ∀ r ∈ deliver F msg envs db, r.ok = true) := by
  induction envs with
  | nil => simp [deliver]
  | cons env envs ih =>
    obtain ⟨h1, h2, h3⟩ := processMessage_processed F env db msg rm hm hp
    refine ⟨fun r hr => ?_, fun hc r hr => ?_⟩
    · simp only [deliver, List.mem_cons] at hr
      rcases hr with rfl | hr
      · exact ⟨h1, h2⟩
      · rw [h1] at hr
        exact ih.1 r hr
    · simp only [deliver, List.mem_cons] at hr
      rcases hr with rfl | hr
      · exact h3.2 (hc env (List.mem_cons_self _ _))
      · rw [h1] at hr
        exact ih.2 (fun e he => hc e (List.mem_cons_of_mem _ he)) r hr

/-! ## Claims on the inbox processor -/

/-- C1. Idempotence under redelivery: if `processMessage` returns true for a
user or payment message `m` and leaves the database `s1`, then in any number
of further deliveries of `m` starting from `s1` every call leaves the committed
database, and so the aggregate state, equal to `s1` and issues the idempotency
query and no other statement (no inbox row is inserted, no apply function is
called); and every call returns true, the idempotency query being answered by
the database as the predicate on inbox rows prescribes. -/
theorem processMessage_redelivery_idempotent {σ : Type} (F : ApplyFns σ) (env : Env)
    (s : TargetDB σ) (m : Msg) (rm : ReplicationMessage) (envs : List Env)
    (hm : m.decoded = some rm)
    (hty : rm.AggregateType = "user" ∨ rm.AggregateType = "payment")
    (hok : (processMessage F env s m).ok = true) :
    (deliver F m envs (processMessage F env s m).db).length = envs.length ∧
      (∀ r ∈ deliver F m envs (processMessage F env s m).db,
        r.db = (processMessage F env s m).db ∧
          r.db.agg = (processMessage F env s m).db.agg ∧
          r.steps = [Step.isEventProcessed .db rm.EventID]) ∧
      ((∀ e ∈ envs, e.checkErr = false) →
        ∀ r ∈ deliver F m envs (processMessage F env s m).db, r.ok = true) := by
  have _ := hty
  have hp := processMessage_marks F env s m rm hm hok
  obtain ⟨h1, h2⟩ := deliver_processed F m rm hm envs _ hp
  refine ⟨deliver_length F m envs _, fun r hr => ⟨(h1 r hr).1, ?_, (h1 r hr).2⟩, h2⟩
  rw [(h1 r hr).1]

/-! ### The order of a batch -/

theorem foldl_sortStep (messages : List Msg) (acc : List Msg × List Msg) :
    messages.foldl sortStep acc =
      (acc.1 ++ messages.filter Msg.isUser, acc.2 ++ messages.filter Msg.isPayment) := by
  induction messages generalizing acc with
  | nil => simp
  | cons m ms ih =>
    rw [List.foldl_cons, ih]
    unfold sortStep
    cases hd : m.decoded with
    | none => simp [List.filter_cons, Msg.isUser, Msg.isPayment, hd]
    | some rm =>
      by_cases hu : rm.AggregateType = "user"
      · have hp : rm.AggregateType ≠ "payment" := by rw [hu]; decide
        simp [List.filter_cons, Msg.isUser, Msg.isPayment, hd, hu]
      · by_cases hp : rm.AggregateType = "payment"
        · simp [List.filter_cons, Msg.isUser, Msg.isPayment, hd, hp]
        · simp [List.filter_cons, Msg.isUser, Msg.isPayment, hd, hu, hp]

theorem allMessages_eq (messages : List Msg) : allMessages messages = stableReorder messages := by
  simp [allMessages, stableReorder, foldl_sortStep]

theorem processLoop_msgs {σ : Type} (F : ApplyFns σ) (env : Nat → Env) (i : Nat)
    (db : TargetDB σ) (msgs : List Msg) :
    (processLoop F env i db msgs).2.map (fun h => h.msg) = msgs := by
  induction msgs generalizing i db with
  | nil => rfl
  | cons m ms ih => simp [processLoop, ih]

/-- The messages of the iterations of `processMessageBatch`, in order. -/
theorem processMessageBatch_msgs {σ : Type} (F : ApplyFns σ) (env : Nat → Env)
    (db : TargetDB σ) (messages : List Msg) :
    (processMessageBatch F env db messages).2.map (fun h => h.msg) = stableReorder messages := by
  unfold processMessageBatch
  rw [processLoop_msgs, allMessages_eq]

/-- C2. Stable reordering: the messages that `processMessageBatch` hands to
`processMessage`, in the order it does so, are the messages of the batch with
`aggregate_type = "user"` in received order followed by those with
`aggregate_type = "payment"` in received order. Hence in the processed
sequence no payment message stands before a user message, and each of the two
parts is a subsequence of the batch as received. -/
theorem processMessageBatch_stable_reorder {σ : Type} (F : ApplyFns σ) (env : Nat → Env)
    (db : TargetDB σ) (messages : List Msg) :
    (processMessageBatch F env db messages).2.map (fun h => h.msg) = stableReorder messages ∧
      (∀ i j (hi : i < (stableReorder messages).length) (hj : j < (stableReorder messages).length),
        ((stableReorder messages).get ⟨i, hi⟩).isPayment = true →
        ((stableReorder messages).get ⟨j, hj⟩).isUser = true → j < i) ∧
      (messages.filter Msg.isUser).Sublist messages ∧
      (messages.filter Msg.isPayment).Sublist messages := by
  refine ⟨?_, ?_, List.filter_sublist _, List.filter_sublist _⟩
  · exact processMessageBatch_msgs F env db messages
  · intro i j hi hj hpi huj
    by_contra hij
    have hle : i ≤ j := Nat.le_of_not_lt hij
    have excl : ∀ m : Msg, m.isUser = true → m.isPayment = true → False := by
      intro m hu hp
      unfold Msg.isUser at hu
      unfold Msg.isPayment at hp
      cases hd : m.decoded with
      | none => simp [hd] at hu
      | some rm =>
        simp only [hd, decide_eq_true_eq] at hu hp
        rw [hu] at hp
        exact absurd hp (by decide)
    unfold stableReorder at hi hj hpi huj
    by_cases h1 : i < (messages.filter Msg.isUser).length
    · rw [List.get_eq_getElem, List.getElem_append_left h1] at hpi
      have hmem := List.getElem_mem h1
      exact excl _ (List.mem_filter.1 hmem).2 hpi
    · have h2 : ¬ j < (messages.filter Msg.isUser).length := by omega
      have h2le : (messages.filter Msg.isUser).length ≤ j := Nat.le_of_not_lt h2
      rw [List.get_eq_getElem, List.getElem_append_right h2le] at huj
      have hmem := List.getElem_mem
        (show j - (messages.filter Msg.isUser).length < (messages.filter Msg.isPayment).length by
          rw [List.length_append] at hj; omega)
      exact excl _ huj (List.mem_filter.1 hmem).2

/-! ### Failure exits -/

/-- C3. Atomicity of `processMessage`: when the call leaves because the
transaction could not be opened, the inbox insert failed, the aggregate type
was not dispatchable, the apply function returned an error, the mark-processed
update failed or the commit failed, it returns false and the committed target
database is the one before the call: the same inbox rows and the same
aggregate state. -/
theorem processMessage_failure_atomic {σ : Type} (F : ApplyFns σ) (env : Env)
    (s : TargetDB σ) (m : Msg)
    (h : (processMessage F env s m).exit ∈
      [Exit.beginError, Exit.insertError, Exit.unknownAggregate, Exit.applyError,
        Exit.markError, Exit.commitError]) :
    (processMessage F env s m).ok = false ∧ (processMessage F env s m).db = s ∧
      (processMessage F env s m).db.inbox = s.inbox ∧
      (processMessage F env s m).db.agg = s.agg := by
  rcases processMessage_cases F env s m with ⟨hdb, -, hiff⟩ | ⟨rm, -, hdone, -⟩
  · refine ⟨?_, hdb, by rw [hdb], by rw [hdb]⟩
    cases hok : (processMessage F env s m).ok with
    | false => rfl
    | true =>
      have hd := hiff.1 hok
      rw [hd] at h
      simp at h
  · rw [hdone] at h
    simp at h

/-! ### Acknowledgement -/

/-- Every iteration of the second loop of `processMessageBatch` holds the
result of `processMessage` on its message, and its decision is `Ack` exactly
when that result is true. -/
theorem processLoop_entry {σ : Type} (F : ApplyFns σ) (env : Nat → Env) (i : Nat)
    (db : TargetDB σ) (msgs : List Msg) :
    ∀ h ∈ (processLoop F env i db msgs).2,
      (∃ j db1, h.result = processMessage F (env j) db1 h.msg) ∧
        h.decision = (if h.result.ok then AckDecision.Ack else AckDecision.Nak) := by
  induction msgs generalizing i db with
  | nil => simp [processLoop]
  | cons m ms ih =>
    intro h hh
    simp only [processLoop, List.mem_cons] at hh
    rcases hh with rfl | hh
    · exact ⟨⟨i, db, rfl⟩, rfl⟩
    · exact ih _ _ h hh

/-- C4. What the code does with a poison message: `processMessage` returns
false for it, and `processMessageBatch` on a batch made of it alone runs no
iteration of its second loop, so neither `Ack` nor `Nak` is issued and the
message stays unacknowledged at the broker. -/
theorem poison_message_left_unacknowledged :
    (processMessage sampleApply calmEnv ⟨[], []⟩ poisonMsg).ok = false ∧
      (processMessageBatch sampleApply (fun _ => calmEnv) ⟨[], []⟩ [poisonMsg]).2 = [] ∧
      (processMessageBatch sampleApply (fun _ => calmEnv) ⟨[], []⟩
        [poisonMsg, userMsg]).2.map (fun h => (h.msg, h.decision)) =
          [(userMsg, AckDecision.Ack)] := by
  decide

/-- C5. What the code does with the messages it does not sort: for a message
that parses with the aggregate type `order`, `processMessage` reports failure
(the exit of the unknown aggregate type), and it reports failure for a message
that does not parse; yet `processMessageBatch` issues no decision for either,
neither alone in a batch nor next to a `user` message, which alone gets its
`Ack`. -/
theorem unknown_aggregate_left_without_decision :
    (processMessage sampleApply calmEnv ⟨[], []⟩ orderMsg).ok = false ∧
      (processMessage sampleApply calmEnv ⟨[], []⟩ orderMsg).exit = Exit.unknownAggregate ∧
      (processMessage sampleApply calmEnv ⟨[], []⟩ poisonMsg).ok = false ∧
      (processMessageBatch sampleApply (fun _ => calmEnv) ⟨[], []⟩ [orderMsg]).2 = [] ∧
      (processMessageBatch sampleApply (fun _ => calmEnv) ⟨[], []⟩
        [orderMsg, userMsg, poisonMsg]).2.map (fun h => (h.msg, h.decision)) =
          [(userMsg, AckDecision.Ack)] := by
  decide

/-- The decisions of `processMessageBatch` for the messages it sorts: for every
batch and every message of it that parses with the aggregate type `user` or
`payment`, the batch issues as many decisions for the message as the batch
holds it; each decision follows a call of `processMessage` on that message and
is `Ack` if the call returned true and `Nak` if it returned false. -/
theorem processMessageBatch_one_decision {σ : Type} (F : ApplyFns σ) (env : Nat → Env)
    (db : TargetDB σ) (messages : List Msg) (m : Msg) (hm : m ∈ messages)
    (hty : m.isUser = true ∨ m.isPayment = true) :
    ((processMessageBatch F env db messages).2.map (fun h => h.msg)).count m =
        messages.count m ∧
      0 < ((processMessageBatch F env db messages).2.map (fun h => h.msg)).count m ∧
      ∀ h ∈ (processMessageBatch F env db messages).2,
        (∃ j db1, h.result = processMessage F (env j) db1 h.msg) ∧
          (h.result.ok = true → h.decision = AckDecision.Ack) ∧
          (h.result.ok = false → h.decision = AckDecision.Nak) := by
  have hcount : ((processMessageBatch F env db messages).2.map (fun h => h.msg)).count m =
      messages.count m := by
    rw [processMessageBatch_msgs F env db messages]
    unfold stableReorder
    rw [List.count_append]
    have excl : m.isUser = true → m.isPayment = true → False := by
      intro hu hp
      unfold Msg.isUser at hu
      unfold Msg.isPayment at hp
      cases hd : m.decoded with
      | none => simp [hd] at hu
      | some rm =>
        simp only [hd, decide_eq_true_eq] at hu hp
        rw [hu] at hp
        exact absurd hp (by decide)
    rcases hty with hu | hp
    · have e1 : (messages.filter Msg.isUser).count m = messages.count m :=
        List.count_filter hu
      have e2 : (messages.filter Msg.isPayment).count m = 0 :=
        List.count_eq_zero_of_not_mem (fun hmem => excl hu (List.mem_filter.1 hmem).2)
      rw [e1, e2, Nat.add_zero]
    · have e1 : (messages.filter Msg.isPayment).count m = messages.count m :=
        List.count_filter hp
      have e2 : (messages.filter Msg.isUser).count m = 0 :=
        List.count_eq_zero_of_not_mem (fun hmem => excl (List.mem_filter.1 hmem).2 hp)
      rw [e1, e2, Nat.zero_add]
  refine ⟨hcount, ?_, ?_⟩
  · rw [hcount]
    exact List.count_pos_iff.2 hm
  · intro h hh
    obtain ⟨h1, h2⟩ := processLoop_entry F env 0 db (allMessages messages) h hh
    refine ⟨h1, ?_, ?_⟩
    · intro hok
      rw [h2, hok]
      rfl
    · intro hok
      rw [h2, hok]
      rfl

/-! ## Outbox publisher: basic facts -/

theorem scanRows_eq (env : PollEnv) (i : Nat) (rows : List OutboxRow) (events : List OutboxEvent)
    (h : scanRows env i rows = some events) : events = rows.map OutboxRow.toEvent := by
  induction rows generalizing i events with
  | nil => simp [scanRows] at h; simp [h]
  | cons r rest ih =>
    simp only [scanRows] at h
    split at h
    · cases h
    · split at h
      · cases h
      · rename_i evs hevs
        cases h
        rw [List.map_cons, ih (i + 1) evs hevs]

theorem scanRows_ok (env : PollEnv) (hs : ∀ i, env.scanErr i = false) (i : Nat)
    (rows : List OutboxRow) : scanRows env i rows = some (rows.map OutboxRow.toEvent) := by
  induction rows generalizing i with
  | nil => rfl
  | cons r rest ih => simp [scanRows, hs, ih]

theorem getUnprocessedEvents_eq (env : PollEnv) (table : OutboxTable) (limit : Int)
    (events : List OutboxEvent) (h : getUnprocessedEvents env table limit = some events) :
    events = (selectUnprocessed table limit.toNat).map OutboxRow.toEvent := by
  unfold getUnprocessedEvents at h
  split at h
  · cases h
  · split at h
    · cases h
    · rename_i evs hevs
      split at h
      · cases h
      · cases h
        exact scanRows_eq env 0 _ _ hevs

theorem publishLoop_events (env : PollEnv) (i : Nat) (events : List OutboxEvent) :
    (publishLoop env i events).1.map Attempt.event = events := by
  induction events generalizing i with
  | nil => rfl
  | cons e rest ih =>
    simp only [publishLoop]
    split
    · simp [Attempt.event, ih]
    · split
      · simp [Attempt.event, ih]
      · simp [Attempt.event, ih]

theorem publishLoop_ids (env : PollEnv) (i : Nat) (events : List OutboxEvent) :
    (publishLoop env i events).2 =
      ((publishLoop env i events).1.filter Attempt.isPublished).map (fun a => a.event.ID) := by
  induction events generalizing i with
  | nil => rfl
  | cons e rest ih =>
    simp only [publishLoop]
    split
    · simp [Attempt.isPublished, List.filter_cons, ih (i + 1)]
    · split
      · simp [Attempt.isPublished, List.filter_cons, ih (i + 1)]
      · simp [Attempt.isPublished, Attempt.event, List.filter_cons, ih (i + 1)]

/-- The attempt of position `j` is about the event of position `j`, and it is a
published one exactly when neither `json.Marshal` nor `js.Publish` failed there. -/
theorem publishLoop_get (env : PollEnv) (i : Nat) (events : List OutboxEvent) (j : Nat)
    (hj : j < events.length) :
    ((publishLoop env i events).1[j]?).map (fun a => (a.event, a.isPublished)) =
      some (events[j], !env.marshalErr (i + j) && !env.publishErr (i + j)) := by
  induction events generalizing i j with
  | nil => simp at hj
  | cons e rest ih =>
    cases j with
    | zero =>
      simp only [publishLoop]
      split
      · rename_i h1
        simp [Attempt.event, Attempt.isPublished, h1]
      · rename_i h1
        split
        · rename_i h2
          simp [Attempt.event, Attempt.isPublished, h1, h2]
        · rename_i h2
          simp [Attempt.event, Attempt.isPublished, h1, h2]
    | succ k =>
      have hk : k < rest.length := by simpa using hj
      have hrec := ih (i + 1) k hk
      have hidx : i + (k + 1) = i + 1 + k := by omega
      rw [hidx]
      simp only [publishLoop]
      split
      · simpa using hrec
      · split
        · simpa using hrec
        · simpa using hrec

theorem publishLoop_ids_mem (env : PollEnv) (i : Nat) (events : List OutboxEvent) (id : UUID) :
    id ∈ (publishLoop env i events).2 ↔
      ∃ a ∈ (publishLoop env i events).1, a.isPublished = true ∧ a.event.ID = id := by
  rw [publishLoop_ids]
  simp [List.mem_map, List.mem_filter, and_assoc]

theorem markRow_id (t : Time) (id : UUID) (r : OutboxRow) : (markRow t id r).id = r.id := by
  unfold markRow
  split <;> rfl

theorem markRow_processed (t : Time) (id : UUID) (r : OutboxRow) (h : r.id = id) :
    (markRow t id r).processed = true := by
  unfold markRow
  split
  · rfl
  · rename_i hn
    cases hp : r.processed with
    | true => rfl
    | false => exact absurd ⟨h, hp⟩ hn

theorem MarkedFrom.processed {ids : List UUID} {r r1 : OutboxRow} (h : MarkedFrom ids r r1)
    (hp : r.processed = true) : r1 = r := by
  rcases h with h | ⟨hf, -, -⟩
  · exact h
  · rw [hp] at hf
    cases hf

/-- The table after the loop of `markEventsProcessed` is the old table with
each row changed as `MarkedFrom` allows; when no `UPDATE` fails, no error is
returned and every row whose id is in the list ends with `processed = true`. -/
theorem markLoop_spec (env : PollEnv) (i : Nat) (table : OutboxTable) (ids : List UUID) :
    ∃ f : OutboxRow → OutboxRow, (markLoop env i table ids).1 = table.map f ∧
      (∀ r, (f r).id = r.id ∧ MarkedFrom ids r (f r)) ∧
      ((∀ k, env.markErr k = false) →
        (markLoop env i table ids).2 = false ∧ ∀ r, r.id ∈ ids → (f r).processed = true) := by
  induction ids generalizing i table with
  | nil =>
    exact ⟨id, by simp [markLoop], fun r => ⟨rfl, Or.inl rfl⟩, fun _ => ⟨rfl, by simp⟩⟩
  | cons x rest ih =>
    simp only [markLoop]
    by_cases herr : env.markErr i = true
    · refine ⟨id, by rw [if_pos herr]; simp, fun r => ⟨rfl, Or.inl rfl⟩, fun hall => ?_⟩
      rw [hall i] at herr
      cases herr
    · obtain ⟨f, hf, hfr, hfc⟩ :=
        ih (i + 1) (updateOutboxProcessed (env.sqlNow i) x table)
      refine ⟨f ∘ markRow (env.sqlNow i) x, ?_, ?_, ?_⟩
      · rw [if_neg herr, hf, updateOutboxProcessed, List.map_map]
      · intro r
        refine ⟨by simp [Function.comp, (hfr _).1, markRow_id], ?_⟩
        have hm := (hfr (markRow (env.sqlNow i) x r)).2
        simp only [Function.comp]
        by_cases hc : r.id = x ∧ r.processed = false
        · have hmr : markRow (env.sqlNow i) x r =
              { r with processed := true, processed_at := some (env.sqlNow i) } := by
            simp [markRow, hc]
          have := hm.processed (by rw [hmr])
          rw [this, hmr]
          exact Or.inr ⟨hc.2, by simp [hc.1], env.sqlNow i, rfl⟩
        · have hmr : markRow (env.sqlNow i) x r = r := by simp [markRow, hc]
          rw [hmr] at hm ⊢
          rcases hm with h | ⟨h1, h2, h3⟩
          · exact Or.inl h
          · exact Or.inr ⟨h1, List.mem_cons_of_mem _ h2, h3⟩
      · intro hall
        obtain ⟨h1, h2⟩ := hfc hall
        refine ⟨by rw [if_neg herr]; exact h1, fun r hr => ?_⟩
        simp only [Function.comp]
        rcases List.mem_cons.1 hr with hx | hx
        · have hp := markRow_processed (env.sqlNow i) x r hx
          rw [(hfr (markRow (env.sqlNow i) x r)).2.processed hp]
          exact hp
        · exact h2 _ (by rw [markRow_id]; exact hx)

/-- What `processOutboxBatch` returns when the read yields `events`. -/
theorem processOutboxBatch_read (env : PollEnv) (table : OutboxTable) (n : Int)
    (events : List OutboxEvent) (h : getUnprocessedEvents env table n = some events) :
    (processOutboxBatch env table n).attempts = (publishLoop env 0 events).1 ∧
      (processOutboxBatch env table n).processedIDs = (publishLoop env 0 events).2 ∧
      (processOutboxBatch env table n).readFailed = false := by
  unfold processOutboxBatch
  rw [h]
  simp only
  split
  · rename_i h0
    have : events = [] := List.length_eq_zero.1 h0
    subst this
    exact ⟨rfl, rfl, rfl⟩
  · split
    · exact ⟨rfl, rfl, rfl⟩
    · exact ⟨rfl, rfl, rfl⟩

/-- The table after a poll cycle is the old table with each row changed as
`MarkedFrom` allows for the ids of `processedIDs`; when no `UPDATE` fails,
every row whose id is in `processedIDs` ends with `processed = true`. -/
theorem processOutboxBatch_table (env : PollEnv) (table : OutboxTable) (n : Int) :
    ∃ f : OutboxRow → OutboxRow, (processOutboxBatch env table n).table = table.map f ∧
      (∀ r, (f r).id = r.id ∧ MarkedFrom (processOutboxBatch env table n).processedIDs r (f r)) ∧
      ((∀ k, env.markErr k = false) →
        ∀ r, r.id ∈ (processOutboxBatch env table n).processedIDs → (f r).processed = true) := by
  unfold processOutboxBatch
  split
  · exact ⟨id, by simp, fun r => ⟨rfl, Or.inl rfl⟩, fun _ => by simp⟩
  · split
    · exact ⟨id, by simp, fun r => ⟨rfl, Or.inl rfl⟩, fun _ => by simp⟩
    · rename_i events hev hne
      dsimp only
      split
      · rename_i hpos
        obtain ⟨f, hf, hfr, hfc⟩ := markLoop_spec env 0 table (publishLoop env 0 events).2
        have hne2 : ¬ (publishLoop env 0 events).2.length = 0 := by omega
        refine ⟨f, ?_, hfr, fun hall => (hfc hall).2⟩
        simp only [markEventsProcessed, hne2, if_false]
        exact hf
      · rename_i hzero
        have : (publishLoop env 0 events).2 = [] := by
          apply List.length_eq_zero.1
          omega
        exact ⟨id, by simp, fun r => ⟨rfl, Or.inl rfl⟩, fun _ => by simp [this]⟩

theorem getUnprocessedEvents_ok (env : PollEnv) (table : OutboxTable) (n : Int)
    (hq : env.queryErr = false) (hs : ∀ i, env.scanErr i = false) (hr : env.rowsErr = false)
    (hn : 0 ≤ n) :
    getUnprocessedEvents env table n =
      some ((selectUnprocessed table n.toNat).map OutboxRow.toEvent) := by
  unfold getUnprocessedEvents
  have hcond : ¬ (env.queryErr = true ∨ n < 0) := by
    rw [hq]
    intro h
    rcases h with h | h
    · cases h
    · omega
  rw [if_neg hcond, scanRows_ok env hs]
  simp [hr]

theorem processOutboxBatch_attempt_events (env : PollEnv) (table : OutboxTable) (n : Int)
    (hq : env.queryErr = false) (hs : ∀ i, env.scanErr i = false) (hr : env.rowsErr = false) :
    (processOutboxBatch env table n).attempts.map Attempt.event =
      (selectUnprocessed table n.toNat).map OutboxRow.toEvent := by
  by_cases hn : 0 ≤ n
  · rw [(processOutboxBatch_read env table n _
      (getUnprocessedEvents_ok env table n hq hs hr hn)).1, publishLoop_events]
  · have h0 : n.toNat = 0 := by omega
    have hnone : getUnprocessedEvents env table n = none := by
      unfold getUnprocessedEvents
      rw [if_pos (Or.inr (by omega))]
    unfold processOutboxBatch
    rw [hnone, h0]
    simp [selectUnprocessed]

/-- Every id of `processedIDs` is the id of an event of a published attempt. -/
theorem processOutboxBatch_ids_mem (env : PollEnv) (table : OutboxTable) (n : Int) (id : UUID) :
    id ∈ (processOutboxBatch env table n).processedIDs ↔
      ∃ a ∈ (processOutboxBatch env table n).attempts, a.isPublished = true ∧ a.event.ID = id := by
  cases hread : getUnprocessedEvents env table n with
  | none =>
    unfold processOutboxBatch
    rw [hread]
    simp
  | some events =>
    obtain ⟨h1, h2, -⟩ := processOutboxBatch_read env table n events hread
    rw [h1, h2]
    exact publishLoop_ids_mem env 0 events id

/-- Every attempt of a poll cycle is about a row that the query selects. -/
theorem processOutboxBatch_attempt_selected (env : PollEnv) (table : OutboxTable) (n : Int) :
    ∀ a ∈ (processOutboxBatch env table n).attempts,
      ∃ r ∈ selectUnprocessed table n.toNat, r.toEvent = a.event := by
  intro a ha
  cases hread : getUnprocessedEvents env table n with
  | none =>
    unfold processOutboxBatch at ha
    rw [hread] at ha
    simp at ha
  | some events =>
    obtain ⟨h1, -, -⟩ := processOutboxBatch_read env table n events hread
    have hev : a.event ∈ (processOutboxBatch env table n).attempts.map Attempt.event :=
      List.mem_map_of_mem _ ha
    rw [h1, publishLoop_events, getUnprocessedEvents_eq env table n events hread] at hev
    obtain ⟨r, hr, hre⟩ := List.mem_map.1 hev
    exact ⟨r, hr, hre⟩

theorem processOutboxBatch_frame (env : PollEnv) (table : OutboxTable) (n : Int) :
    List.Forall₂ (MarkedFrom (processOutboxBatch env table n).processedIDs) table
      (processOutboxBatch env table n).table := by
  obtain ⟨f, hf, hfr, -⟩ := processOutboxBatch_table env table n
  rw [hf, List.forall₂_map_right_iff, List.forall₂_same]
  exact fun r _ => (hfr r).2

/-! ## Claims on the outbox publisher -/

/-- C7. Oldest-first bounded selection. In a poll cycle whose read of the
outbox succeeds, the events that `processOutboxBatch` takes through its
publishing loop are, in this order, the rows the query selects: these are
sorted by `created_at` ascending, they are `min n pending` many, together with
some rest they make up the rows with `processed = false`, and none of the rest
is older than any of them, i.e. they are the first `n` pending rows by age.
Every id the cycle marks is the id of a selected row and every row of the table
is either untouched or a row with such an id whose flag has been set. In
particular, with the pending rows A (t=1), B (t=2), C (t=3), limit 2 and nothing
failing, A then B are published, exactly A and B are marked and C is left with
`processed = false`. -/
theorem processOutboxBatch_oldest_first (env : PollEnv) (table : OutboxTable) (n : Int)
    (hq : env.queryErr = false) (hs : ∀ i, env.scanErr i = false) (hr : env.rowsErr = false) :
    (processOutboxBatch env table n).attempts.map Attempt.event =
        (selectUnprocessed table n.toNat).map OutboxRow.toEvent ∧
      (selectUnprocessed table n.toNat).Sorted createdLE ∧
      (selectUnprocessed table n.toNat).length = min n.toNat (pendingRows table).length ∧
      (∃ rest, List.Perm (selectUnprocessed table n.toNat ++ rest) (pendingRows table) ∧
        ∀ a ∈ selectUnprocessed table n.toNat, ∀ b ∈ rest, a.created_at ≤ b.created_at) ∧
      (∀ id ∈ (processOutboxBatch env table n).processedIDs,
        ∃ r ∈ selectUnprocessed table n.toNat, r.id = id) ∧
      List.Forall₂ (MarkedFrom (processOutboxBatch env table n).processedIDs) table
        (processOutboxBatch env table n).table ∧
      ((processOutboxBatch steadyPoll [rowC, rowA, rowB] 2).attempts.map
          (fun a => (a.event, a.isPublished)) = [(rowA.toEvent, true), (rowB.toEvent, true)] ∧
        (processOutboxBatch steadyPoll [rowC, rowA, rowB] 2).table =
          [rowC, { rowA with processed := true, processed_at := some 20 },
            { rowB with processed := true, processed_at := some 21 }]) := by
  have hsorted : ((pendingRows table).insertionSort createdLE).Sorted createdLE :=
    List.sorted_insertionSort createdLE _
  refine ⟨processOutboxBatch_attempt_events env table n hq hs hr, ?_, ?_, ?_, ?_,
    processOutboxBatch_frame env table n, by decide⟩
  · exact List.Pairwise.sublist (List.take_sublist _ _) hsorted
  · simp [selectUnprocessed, List.length_take, List.length_insertionSort]
  · refine ⟨((pendingRows table).insertionSort createdLE).drop n.toNat, ?_, ?_⟩
    · unfold selectUnprocessed
      rw [List.take_append_drop]
      exact List.perm_insertionSort createdLE _
    · intro a ha b hb
      have hp : (List.take n.toNat ((pendingRows table).insertionSort createdLE) ++
          List.drop n.toNat ((pendingRows table).insertionSort createdLE)).Pairwise createdLE := by
        rw [List.take_append_drop]
        exact hsorted
      exact (List.pairwise_append.1 hp).2.2 a ha b hb
  · intro id hid
    obtain ⟨a, ha, -, hida⟩ := (processOutboxBatch_ids_mem env table n id).1 hid
    obtain ⟨r, hr1, hr2⟩ := processOutboxBatch_attempt_selected env table n a ha
    refine ⟨r, hr1, ?_⟩
    rw [← hida, ← hr2]
    rfl

theorem selectUnprocessed_subset (table : OutboxTable) (k : Nat) :
    ∀ r ∈ selectUnprocessed table k, r ∈ table ∧ r.processed = false := by
  intro r hr
  have h1 : r ∈ (pendingRows table).insertionSort createdLE := List.mem_of_mem_take hr
  have h2 : r ∈ pendingRows table := (List.mem_insertionSort createdLE).1 h1
  have h3 := List.mem_filter.1 h2
  exact ⟨h3.1, by simpa using h3.2⟩

theorem eq_of_id_eq {table : OutboxTable} (hnd : (table.map (fun r => r.id)).Nodup)
    {q r : OutboxRow} (hq : q ∈ table) (hr : r ∈ table) (h : q.id = r.id) : q = r :=
  List.inj_on_of_nodup_map hnd hq hr h

/-- C8. Marked set equals published set. For a table whose ids are unique and
a poll cycle in which no mark-processed update fails, every row keeps its id
and has `processed = true` after `processOutboxBatch` if and only if it had
`processed = true` before or the cycle holds a published attempt for the event
of that row; so no row is marked without a successful publish of it in the
cycle. -/
theorem processOutboxBatch_marked_iff_published (env : PollEnv) (table : OutboxTable) (n : Int)
    (hnd : (table.map (fun r => r.id)).Nodup) (hmark : ∀ k, env.markErr k = false) :
    List.Forall₂
      (fun r r1 => r1.id = r.id ∧
        (r1.processed = true ↔ r.processed = true ∨
          ∃ a ∈ (processOutboxBatch env table n).attempts,
            a.isPublished = true ∧ a.event = r.toEvent))
      table (processOutboxBatch env table n).table := by
  obtain ⟨f, hf, hfr, hfc⟩ := processOutboxBatch_table env table n
  rw [hf, List.forall₂_map_right_iff, List.forall₂_same]
  intro r hr
  refine ⟨(hfr r).1, ?_, ?_⟩
  · intro hp
    rcases (hfr r).2 with h | ⟨-, hid, -⟩
    · left
      rw [h] at hp
      exact hp
    · right
      obtain ⟨a, ha, hpub, hida⟩ := (processOutboxBatch_ids_mem env table n r.id).1 hid
      obtain ⟨q, hq, hqe⟩ := processOutboxBatch_attempt_selected env table n a ha
      have hqid : q.id = r.id := by
        rw [← hida, ← hqe]
        rfl
      have := eq_of_id_eq hnd (selectUnprocessed_subset table _ q hq).1 hr hqid
      exact ⟨a, ha, hpub, by rw [← hqe, this]⟩
  · intro h
    rcases h with hp | ⟨a, ha, hpub, hev⟩
    · rw [(hfr r).2.processed hp]
      exact hp
    · apply hfc hmark r
      apply (processOutboxBatch_ids_mem env table n r.id).2
      exact ⟨a, ha, hpub, by rw [hev]; rfl⟩

theorem markRow_markRow (t1 t2 : Time) (id : UUID) (r : OutboxRow) :
    markRow t2 id (markRow t1 id r) = markRow t1 id r := by
  by_cases hc : r.id = id ∧ r.processed = false
  · simp [markRow, hc]
  · simp [markRow, hc]

/-- C10. No double mark. Of two mark-processed updates applied to the same id
the second matches no row, because every row with that id has
`processed = true` after the first, and it leaves the table exactly as the first
left it: a row that the first update matched keeps the `processed_at` the first
update stored and any other row keeps the one it had. Hence
`markEventsProcessed` on the id given twice yields the same table as on the id
given once, whenever the updates do not fail. -/
theorem markEventsProcessed_no_double_mark (t1 t2 : Time) (id : UUID) (table : OutboxTable) :
    updateOutboxProcessed t2 id (updateOutboxProcessed t1 id table) =
        updateOutboxProcessed t1 id table ∧
      (∀ r ∈ updateOutboxProcessed t1 id table, ¬ (r.id = id ∧ r.processed = false)) ∧
      List.Forall₂
        (fun r r2 => r2.processed_at =
          if r.id = id ∧ r.processed = false then some t1 else r.processed_at)
        table (updateOutboxProcessed t2 id (updateOutboxProcessed t1 id table)) ∧
      (∀ env : PollEnv, env.markErr 0 = false → env.markErr 1 = false →
        (markEventsProcessed env table [id, id]).1 = (markEventsProcessed env table [id]).1) := by
  have h1 : ∀ (a b : Time), updateOutboxProcessed b id (updateOutboxProcessed a id table) =
      updateOutboxProcessed a id table := by
    intro a b
    unfold updateOutboxProcessed
    rw [List.map_map]
    apply List.map_congr_left
    intro r _
    exact markRow_markRow a b id r
  refine ⟨h1 t1 t2, ?_, ?_, ?_⟩
  · intro r hr
    unfold updateOutboxProcessed at hr
    obtain ⟨q, -, rfl⟩ := List.mem_map.1 hr
    intro hc
    rw [markRow_id] at hc
    rw [markRow_processed t1 id q hc.1] at hc
    exact absurd hc.2 (by decide)
  · rw [h1 t1 t2]
    unfold updateOutboxProcessed
    rw [List.forall₂_map_right_iff, List.forall₂_same]
    intro r _
    by_cases hc : r.id = id ∧ r.processed = false
    · simp [markRow, hc]
    · simp [markRow, hc]
  · intro env e0 e1
    simp [markEventsProcessed, markLoop, e0, e1, h1]

/-! ### The selection of the next poll -/

theorem orderedInsert_of_forall_le {α : Type} (r : α → α → Prop) [DecidableRel r] (a : α)
    (l : List α) (h : ∀ x ∈ l, r a x) : l.orderedInsert r a = a :: l := by
  cases l with
  | nil => rfl
  | cons b l => exact List.orderedInsert_of_le r l (h b (List.mem_cons_self _ _))

theorem filter_orderedInsert {α : Type} (r : α → α → Prop) [DecidableRel r] [IsTrans α r]
    (p : α → Bool) (a : α) (l : List α) (hl : l.Sorted r) :
    (l.orderedInsert r a).filter p =
      if p a then (l.filter p).orderedInsert r a else l.filter p := by
  induction l with
  | nil => cases hp : p a <;> simp [hp]
  | cons b l ih =>
    have hl2 : l.Sorted r := hl.of_cons
    have hb : ∀ x ∈ l, r b x := fun x hx => List.rel_of_sorted_cons hl x hx
    by_cases hab : r a b
    · have hall : ∀ x ∈ (b :: l).filter p, r a x := by
        intro x hx
        rcases List.mem_cons.1 (List.mem_filter.1 hx).1 with rfl | hx2
        · exact hab
        · exact IsTrans.trans a b x hab (hb x hx2)
      rw [List.orderedInsert_of_le r l hab]
      cases hp : p a with
      | true =>
        rw [if_pos rfl, orderedInsert_of_forall_le r a _ hall, List.filter_cons, hp, if_pos rfl]
      | false =>
        rw [List.filter_cons, hp]
        simp
    · have hins : (b :: l).orderedInsert r a = b :: l.orderedInsert r a := by
        simp [List.orderedInsert, hab]
      rw [hins, List.filter_cons, ih hl2]
      cases hpa : p a with
      | false => simp [List.filter_cons]
      | true =>
        cases hpb : p b with
        | false => simp [List.filter_cons, hpb]
        | true => simp [List.filter_cons, hpb, List.orderedInsert, hab]

theorem filter_insertionSort {α : Type} (r : α → α → Prop) [DecidableRel r] [IsTrans α r]
    [IsTotal α r] (p : α → Bool) (l : List α) :
    (l.insertionSort r).filter p = (l.filter p).insertionSort r := by
  induction l with
  | nil => rfl
  | cons a l ih =>
    rw [List.insertionSort_cons_eq_take_drop]
    rw [← List.orderedInsert_eq_take_drop]
    rw [filter_orderedInsert r p a _ (List.sorted_insertionSort r l), ih]
    cases hp : p a with
    | false => simp [List.filter_cons, hp]
    | true => simp [List.filter_cons, hp]

theorem mem_take_filter {α : Type} (q : α → Bool) (l : List α) (i n : Nat) (hi : i < l.length)
    (hin : i < n) (hq : q l[i] = true) : l[i] ∈ (l.filter q).take n := by
  have hmem : l[i] ∈ (l.take (i + 1)).filter q := by
    rw [List.mem_filter]
    refine ⟨?_, hq⟩
    rw [List.mem_take_iff_getElem]
    exact ⟨i, by simp [Nat.lt_min]; omega, rfl⟩
  have hpre : (l.take (i + 1)).filter q <+: l.filter q :=
    List.IsPrefix.filter q (List.take_prefix _ _)
  rw [List.prefix_iff_eq_take] at hpre
  rw [hpre] at hmem
  have hlen : ((l.take (i + 1)).filter q).length ≤ n := by
    have h1 := List.length_filter_le q (l.take (i + 1))
    have h2 : (l.take (i + 1)).length ≤ i + 1 := by
      rw [List.length_take]
      exact Nat.min_le_left _ _
    omega
  exact List.take_subset_take_left _ hlen hmem

theorem pendingRows_map (ids : List UUID) (f : OutboxRow → OutboxRow)
    (hf : ∀ r, MarkedFrom ids r (f r)) (table : OutboxTable) :
    pendingRows (table.map f) =
      (pendingRows table).filter (fun r => decide ((f r).processed = false)) := by
  unfold pendingRows
  induction table with
  | nil => rfl
  | cons r rest ih =>
    rw [List.map_cons, List.filter_cons, ih]
    cases hp : r.processed with
    | true =>
      have := (hf r).processed hp
      simp [List.filter_cons, this, hp]
    | false =>
      rcases hf r with h | ⟨-, -, t, h⟩
      · simp [List.filter_cons, h, hp]
      · simp [List.filter_cons, h, hp]

theorem selectUnprocessed_ids_nodup (table : OutboxTable) (k : Nat)
    (hnd : (table.map (fun r => r.id)).Nodup) :
    ((selectUnprocessed table k).map (fun r => r.id)).Nodup := by
  have h1 : ((pendingRows table).map (fun r => r.id)).Nodup :=
    hnd.sublist ((List.filter_sublist table).map _)
  have h2 : (((pendingRows table).insertionSort createdLE).map (fun r => r.id)).Nodup :=
    ((List.perm_insertionSort createdLE (pendingRows table)).map _).nodup_iff.2 h1
  exact h2.sublist ((List.take_sublist k _).map _)

/-- C9. A publish failure does not abort the batch. For a table with unique
ids and a poll cycle that read the batch `events`, if serialising or
publishing the event of position `i` fails, then the loop still goes through
every event of the batch in order, each other event being published unless its
own serialisation or publish fails; the attempt of position `i` is not a
published one, the id of event `i` is not in the to-mark list, its row is in
the table after the cycle with `processed = false`, and the query of the next
poll with the same limit selects it again. -/
theorem processOutboxBatch_publish_failure_contained (env : PollEnv) (table : OutboxTable)
    (n : Int) (events : List OutboxEvent) (i : Nat)
    (hnd : (table.map (fun r => r.id)).Nodup)
    (hread : getUnprocessedEvents env table n = some events)
    (hi : i < events.length)
    (hfail : env.marshalErr i = true ∨ env.publishErr i = true) :
    (processOutboxBatch env table n).attempts.map Attempt.event = events ∧
      (∀ j (hj : j < events.length),
        ((processOutboxBatch env table n).attempts[j]?).map
            (fun a => (a.event, a.isPublished)) =
          some (events[j], !env.marshalErr j && !env.publishErr j)) ∧
      ((processOutboxBatch env table n).attempts[i]?).map Attempt.isPublished = some false ∧
      events[i].ID ∉ (processOutboxBatch env table n).processedIDs ∧
      (∃ r ∈ (processOutboxBatch env table n).table,
        r.toEvent = events[i] ∧ r.processed = false) ∧
      events[i] ∈
        (selectUnprocessed (processOutboxBatch env table n).table n.toNat).map
          OutboxRow.toEvent := by
  obtain ⟨hatt, hids, -⟩ := processOutboxBatch_read env table n events hread
  have hget : ∀ j (hj : j < events.length),
      ((processOutboxBatch env table n).attempts[j]?).map
          (fun a => (a.event, a.isPublished)) =
        some (events[j], !env.marshalErr j && !env.publishErr j) := by
    intro j hj
    have := publishLoop_get env 0 events j hj
    rw [Nat.zero_add] at this
    rw [hatt]
    exact this
  have hnoerr : (!env.marshalErr i && !env.publishErr i) = false := by
    rcases hfail with h | h <;> simp [h]
  have hev := getUnprocessedEvents_eq env table n events hread
  have hlen : events.length = (selectUnprocessed table n.toNat).length := by
    rw [hev, List.length_map]
  have hevnd : (events.map (fun e => e.ID)).Nodup := by
    rw [hev, List.map_map]
    exact selectUnprocessed_ids_nodup table n.toNat hnd
  have hnotin : events[i].ID ∉ (processOutboxBatch env table n).processedIDs := by
    intro hmem
    obtain ⟨a, ha, hpub, hida⟩ := (processOutboxBatch_ids_mem env table n _).1 hmem
    obtain ⟨j, hj⟩ := List.mem_iff_getElem?.1 ha
    have hjlen : j < events.length := by
      obtain ⟨hlt, -⟩ := List.getElem?_eq_some.1 hj
      rw [hatt] at hlt
      have := congrArg List.length (publishLoop_events env 0 events)
      rw [List.length_map] at this
      omega
    have hgj := hget j hjlen
    rw [hj] at hgj
    simp only [Option.map_some', Option.some.injEq, Prod.mk.injEq] at hgj
    have hji : j = i := by
      have hjm : j < (events.map (fun e => e.ID)).length := by simpa using hjlen
      have him : i < (events.map (fun e => e.ID)).length := by simpa using hi
      have h1 : (events.map (fun e => e.ID))[j] = (events.map (fun e => e.ID))[i] := by
        simp only [List.getElem_map]
        rw [← hgj.1]
        exact hida
      exact (hevnd.getElem_inj_iff).1 h1
    subst hji
    rw [hgj.2.symm, hpub] at hnoerr
    cases hnoerr
  have hisel : i < (selectUnprocessed table n.toNat).length := by omega
  have hrow : events[i] = ((selectUnprocessed table n.toNat)[i]).toEvent := by
    simp only [hev, List.getElem_map]
  obtain ⟨f, hf, hfr, -⟩ := processOutboxBatch_table env table n
  have hsub := selectUnprocessed_subset table n.toNat _ (List.getElem_mem hisel)
  have hfix : f ((selectUnprocessed table n.toNat)[i]) = (selectUnprocessed table n.toNat)[i] := by
    rcases (hfr ((selectUnprocessed table n.toNat)[i])).2 with h | ⟨-, hid, -⟩
    · exact h
    · exfalso
      apply hnotin
      rw [hrow]
      exact hid
  refine ⟨by rw [hatt, publishLoop_events], hget, ?_, hnotin, ?_, ?_⟩
  · have := hget i hi
    rw [hnoerr] at this
    cases hopt : (processOutboxBatch env table n).attempts[i]? with
    | none => rw [hopt] at this; cases this
    | some a =>
      rw [hopt] at this
      simp only [Option.map_some', Option.some.injEq, Prod.mk.injEq] at this
      simp [this.2]
  · refine ⟨(selectUnprocessed table n.toNat)[i], ?_, hrow.symm, hsub.2⟩
    rw [hf]
    exact List.mem_map.2 ⟨_, hsub.1, hfix⟩
  · rw [hrow]
    apply List.mem_map_of_mem
    rw [hf]
    have heq : selectUnprocessed (table.map f) n.toNat =
        (((pendingRows table).insertionSort createdLE).filter
          (fun r => decide ((f r).processed = false))).take n.toNat := by
      unfold selectUnprocessed
      rw [pendingRows_map _ f (fun r => (hfr r).2), ← filter_insertionSort]
    have hin : i < n.toNat := by
      have := hisel
      unfold selectUnprocessed at this
      rw [List.length_take] at this
      omega
    have hisort : i < ((pendingRows table).insertionSort createdLE).length := by
      have := hisel
      unfold selectUnprocessed at this
      rw [List.length_take] at this
      omega
    have hsl : (selectUnprocessed table n.toNat)[i] =
        ((pendingRows table).insertionSort createdLE)[i] := by
      unfold selectUnprocessed
      rw [List.getElem_take]
    rw [heq, hsl]
    apply mem_take_filter _ _ i n.toNat hisort hin
    rw [← hsl, hfix]
    simpa using hsub.2



/-! ## Further claims on the outbox publisher -/

theorem pollCycles_map (cycles : List (PollEnv × Int)) (table : OutboxTable) :
    ∃ f : OutboxRow → OutboxRow, pollCycles cycles table = table.map f ∧
      ∀ r, (f r).id = r.id ∧ (r.processed = true → f r = r) := by
  induction cycles generalizing table with
  | nil => exact ⟨id, by simp [pollCycles], fun r => ⟨rfl, fun _ => rfl⟩⟩
  | cons c cycles ih =>
    obtain ⟨g, hg, hgr, -⟩ := processOutboxBatch_table c.1 table c.2
    obtain ⟨f, hf, hfr⟩ := ih (processOutboxBatch c.1 table c.2).table
    refine ⟨f ∘ g, ?_, fun r => ⟨?_, fun hp => ?_⟩⟩
    · rw [pollCycles, hf, hg, List.map_map]
    · simp only [Function.comp]
      rw [(hfr (g r)).1, (hgr r).1]
    · simp only [Function.comp]
      rw [(hgr r).2.processed hp]
      exact (hfr r).2 hp

/-- C11. Monotone processed flag. In every poll cycle of the Outbox Publisher,
whatever is read, published or fails, each row keeps its id, a row that has
`processed = true` before the cycle is the same row after it (the flag and
`processed_at` included), and a row that is unprocessed afterwards was
unprocessed before. The same holds over any run of poll cycles, so a row whose
flag has been set is never changed again: the flag is set at most once and
never reverts. -/
theorem processOutboxBatch_processed_monotone (env : PollEnv) (table : OutboxTable) (n : Int) :
    List.Forall₂
        (fun r r1 => r1.id = r.id ∧ (r.processed = true → r1 = r) ∧
          (r1.processed = false → r.processed = false))
        table (processOutboxBatch env table n).table ∧
      ∀ cycles : List (PollEnv × Int),
        List.Forall₂
          (fun r r1 => r1.id = r.id ∧ (r.processed = true → r1 = r) ∧
            (r1.processed = false → r.processed = false))
          table (pollCycles cycles table) := by
  have key : ∀ cycles : List (PollEnv × Int),
      List.Forall₂
        (fun r r1 => r1.id = r.id ∧ (r.processed = true → r1 = r) ∧
          (r1.processed = false → r.processed = false))
        table (pollCycles cycles table) := by
    intro cycles
    obtain ⟨f, hf, hfr⟩ := pollCycles_map cycles table
    rw [hf, List.forall₂_map_right_iff, List.forall₂_same]
    intro r _
    refine ⟨(hfr r).1, (hfr r).2, fun h1 => ?_⟩
    cases hp : r.processed with
    | false => rfl
    | true =>
      rw [(hfr r).2 hp, hp] at h1
      cases h1
  exact ⟨by simpa [pollCycles] using key [(env, n)], key⟩

/-- C16. Append-only frame of the Outbox Table. A poll cycle deletes and
inserts no row: the table after `processOutboxBatch` has the rows of the table
before, position by position, with the same `id`, `aggregate_id`,
`aggregate_type`, `event_type`, `event_data` and `created_at`; a row that
differs at all was unprocessed, is processed afterwards and carries the id of a
published attempt of the cycle, which for a table with unique ids is a
published attempt for the event of that very row. -/
theorem processOutboxBatch_append_only (env : PollEnv) (table : OutboxTable) (n : Int) :
    (processOutboxBatch env table n).table.length = table.length ∧
      List.Forall₂
        (fun r r1 => r1.id = r.id ∧ r1.aggregate_id = r.aggregate_id ∧
          r1.aggregate_type = r.aggregate_type ∧ r1.event_type = r.event_type ∧
          r1.event_data = r.event_data ∧ r1.created_at = r.created_at ∧
          (r1 ≠ r → r.processed = false ∧ r1.processed = true ∧
            ∃ a ∈ (processOutboxBatch env table n).attempts,
              a.isPublished = true ∧ a.event.ID = r.id))
        table (processOutboxBatch env table n).table ∧
      ((table.map (fun r => r.id)).Nodup →
        List.Forall₂
          (fun r r1 => r1 ≠ r →
            ∃ a ∈ (processOutboxBatch env table n).attempts,
              a.isPublished = true ∧ a.event = r.toEvent)
          table (processOutboxBatch env table n).table) := by
  obtain ⟨f, hf, hfr, -⟩ := processOutboxBatch_table env table n
  have hrow : ∀ r, (f r).id = r.id ∧ (f r).aggregate_id = r.aggregate_id ∧
      (f r).aggregate_type = r.aggregate_type ∧ (f r).event_type = r.event_type ∧
      (f r).event_data = r.event_data ∧ (f r).created_at = r.created_at ∧
      (f r ≠ r → r.processed = false ∧ (f r).processed = true ∧
        ∃ a ∈ (processOutboxBatch env table n).attempts,
          a.isPublished = true ∧ a.event.ID = r.id) := by
    intro r
    rcases (hfr r).2 with h | ⟨hp, hid, t, h⟩
    · rw [h]
      exact ⟨rfl, rfl, rfl, rfl, rfl, rfl, fun hne => absurd rfl hne⟩
    · rw [h]
      exact ⟨rfl, rfl, rfl, rfl, rfl, rfl,
        fun _ => ⟨hp, rfl, (processOutboxBatch_ids_mem env table n r.id).1 hid⟩⟩
  refine ⟨by rw [hf, List.length_map], ?_, fun hnd => ?_⟩
  · rw [hf, List.forall₂_map_right_iff, List.forall₂_same]
    exact fun r _ => hrow r
  · rw [hf, List.forall₂_map_right_iff, List.forall₂_same]
    intro r hr hne
    obtain ⟨a, ha, hpub, hida⟩ := ((hrow r).2.2.2.2.2.2 hne).2.2
    obtain ⟨q, hq, hqe⟩ := processOutboxBatch_attempt_selected env table n a ha
    have hqid : q.id = r.id := by
      rw [← hida, ← hqe]
      rfl
    have := eq_of_id_eq hnd (selectUnprocessed_subset table _ q hq).1 hr hqid
    exact ⟨a, ha, hpub, by rw [← hqe, this]⟩

theorem scanRows_none (env : PollEnv) (i : Nat) (rows : List OutboxRow)
    (h : ∃ k, k < rows.length ∧ env.scanErr (i + k) = true) : scanRows env i rows = none := by
  induction rows generalizing i with
  | nil =>
    obtain ⟨k, hk, -⟩ := h
    simp at hk
  | cons r rest ih =>
    obtain ⟨k, hk, hs⟩ := h
    simp only [scanRows]
    cases k with
    | zero =>
      rw [Nat.add_zero] at hs
      simp [hs]
    | succ k =>
      have : scanRows env (i + 1) rest = none :=
        ih (i + 1) ⟨k, by simpa using hk, by rw [← hs]; congr 1; omega⟩
      rw [this]
      split <;> rfl

/-- C20. DB unavailability aborts the poll cycle without effect. If the query
for unprocessed events fails, or the scan of one of the selected rows fails, or
the row iteration ends with an error, then `processOutboxBatch` returns with
the table unchanged, no attempt to publish and nothing to mark; being a total
function it returns normally, and the next tick reads the same table. -/
theorem processOutboxBatch_read_failure (env : PollEnv) (table : OutboxTable) (n : Int)
    (h : env.queryErr = true ∨
      (∃ k, k < (selectUnprocessed table n.toNat).length ∧ env.scanErr k = true) ∨
      env.rowsErr = true) :
    processOutboxBatch env table n = ⟨table, true, [], [], false⟩ ∧
      (processOutboxBatch env table n).table = table ∧
      (processOutboxBatch env table n).attempts = [] ∧
      (processOutboxBatch env table n).processedIDs = [] := by
  have hnone : getUnprocessedEvents env table n = none := by
    unfold getUnprocessedEvents
    split
    · rfl
    · rcases h with h | h | h
      · rename_i hc
        exact absurd (Or.inl h) hc
      · obtain ⟨k, hk, hs⟩ := h
        rw [scanRows_none env 0 _ ⟨k, hk, by rw [Nat.zero_add]; exact hs⟩]
      · split
        · rfl
        · simp [h]
  have : processOutboxBatch env table n = ⟨table, true, [], [], false⟩ := by
    unfold processOutboxBatch
    rw [hnone]
  rw [this]
  exact ⟨rfl, rfl, rfl, rfl⟩

theorem markedFrom_cons {rest : List UUID} {t : Time} {x : UUID} {r r2 : OutboxRow}
    (h : MarkedFrom rest (markRow t x r) r2) : MarkedFrom (x :: rest) r r2 := by
  by_cases hc : r.id = x ∧ r.processed = false
  · have hmr : markRow t x r = { r with processed := true, processed_at := some t } := by
      simp [markRow, hc]
    have := h.processed (by rw [hmr])
    rw [this, hmr]
    exact Or.inr ⟨hc.2, by simp [hc.1], t, rfl⟩
  · have hmr : markRow t x r = r := by simp [markRow, hc]
    rw [hmr] at h
    rcases h with h | ⟨h1, h2, h3⟩
    · exact Or.inl h
    · exact Or.inr ⟨h1, List.mem_cons_of_mem _ h2, h3⟩

/-- When the `UPDATE` of position `k` is the first to fail, the loop of
`markEventsProcessed` returns an error after marking the ids before `k` and
no other. -/
theorem markLoop_failure (env : PollEnv) (i : Nat) (table : OutboxTable) (ids : List UUID)
    (k : Nat) (hk : k < ids.length) (hfail : env.markErr (i + k) = true)
    (hbefore : ∀ j, j < k → env.markErr (i + j) = false) :
    ∃ f : OutboxRow → OutboxRow, (markLoop env i table ids).1 = table.map f ∧
      (markLoop env i table ids).2 = true ∧
      ∀ r, (f r).id = r.id ∧ MarkedFrom (ids.take k) r (f r) ∧
        (r.id ∈ ids.take k → (f r).processed = true) := by
  induction ids generalizing i k table with
  | nil => simp at hk
  | cons x rest ih =>
    cases k with
    | zero =>
      rw [Nat.add_zero] at hfail
      refine ⟨id, by simp [markLoop, hfail], by simp [markLoop, hfail], fun r => ?_⟩
      exact ⟨rfl, Or.inl rfl, by simp⟩
    | succ k =>
      have h0 : env.markErr i = false := by
        have := hbefore 0 (Nat.succ_pos k)
        rwa [Nat.add_zero] at this
      have hk2 : k < rest.length := by simpa using hk
      obtain ⟨f, hf1, hf2, hf3⟩ := ih (i + 1) (updateOutboxProcessed (env.sqlNow i) x table) k hk2
        (by rw [← hfail]; congr 1; omega)
        (fun j hj => by
          have := hbefore (j + 1) (by omega)
          rw [← this]
          congr 1
          omega)
      refine ⟨f ∘ markRow (env.sqlNow i) x, ?_, ?_, fun r => ⟨?_, ?_, ?_⟩⟩
      · simp only [markLoop, h0, Bool.false_eq_true, if_false]
        rw [hf1, updateOutboxProcessed, List.map_map]
      · simp only [markLoop, h0, Bool.false_eq_true, if_false]
        exact hf2
      · simp only [Function.comp]
        rw [(hf3 _).1, markRow_id]
      · simp only [Function.comp, List.take_succ_cons]
        exact markedFrom_cons (hf3 _).2.1
      · intro hr
        simp only [Function.comp]
        rw [List.take_succ_cons] at hr
        rcases List.mem_cons.1 hr with hx | hx
        · have hp := markRow_processed (env.sqlNow i) x r hx
          rw [(hf3 (markRow (env.sqlNow i) x r)).2.1.processed hp]
          exact hp
        · exact (hf3 _).2.2 (by rw [markRow_id]; exact hx)

/-- C13, as stated, fails: when the update for the first id fails, the update
for the second id, which would succeed, is never issued, so row B stays
unprocessed although its message was published in the same cycle. -/
theorem mark_failure_blocks_later_ids :
    markFailPoll.markErr 1 = false ∧
      markEventsProcessed markFailPoll [rowA, rowB] [1, 2] = ([rowA, rowB], true) ∧
      (processOutboxBatch markFailPoll [rowA, rowB] 2).attempts.map Attempt.isPublished =
        [true, true] ∧
      (processOutboxBatch markFailPoll [rowA, rowB] 2).table = [rowA, rowB] := by
  decide

/-- C13, amended. When the mark-processed update of position `k` is the first
that fails, `markEventsProcessed` returns an error, every row whose id stands
before position `k` in the list is marked `processed = true` in the same cycle,
and no other row is touched: the failure does not undo or block the ids before
it, while the ids after it are not attempted. -/
theorem markEventsProcessed_failure_keeps_earlier (env : PollEnv) (table : OutboxTable)
    (ids : List UUID) (k : Nat) (hk : k < ids.length) (hfail : env.markErr k = true)
    (hbefore : ∀ j, j < k → env.markErr j = false) :
    (markEventsProcessed env table ids).2 = true ∧
      List.Forall₂
        (fun r r1 => r1.id = r.id ∧ MarkedFrom (ids.take k) r r1 ∧
          (r.id ∈ ids.take k → r1.processed = true))
        table (markEventsProcessed env table ids).1 := by
  obtain ⟨f, hf1, hf2, hf3⟩ := markLoop_failure env 0 table ids k hk
    (by rw [Nat.zero_add]; exact hfail)
    (fun j hj => by rw [Nat.zero_add]; exact hbefore j hj)
  have hne : ¬ ids.length = 0 := by omega
  simp only [markEventsProcessed, hne, if_false]
  refine ⟨hf2, ?_⟩
  rw [hf1, List.forall₂_map_right_iff, List.forall₂_same]
  exact fun r _ => hf3 r

theorem digitValue_digitChar (k : Nat) (hk : k < 10) : digitValue (Nat.digitChar k) = k := by
  interval_cases k <;> rfl

theorem decimalValue_toDigitsCore (fuel n : Nat) (ds : List Char) (h : n < fuel) :
    decimalValue 0 (Nat.toDigitsCore 10 fuel n ds) = decimalValue n ds := by
  induction fuel generalizing n ds with
  | zero => omega
  | succ fuel ih =>
    unfold Nat.toDigitsCore
    simp only
    split
    · rename_i h0
      have hlt : n < 10 := by omega
      rw [Nat.mod_eq_of_lt hlt]
      simp [decimalValue, digitValue_digitChar n hlt]
    · rename_i h0
      have hlt : n / 10 < fuel := by omega
      rw [ih (n / 10) _ hlt]
      simp only [decimalValue, List.foldl_cons,
        digitValue_digitChar _ (Nat.mod_lt n (by norm_num))]
      congr 1
      omega

/-- The text form of an identifier determines the identifier. -/
theorem UUID.String_injective (a b : UUID) (h : UUID.String a = UUID.String b) : a = b := by
  unfold UUID.String Nat.repr Nat.toDigits List.asString at h
  have h2 : Nat.toDigitsCore 10 (a + 1) a [] = Nat.toDigitsCore 10 (b + 1) b [] :=
    congrArg String.data h
  have ha := decimalValue_toDigitsCore (a + 1) a [] (Nat.lt_succ_self a)
  have hb := decimalValue_toDigitsCore (b + 1) b [] (Nat.lt_succ_self b)
  rw [h2, hb] at ha
  simpa [decimalValue] using ha.symm

theorem publishLoop_envelope (env : PollEnv) (i : Nat) (events : List OutboxEvent) :
    ∀ e msgID m, (Attempt.published e msgID m ∈ (publishLoop env i events).1 ∨
      Attempt.publishFailed e msgID m ∈ (publishLoop env i events).1) → Envelope e msgID m := by
  induction events generalizing i with
  | nil => simp [publishLoop]
  | cons ev rest ih =>
    intro e msgID m h
    simp only [publishLoop] at h
    split at h
    · simp only [List.mem_cons, reduceCtorEq, false_or] at h
      exact ih (i + 1) e msgID m h
    · split at h
      · simp only [List.mem_cons, reduceCtorEq, false_or, Attempt.publishFailed.injEq] at h
        rcases h with h | h | h
        · exact ih (i + 1) e msgID m (Or.inl h)
        · obtain ⟨rfl, rfl, rfl⟩ := h
          exact ⟨rfl, rfl, rfl, rfl, rfl, rfl, rfl⟩
        · exact ih (i + 1) e msgID m (Or.inr h)
      · simp only [List.mem_cons, reduceCtorEq, false_or, Attempt.published.injEq] at h
        rcases h with (h | h) | h
        · obtain ⟨rfl, rfl, rfl⟩ := h
          exact ⟨rfl, rfl, rfl, rfl, rfl, rfl, rfl⟩
        · exact ih (i + 1) e msgID m (Or.inl h)
        · exact ih (i + 1) e msgID m (Or.inr h)

/-- C15. Envelope construction and deterministic dedup key. Every message that
a poll cycle hands to `js.Publish`, whether the publish then succeeds or fails,
is for the event of a selected row, copies `event_id`, `aggregate_id`,
`aggregate_type`, `event_type`, `event_data` and `original_time` from that
event, and is published under the broker message id that is the text form of
the event's id. That text depends on the id only and differs for different
ids, so a re-publish of a row uses the same key and rows with distinct ids use
distinct keys. -/
theorem processOutboxBatch_envelope (env : PollEnv) (table : OutboxTable) (n : Int) :
    (∀ e msgID m,
      (Attempt.published e msgID m ∈ (processOutboxBatch env table n).attempts ∨
        Attempt.publishFailed e msgID m ∈ (processOutboxBatch env table n).attempts) →
      Envelope e msgID m ∧ ∃ r ∈ selectUnprocessed table n.toNat, r.toEvent = e) ∧
      (∀ x y : UUID, UUID.String x = UUID.String y ↔ x = y) := by
  refine ⟨fun e msgID m h => ?_, fun x y => ⟨UUID.String_injective x y, fun h => by rw [h]⟩⟩
  have hsel : ∃ r ∈ selectUnprocessed table n.toNat, r.toEvent = e := by
    rcases h with h | h
    · exact processOutboxBatch_attempt_selected env table n _ h
    · exact processOutboxBatch_attempt_selected env table n _ h
  refine ⟨?_, hsel⟩
  cases hread : getUnprocessedEvents env table n with
  | none =>
    unfold processOutboxBatch at h
    rw [hread] at h
    simp at h
  | some events =>
    rw [(processOutboxBatch_read env table n events hread).1] at h
    exact publishLoop_envelope env 0 events e msgID m h

/-! ## Further claims on the inbox processor -/

theorem allMessages_poison (pre post : List Msg) (x : Msg) (hx : x.decoded = none) :
    allMessages (pre ++ x :: post) = allMessages (pre ++ post) := by
  have hu : x.isUser = false := by simp [Msg.isUser, hx]
  have hp : x.isPayment = false := by simp [Msg.isPayment, hx]
  simp [allMessages_eq, stableReorder, List.filter_append, List.filter_cons, hu, hp]

theorem stableReorder_perm (messages : List Msg)
    (h : ∀ m ∈ messages, m.isUser = true ∨ m.isPayment = true) :
    (stableReorder messages).Perm messages := by
  have hcongr : messages.filter Msg.isPayment = messages.filter (fun m => !m.isUser) := by
    apply List.filter_congr
    intro m hm
    cases hd : m.decoded with
    | none =>
      have := h m hm
      simp [Msg.isUser, Msg.isPayment, hd] at this
    | some rm =>
      by_cases hu : rm.AggregateType = "user"
      · simp [Msg.isUser, Msg.isPayment, hd, hu]
      · have := h m hm
        simp only [Msg.isUser, Msg.isPayment, hd, decide_eq_true_eq] at this
        rcases this with h1 | h1
        · exact absurd h1 hu
        · simp [Msg.isUser, Msg.isPayment, hd, hu, h1]
  unfold stableReorder
  rw [hcongr]
  exact List.filter_append_perm _ _

/-- C12. Poison-message isolation. Inserting a message that does not parse at
any position of a batch changes nothing in what `processMessageBatch` does:
the same messages are handed to `processMessage` in the same order, with the
same results, the same `Ack`/`Nak` calls and the same final committed database
as for the batch without it. When the other messages all parse as user or
payment messages, each of them is still handed to `processMessage`: the
processed sequence is a rearrangement of them. -/
theorem processMessageBatch_poison_isolation {σ : Type} (F : ApplyFns σ) (env : Nat → Env)
    (db : TargetDB σ) (pre post : List Msg) (x : Msg) (hx : x.decoded = none) :
    processMessageBatch F env db (pre ++ x :: post) = processMessageBatch F env db (pre ++ post) ∧
      (processMessageBatch F env db (pre ++ x :: post)).2.map (fun h => h.msg) =
        stableReorder (pre ++ post) ∧
      ((∀ m ∈ pre ++ post, m.isUser = true ∨ m.isPayment = true) →
        ((processMessageBatch F env db (pre ++ x :: post)).2.map (fun h => h.msg)).Perm
          (pre ++ post)) := by
  have heq : processMessageBatch F env db (pre ++ x :: post) =
      processMessageBatch F env db (pre ++ post) := by
    unfold processMessageBatch
    rw [allMessages_poison pre post x hx]
  refine ⟨heq, ?_, fun hB => ?_⟩
  · rw [heq]
    exact processMessageBatch_msgs F env db (pre ++ post)
  · rw [heq, processMessageBatch_msgs F env db (pre ++ post)]
    exact stableReorder_perm _ hB

/-- The inbox after a call of `processMessage` is the inbox before, each row
changed by a function that fixes processed rows and keeps `event_id`, followed
by the rows added. -/
theorem processMessage_inbox {σ : Type} (F : ApplyFns σ) (env : Env) (db : TargetDB σ)
    (msg : Msg) :
    ∃ (g : InboxRow → InboxRow) (extra : List InboxRow),
      (processMessage F env db msg).db.inbox = db.inbox.map g ++ extra ∧
      ∀ r, (r.processed = true → g r = r) ∧ (g r).event_id = r.event_id ∧
        (r.id ≠ env.newID → g r = r) := by
  rcases processMessage_cases F env db msg with ⟨hdb, -, -⟩ | ⟨rm, -, -, -, -, -, hin⟩
  · exact ⟨id, [], by rw [hdb]; simp, fun r => ⟨fun _ => rfl, rfl, fun _ => rfl⟩⟩
  · refine ⟨markInboxRow env.sqlNow env.newID,
      [markInboxRow env.sqlNow env.newID
        { committedRow env rm with processed := false, processed_at := none }], ?_, ?_⟩
    · rw [hin, updateInboxProcessed, List.map_append]
      rfl
    · intro r
      refine ⟨fun hp => by simp [markInboxRow, hp], ?_, fun hne => by simp [markInboxRow, hne]⟩
      by_cases hc : r.id = env.newID ∧ r.processed = false
      · simp [markInboxRow, hc]
      · simp [markInboxRow, hc]

theorem is_event_processed_mono {σ : Type} (F : ApplyFns σ) (env : Env) (db : TargetDB σ)
    (msg : Msg) (e : UUID) (h : is_event_processed db e = true) :
    is_event_processed (processMessage F env db msg).db e = true := by
  obtain ⟨g, extra, hin, hg⟩ := processMessage_inbox F env db msg
  unfold is_event_processed at h ⊢
  rw [List.any_eq_true] at h ⊢
  obtain ⟨r, hr, hre⟩ := h
  have hp : r.processed = true := by
    simp only [Bool.and_eq_true] at hre
    exact hre.2
  refine ⟨r, ?_, hre⟩
  rw [hin]
  apply List.mem_append_left
  exact List.mem_map.2 ⟨r, hr, (hg r).1 hp⟩

theorem processLoop_is_event_processed {σ : Type} (F : ApplyFns σ) (env : Nat → Env) (i : Nat)
    (db : TargetDB σ) (msgs : List Msg) (e : UUID) (h : is_event_processed db e = true) :
    is_event_processed (processLoop F env i db msgs).1 e = true := by
  induction msgs generalizing i db with
  | nil => exact h
  | cons m ms ih =>
    simp only [processLoop]
    exact ih (i + 1) _ (is_event_processed_mono F (env i) db m e h)

/-- C19. Processed is terminal. If the idempotency predicate holds for an
event, it still holds after `processMessage` on any message, whatever the
outcome of the call, and after `processMessageBatch` on any batch. No call
sets a processed flag back: every inbox row keeps its place, a row with
`processed = true` is left exactly as it is, and rows are only added. -/
theorem processMessage_processed_terminal {σ : Type} (F : ApplyFns σ) (env : Env)
    (db : TargetDB σ) (m : Msg) (e : UUID) (h : is_event_processed db e = true) :
    is_event_processed (processMessage F env db m).db e = true ∧
      (∃ (g : InboxRow → InboxRow) (extra : List InboxRow),
        (processMessage F env db m).db.inbox = db.inbox.map g ++ extra ∧
        ∀ r, r.processed = true → g r = r) ∧
      (∀ (envs : Nat → Env) (messages : List Msg),
        is_event_processed (processMessageBatch F envs db messages).1 e = true) := by
  refine ⟨is_event_processed_mono F env db m e h, ?_, fun envs messages => ?_⟩
  · obtain ⟨g, extra, hin, hg⟩ := processMessage_inbox F env db m
    exact ⟨g, extra, hin, fun r => (hg r).1⟩
  · exact processLoop_is_event_processed F envs 0 db _ e h

/-- The committing path of `processMessage`, computed: the message parses as a
user or payment message, the event is not yet processed, no statement fails and
the apply function returns `(b, agg1)`. -/
theorem processMessage_commit_eq {σ : Type} (F : ApplyFns σ) (env : Env) (db : TargetDB σ)
    (m : Msg) (rm : ReplicationMessage) (b : Bool) (agg1 : σ) (hm : m.decoded = some rm)
    (hty : rm.AggregateType = "user" ∨ rm.AggregateType = "payment")
    (hnot : is_event_processed db rm.EventID = false) (henv : env.NoFault)
    (happly : applyFor F rm db.agg = some (b, agg1)) :
    processMessage F env db m =
      ⟨true, ⟨updateInboxProcessed env.sqlNow env.newID db.inbox ++ [committedRow env rm], agg1⟩,
        .done, committedSteps env rm⟩ := by
  obtain ⟨h1, h2, h3, h4, h5, h6⟩ := henv
  have hrow : updateInboxProcessed env.sqlNow env.newID
      (db.inbox ++ [(inboxEventOf env rm).toRow]) =
      updateInboxProcessed env.sqlNow env.newID db.inbox ++ [committedRow env rm] := by
    simp [updateInboxProcessed, markInboxRow, InboxEvent.toRow, inboxEventOf, committedRow]
  rcases hty with hu | hp
  · have happ : F.process_user_event rm.EventID rm.EventType rm.EventData db.agg =
        some (b, agg1) := by
      simpa [applyFor, hu] using happly
    simp only [processMessage, hm, isEventProcessed, h1, hnot, Begin, h2, saveToInbox, h3,
      dispatch, hu, processUserEvent, h4, happ, markInboxProcessed, h5, Tx.Commit, h6,
      Bool.false_eq_true, if_false, if_true]
    rw [← hrow]
    simp [committedSteps, applyStep, inboxEventOf, hu]
  · have hnu : rm.AggregateType ≠ "user" := by rw [hp]; decide
    have happ : F.process_payment_event rm.EventID rm.EventType rm.EventData db.agg =
        some (b, agg1) := by
      simpa [applyFor, hnu] using happly
    simp only [processMessage, hm, isEventProcessed, h1, hnot, Begin, h2, saveToInbox, h3,
      dispatch, hnu, hp, processPaymentEvent, h4, happ, markInboxProcessed, h5, Tx.Commit, h6,
      Bool.false_eq_true, if_false, if_true]
    rw [← hrow]
    simp [committedSteps, applyStep, inboxEventOf, hnu, hp]

/-- C18. The apply function's boolean does not override the outcome. For a
user or payment message whose event the idempotency predicate reports as not
processed, when no statement fails for a reason of the connection and the apply
function returns without error, `processMessage` inserts the inbox row, calls
the apply function, marks the row, commits and returns true, and the result is
the same whether the apply function returned true or false: the boolean appears
nowhere in the committed database, the returned value or the calls made. -/
theorem processMessage_apply_result_ignored {σ : Type} (F : ApplyFns σ) (env : Env)
    (db : TargetDB σ) (m : Msg) (rm : ReplicationMessage) (b : Bool) (agg1 : σ)
    (hm : m.decoded = some rm)
    (hty : rm.AggregateType = "user" ∨ rm.AggregateType = "payment")
    (hnot : is_event_processed db rm.EventID = false) (henv : env.NoFault)
    (happly : applyFor F rm db.agg = some (b, agg1)) :
    processMessage F env db m =
        ⟨true, ⟨updateInboxProcessed env.sqlNow env.newID db.inbox ++ [committedRow env rm], agg1⟩,
          .done, committedSteps env rm⟩ ∧
      (processMessage F env db m).ok = true ∧
      committedRow env rm ∈ (processMessage F env db m).db.inbox ∧
      (committedRow env rm).processed = true := by
  have h := processMessage_commit_eq F env db m rm b agg1 hm hty hnot henv happly
  refine ⟨h, by rw [h], ?_, rfl⟩
  rw [h]
  simp

/-- The exit `done` is reached only on the committing path. -/
theorem processMessage_done_inv {σ : Type} (F : ApplyFns σ) (env : Env) (db : TargetDB σ)
    (m : Msg) (rm : ReplicationMessage) (hm : m.decoded = some rm)
    (hdone : (processMessage F env db m).exit = .done) :
    env.NoFault ∧ (rm.AggregateType = "user" ∨ rm.AggregateType = "payment") ∧
      is_event_processed db rm.EventID = false ∧
      ∃ b agg1, applyFor F rm db.agg = some (b, agg1) := by
  cases h1 : env.checkErr with
  | true => simp [processMessage, hm, isEventProcessed, h1] at hdone
  | false =>
  cases hnot : is_event_processed db rm.EventID with
  | true => simp [processMessage, hm, isEventProcessed, h1, hnot] at hdone
  | false =>
  cases h2 : env.beginErr with
  | true => simp [processMessage, hm, isEventProcessed, h1, hnot, Begin, h2] at hdone
  | false =>
  cases h3 : env.insertErr with
  | true =>
    simp [processMessage, hm, isEventProcessed, h1, hnot, Begin, h2, saveToInbox, h3] at hdone
  | false =>
  cases h4 : env.applyErr with
  | true =>
    by_cases hu : rm.AggregateType = "user"
    · simp [processMessage, hm, isEventProcessed, h1, hnot, Begin, h2, saveToInbox, h3,
        dispatch, hu, processUserEvent, h4] at hdone
    · by_cases hp : rm.AggregateType = "payment"
      · simp [processMessage, hm, isEventProcessed, h1, hnot, Begin, h2, saveToInbox, h3,
          dispatch, hu, hp, processPaymentEvent, h4] at hdone
      · simp [processMessage, hm, isEventProcessed, h1, hnot, Begin, h2, saveToInbox, h3,
          dispatch, hu, hp] at hdone
  | false =>
  cases h5 : env.markErr with
  | true =>
    by_cases hu : rm.AggregateType = "user"
    · cases happ : F.process_user_event rm.EventID rm.EventType rm.EventData db.agg <;>
        simp [processMessage, hm, isEventProcessed, h1, hnot, Begin, h2, saveToInbox, h3,
          dispatch, hu, processUserEvent, h4, happ, markInboxProcessed, h5] at hdone
    · by_cases hp : rm.AggregateType = "payment"
      · cases happ : F.process_payment_event rm.EventID rm.EventType rm.EventData db.agg <;>
          simp [processMessage, hm, isEventProcessed, h1, hnot, Begin, h2, saveToInbox, h3,
            dispatch, hu, hp, processPaymentEvent, h4, happ, markInboxProcessed, h5] at hdone
      · simp [processMessage, hm, isEventProcessed, h1, hnot, Begin, h2, saveToInbox, h3,
          dispatch, hu, hp] at hdone
  | false =>
  cases h6 : env.commitErr with
  | true =>
    by_cases hu : rm.AggregateType = "user"
    · cases happ : F.process_user_event rm.EventID rm.EventType rm.EventData db.agg <;>
        simp [processMessage, hm, isEventProcessed, h1, hnot, Begin, h2, saveToInbox, h3,
          dispatch, hu, processUserEvent, h4, happ, markInboxProcessed, h5, Tx.Commit,
          h6] at hdone
    · by_cases hp : rm.AggregateType = "payment"
      · cases happ : F.process_payment_event rm.EventID rm.EventType rm.EventData db.agg <;>
          simp [processMessage, hm, isEventProcessed, h1, hnot, Begin, h2, saveToInbox, h3,
            dispatch, hu, hp, processPaymentEvent, h4, happ, markInboxProcessed, h5,
            Tx.Commit, h6] at hdone
      · simp [processMessage, hm, isEventProcessed, h1, hnot, Begin, h2, saveToInbox, h3,
          dispatch, hu, hp] at hdone
  | false =>
  refine ⟨⟨h1, h2, h3, h4, h5, h6⟩, ?_⟩
  by_cases hu : rm.AggregateType = "user"
  · refine ⟨Or.inl hu, rfl, ?_⟩
    cases happ : F.process_user_event rm.EventID rm.EventType rm.EventData db.agg with
    | none =>
      simp [processMessage, hm, isEventProcessed, h1, hnot, Begin, h2, saveToInbox, h3,
        dispatch, hu, processUserEvent, h4, happ] at hdone
    | some p => exact ⟨p.1, p.2, by simp [applyFor, hu, happ]⟩
  · by_cases hp : rm.AggregateType = "payment"
    · refine ⟨Or.inr hp, rfl, ?_⟩
      cases happ : F.process_payment_event rm.EventID rm.EventType rm.EventData db.agg with
      | none =>
        simp [processMessage, hm, isEventProcessed, h1, hnot, Begin, h2, saveToInbox, h3,
          dispatch, hu, hp, processPaymentEvent, h4, happ] at hdone
      | some p => exact ⟨p.1, p.2, by simp [applyFor, hu, happ]⟩
    · simp [processMessage, hm, isEventProcessed, h1, hnot, Begin, h2, saveToInbox, h3,
        dispatch, hu, hp] at hdone

theorem updateInboxProcessed_fresh (t : Time) (id : UUID) (inbox : List InboxRow)
    (h : ∀ r ∈ inbox, r.id ≠ id) : updateInboxProcessed t id inbox = inbox := by
  unfold updateInboxProcessed
  conv_rhs => rw [← List.map_id inbox]
  apply List.map_congr_left
  intro r hr
  simp [markInboxRow, h r hr]

/-- A call that returns true for an event not yet processed took the exit `done`. -/
theorem processMessage_ok_done {σ : Type} (F : ApplyFns σ) (env : Env) (db : TargetDB σ)
    (m : Msg) (rm : ReplicationMessage) (hm : m.decoded = some rm)
    (hok : (processMessage F env db m).ok = true)
    (hnot : is_event_processed db rm.EventID = false) :
    (processMessage F env db m).exit = .done := by
  rcases processMessage_cases F env db m with ⟨-, -, hiff⟩ | ⟨_, -, hdone, -⟩
  · obtain ⟨rm1, hm1, hq⟩ := processMessage_exit_duplicate F env db m (hiff.1 hok)
    rw [hm] at hm1
    cases hm1
    unfold isEventProcessed at hq
    split at hq
    · cases hq
    · rw [hnot] at hq
      cases hq
  · exact hdone

/-- C17. InboxEvent row content. When `processMessage` returns true for a user
or payment message whose event was not already processed, the committed inbox
is the inbox before, with the update of the new id applied, followed by exactly
one new row; that row carries the `event_id`, `aggregate_id`, `aggregate_type`,
`event_type` and `event_data` of the message and `processed = true`, and for a
fresh id the earlier rows are untouched. The calls made are the idempotency
query, `Begin`, one inbox insert, one call of the apply function of the
message's aggregate type with `(event_id, event_type, event_data)`, the mark and
the commit, and the committed aggregate state is the one that apply call returned. -/
theorem processMessage_inbox_row {σ : Type} (F : ApplyFns σ) (env : Env) (db : TargetDB σ)
    (m : Msg) (rm : ReplicationMessage) (hm : m.decoded = some rm)
    (hty : rm.AggregateType = "user" ∨ rm.AggregateType = "payment")
    (hok : (processMessage F env db m).ok = true)
    (hnot : is_event_processed db rm.EventID = false) :
    (processMessage F env db m).db.inbox =
        updateInboxProcessed env.sqlNow env.newID db.inbox ++ [committedRow env rm] ∧
      (processMessage F env db m).db.inbox.length = db.inbox.length + 1 ∧
      ((∀ r ∈ db.inbox, r.id ≠ env.newID) →
        (processMessage F env db m).db.inbox = db.inbox ++ [committedRow env rm]) ∧
      ((committedRow env rm).event_id = rm.EventID ∧
        (committedRow env rm).aggregate_id = rm.AggregateID ∧
        (committedRow env rm).aggregate_type = rm.AggregateType ∧
        (committedRow env rm).event_type = rm.EventType ∧
        (committedRow env rm).event_data = rm.EventData ∧
        (committedRow env rm).processed = true) ∧
      (processMessage F env db m).steps = committedSteps env rm ∧
      (processMessage F env db m).steps.filter Step.isInsert =
        [Step.saveToInbox .tx (inboxEventOf env rm)] ∧
      (processMessage F env db m).steps.filter Step.isApply = [applyStep rm] ∧
      ((rm.AggregateType = "user" →
          applyStep rm = .processUserEvent .tx rm.EventID rm.EventType rm.EventData) ∧
        (rm.AggregateType = "payment" →
          applyStep rm = .processPaymentEvent .tx rm.EventID rm.EventType rm.EventData)) ∧
      ∃ b, applyFor F rm db.agg = some (b, (processMessage F env db m).db.agg) := by
  have hdone := processMessage_ok_done F env db m rm hm hok hnot
  obtain ⟨henv, -, -, b, agg1, happly⟩ := processMessage_done_inv F env db m rm hm hdone
  have heq := processMessage_commit_eq F env db m rm b agg1 hm hty hnot henv happly
  rw [heq]
  refine ⟨rfl, by simp [updateInboxProcessed], fun hfresh => ?_, ⟨rfl, rfl, rfl, rfl, rfl, rfl⟩,
    rfl, ?_, ?_, ⟨fun hu => by simp [applyStep, hu], fun hp => ?_⟩, ⟨b, happly⟩⟩
  · simp only
    rw [updateInboxProcessed_fresh _ _ _ hfresh]
  · unfold committedSteps applyStep
    split <;> simp [List.filter_cons, Step.isInsert]
  · unfold committedSteps applyStep
    split <;> simp [List.filter_cons, Step.isApply]
  · have hnu : rm.AggregateType ≠ "user" := by rw [hp]; decide
    simp [applyStep, hnu]

theorem is_event_processed_iff_count {σ : Type} (db : TargetDB σ) (e : UUID) :
    is_event_processed db e = true ↔ 0 < processedCount db.inbox e := by
  unfold is_event_processed processedCount
  rw [List.any_eq_true, List.countP_pos_iff]

/-- On the exit `done` the committed inbox is the old inbox, updated for the
new id, followed by the committed row, and the event was not processed before. -/
theorem processMessage_done_inbox {σ : Type} (F : ApplyFns σ) (env : Env) (db : TargetDB σ)
    (m : Msg) (rm : ReplicationMessage) (hm : m.decoded = some rm)
    (hdone : (processMessage F env db m).exit = .done) :
    (processMessage F env db m).db.inbox =
        updateInboxProcessed env.sqlNow env.newID db.inbox ++ [committedRow env rm] ∧
      is_event_processed db rm.EventID = false := by
  obtain ⟨henv, hty, hnot, b, agg1, happly⟩ := processMessage_done_inv F env db m rm hm hdone
  rw [processMessage_commit_eq F env db m rm b agg1 hm hty hnot henv happly]
  exact ⟨rfl, hnot⟩

theorem processedCount_append_committed (inbox : List InboxRow) (env : Env)
    (rm : ReplicationMessage) (e : UUID) :
    processedCount (inbox ++ [committedRow env rm]) e =
      processedCount inbox e + (if rm.EventID = e then 1 else 0) := by
  unfold processedCount
  rw [List.countP_append]
  congr 1
  by_cases h : rm.EventID = e
  · simp [List.countP_cons, committedRow, h]
  · simp [List.countP_cons, committedRow, h]

/-- One call of `processMessage` with a fresh `uuid.New()` adds one processed
row for the event of the message when it takes the exit `done` and leaves the
inbox as it was otherwise. -/
theorem processMessage_count {σ : Type} (F : ApplyFns σ) (env : Env) (db : TargetDB σ)
    (m : Msg) (hfresh : ∀ r ∈ db.inbox, r.id ≠ env.newID) (e : UUID) :
    processedCount (processMessage F env db m).db.inbox e =
        processedCount db.inbox e +
          (if Handled.committed e (⟨m, processMessage F env db m, AckDecision.Ack⟩ : Handled σ)
            then 1 else 0) ∧
      ((processMessage F env db m).exit = .done →
        ∃ rm, m.decoded = some rm ∧ is_event_processed db rm.EventID = false ∧
          (processMessage F env db m).db.inbox = db.inbox ++ [committedRow env rm]) := by
  by_cases hdone : (processMessage F env db m).exit = .done
  · rcases processMessage_cases F env db m with ⟨-, hne, -⟩ | ⟨rm, hm, -, -, -, -, -⟩
    · exact absurd hdone hne
    · obtain ⟨hin, hnot⟩ := processMessage_done_inbox F env db m rm hm hdone
      rw [updateInboxProcessed_fresh _ _ _ hfresh] at hin
      refine ⟨?_, fun _ => ⟨rm, hm, hnot, hin⟩⟩
      rw [hin, processedCount_append_committed]
      simp [Handled.committed, hdone, hm]
  · rcases processMessage_cases F env db m with ⟨hdb, -, -⟩ | ⟨rm, -, hd, -⟩
    · refine ⟨?_, fun h => absurd h hdone⟩
      rw [hdb]
      simp [Handled.committed, hdone]
    · exact absurd hd hdone

theorem processMessage_atMostOnce {σ : Type} (F : ApplyFns σ) (env : Env) (db : TargetDB σ)
    (m : Msg) (hinv : AtMostOnce db) (hfresh : ∀ r ∈ db.inbox, r.id ≠ env.newID) :
    AtMostOnce (processMessage F env db m).db := by
  intro e
  obtain ⟨hcount, hdone⟩ := processMessage_count F env db m hfresh e
  rw [hcount]
  by_cases hc : Handled.committed e
      (⟨m, processMessage F env db m, AckDecision.Ack⟩ : Handled σ) = true
  · have hex : (processMessage F env db m).exit = .done := by
      simp only [Handled.committed, Bool.and_eq_true, decide_eq_true_eq] at hc
      exact hc.1
    obtain ⟨rm, hm, hnot, -⟩ := hdone hex
    have hev : rm.EventID = e := by
      simp only [Handled.committed, hm, Bool.and_eq_true, beq_iff_eq] at hc
      exact hc.2
    have hzero : processedCount db.inbox e = 0 := by
      have := (is_event_processed_iff_count db e).not
      rw [← hev] at this ⊢
      rw [hnot] at this
      simpa using this
    rw [hzero, if_pos hc]
  · rw [if_neg hc]
    exact hinv e

/-- The accounting of a batch: with fresh and pairwise distinct new ids, the
invariant is kept and the processed rows of an event after the loop are those
before plus the iterations that committed the apply function for it. -/
theorem processLoop_count {σ : Type} (F : ApplyFns σ) (env : Nat → Env)
    (hdist : ∀ i j, (env i).newID = (env j).newID → i = j) (i : Nat) (db : TargetDB σ)
    (msgs : List Msg) (hinv : AtMostOnce db)
    (hfresh : ∀ j, i ≤ j → ∀ r ∈ db.inbox, r.id ≠ (env j).newID) :
    AtMostOnce (processLoop F env i db msgs).1 ∧
      ∀ e, processedCount (processLoop F env i db msgs).1.inbox e =
        processedCount db.inbox e + commitCount (processLoop F env i db msgs).2 e := by
  induction msgs generalizing i db with
  | nil => exact ⟨hinv, fun e => by simp [processLoop, commitCount]⟩
  | cons m ms ih =>
    have hfi := hfresh i (Nat.le_refl i)
    have hinv1 := processMessage_atMostOnce F (env i) db m hinv hfi
    have hfresh1 : ∀ j, i + 1 ≤ j →
        ∀ r ∈ (processMessage F (env i) db m).db.inbox, r.id ≠ (env j).newID := by
      intro j hj r hr
      by_cases hdone : (processMessage F (env i) db m).exit = .done
      · obtain ⟨rm, -, -, hin⟩ := (processMessage_count F (env i) db m hfi 0).2 hdone
        rw [hin] at hr
        rcases List.mem_append.1 hr with h | h
        · exact hfresh j (by omega) r h
        · rw [List.mem_singleton] at h
          rw [h]
          intro heq
          have := hdist i j heq
          omega
      · rcases processMessage_cases F (env i) db m with ⟨hdb, -, -⟩ | ⟨rm, -, hd, -⟩
        · rw [hdb] at hr
          exact hfresh j (by omega) r hr
        · exact absurd hd hdone
    obtain ⟨ih1, ih2⟩ := ih (i + 1) (processMessage F (env i) db m).db hinv1 hfresh1
    refine ⟨ih1, fun e => ?_⟩
    simp only [processLoop]
    rw [ih2 e, (processMessage_count F (env i) db m hfi e).1]
    simp only [commitCount, List.countP_cons, Handled.committed]
    omega

/-- C14. Exactly-once-effect invariant of the Inbox Table. The idempotency
predicate holds for an event exactly when the inbox has a processed row for it.
If the committed inbox holds at most one row with `processed = true` per
`event_id`, and the ids drawn by `uuid.New()` are new to the inbox and pairwise
distinct, then the inbox still has that property after `processMessage` on any
message and after `processMessageBatch` on any batch, batches that repeat an
`event_id` included. The processed rows of an event after the batch are those
before plus the iterations that committed the apply function for it, so the
apply function is committed at most once per `event_id`, and not at all for an
event that was processed before the batch. -/
theorem inbox_exactly_once_effect {σ : Type} (F : ApplyFns σ) (env : Nat → Env)
    (db : TargetDB σ) (messages : List Msg) (hinv : AtMostOnce db)
    (hfresh : ∀ i, ∀ r ∈ db.inbox, r.id ≠ (env i).newID)
    (hdist : ∀ i j, (env i).newID = (env j).newID → i = j) :
    (∀ e, is_event_processed db e = true ↔ 0 < processedCount db.inbox e) ∧
      (∀ m, AtMostOnce (processMessage F (env 0) db m).db) ∧
      AtMostOnce (processMessageBatch F env db messages).1 ∧
      ∀ e,
        processedCount (processMessageBatch F env db messages).1.inbox e =
            processedCount db.inbox e + commitCount (processMessageBatch F env db messages).2 e ∧
          commitCount (processMessageBatch F env db messages).2 e ≤ 1 ∧
          (is_event_processed db e = true →
            commitCount (processMessageBatch F env db messages).2 e = 0) := by
  obtain ⟨h1, h2⟩ := processLoop_count F env hdist 0 db (allMessages messages) hinv
    (fun j _ => hfresh j)
  refine ⟨is_event_processed_iff_count db,
    fun m => processMessage_atMostOnce F (env 0) db m hinv (hfresh 0), h1, fun e => ?_⟩
  have heq := h2 e
  have hle := h1 e
  refine ⟨heq, ?_, fun hp => ?_⟩
  · unfold processMessageBatch
    omega
  · have hpos := (is_event_processed_iff_count db e).1 hp
    unfold processMessageBatch
    omega

/-! ## Claims on the order of calls and on skipped messages -/

theorem dispatch_call {σ : Type} {F : ApplyFns σ} {env : Env} {tx : Tx σ}
    {rm : ReplicationMessage} {call : Step} {x : Option (Bool × Tx σ)}
    (h : dispatch F env tx rm = some (call, x)) : call.inTransaction = true := by
  unfold dispatch at h
  split at h
  · simp only [Option.some.injEq, Prod.mk.injEq] at h
    rw [← h.1]
    rfl
  · split at h
    · simp only [Option.some.injEq, Prod.mk.injEq] at h
      rw [← h.1]
      rfl
    · cases h

/-- C22, as stated, fails: on a user message not yet processed, the first
call of `processMessage` is the idempotency query on the pool `db`, and
`db.Begin()` comes only after it. -/
theorem idempotency_check_precedes_transaction :
    (processMessage sampleApply calmEnv ⟨[], []⟩ userMsg).steps.take 2 =
      [Step.isEventProcessed .db 11, Step.begin] := by
  decide

/-- The apply call that `dispatch` records is the call of the apply function
of the aggregate type, on the transaction. -/
theorem dispatch_step {σ : Type} {F : ApplyFns σ} {env : Env} {tx : Tx σ}
    {rm : ReplicationMessage} {call : Step} {x : Option (Bool × Tx σ)}
    (h : dispatch F env tx rm = some (call, x)) : call = applyStep rm := by
  unfold dispatch at h
  unfold applyStep
  split at h
  · rename_i hu
    simp only [Option.some.injEq, Prod.mk.injEq] at h
    rw [← h.1, if_pos hu]
  · rename_i hu
    split at h
    · simp only [Option.some.injEq, Prod.mk.injEq] at h
      rw [← h.1, if_neg hu]
    · cases h

/-- The calls of `processMessage` on a message that parses: the idempotency
query alone unless it answered false, and otherwise the query followed by one
of the transaction traces, the committed one exactly when true is returned. -/
theorem processMessage_trace {σ : Type} (F : ApplyFns σ) (env : Env)
    (db : TargetDB σ) (m : Msg) (rm : ReplicationMessage) (hm : m.decoded = some rm) :
    (isEventProcessed env db rm.EventID ≠ some false ∧
      ∃ ok db1 exit, processMessage F env db m =
        ⟨ok, db1, exit, [Step.isEventProcessed .db rm.EventID]⟩) ∨
    (isEventProcessed env db rm.EventID = some false ∧
      ∃ ok db1 exit tail, processMessage F env db m =
          ⟨ok, db1, exit, Step.isEventProcessed .db rm.EventID :: tail⟩ ∧
        tail ∈ transactionTraces env rm ∧
        (ok = true ↔ tail = [.begin, .saveToInbox .tx (inboxEventOf env rm), applyStep rm,
          .markInboxProcessed .tx [env.newID], .commit])) := by
  unfold processMessage
  rw [hm]
  dsimp only
  split
  · rename_i hq
    exact Or.inl ⟨by rw [hq]; simp, _, _, _, rfl⟩
  · rename_i hq
    exact Or.inl ⟨by rw [hq]; simp, _, _, _, rfl⟩
  · rename_i hq
    refine Or.inr ⟨hq, ?_⟩
    split
    · exact ⟨_, _, _, [.begin], rfl, by simp [transactionTraces], by simp⟩
    · split
      · exact ⟨_, _, _, _, rfl, by simp [transactionTraces, inboxEventOf], by simp⟩
      · split
        · exact ⟨_, _, _, _, rfl, by simp [transactionTraces, inboxEventOf], by simp⟩
        · rename_i call hd
          have hcall := dispatch_step hd
          subst hcall
          exact ⟨_, _, _, _, rfl, by simp [transactionTraces, inboxEventOf], by simp⟩
        · rename_i call b tx2 hd
          have hcall := dispatch_step hd
          subst hcall
          split
          · exact ⟨_, _, _, _, rfl, by simp [transactionTraces, inboxEventOf], by simp⟩
          · split
            · exact ⟨_, _, _, _, rfl, by simp [transactionTraces, inboxEventOf], by simp⟩
            · exact ⟨_, _, _, _, rfl, by simp [transactionTraces, inboxEventOf],
                by simp [inboxEventOf]⟩

/-- C22, amended. In every execution of `processMessage` on a message that
parses, the first call is the idempotency query, issued on the pool `db` and
not on a transaction, and it is the only such query. `Begin` is called exactly
when that query answered false (not on an error of the query, not for a
processed event), and then it is the next call and is called once: the calls
after the query form one of the traces of `transactionTraces`, that is `Begin`
followed by the inbox insert, the apply call and the processed-mark in this
order, each at most once and each on `tx`, up to the first failing one, closed
by `Commit` or by the deferred `Rollback`. Every call after the query belongs
to that transaction. `processMessage` returns true after opening a transaction
exactly when the calls are the query, `Begin`, the insert, the apply call, the
mark and `Commit`: the transaction holds three steps, and the check precedes
it. -/
theorem processMessage_check_before_transaction {σ : Type} (F : ApplyFns σ) (env : Env)
    (db : TargetDB σ) (m : Msg) (rm : ReplicationMessage) (hm : m.decoded = some rm) :
    ∃ tail, (processMessage F env db m).steps = Step.isEventProcessed .db rm.EventID :: tail ∧
      (tail = [] ∨ tail.head? = some Step.begin) ∧
      (∀ s ∈ tail, s.inTransaction = true) ∧
      (Step.begin ∈ tail ↔ isEventProcessed env db rm.EventID = some false) ∧
      (tail = [] ↔ isEventProcessed env db rm.EventID ≠ some false) ∧
      (tail ≠ [] → tail ∈ transactionTraces env rm) ∧
      tail.count Step.begin ≤ 1 ∧
      (isEventProcessed env db rm.EventID = some false →
        ((processMessage F env db m).ok = true ↔
          (processMessage F env db m).steps = committedSteps env rm)) := by
  have hb : Step.inTransaction .begin = true := rfl
  have hc : Step.inTransaction .commit = true := rfl
  have hr : Step.inTransaction .rollback = true := rfl
  have hs : ∀ ev, Step.inTransaction (.saveToInbox .tx ev) = true := fun _ => rfl
  have hk : ∀ ids, Step.inTransaction (.markInboxProcessed .tx ids) = true := fun _ => rfl
  have ha : (applyStep rm).inTransaction = true := by
    unfold applyStep
    split <;> rfl
  have hab : applyStep rm ≠ Step.begin := by
    unfold applyStep
    split <;> simp
  rcases processMessage_trace F env db m rm hm with
    ⟨hq, ok, db1, exit, hpm⟩ | ⟨hq, ok, db1, exit, tail, hpm, htail, hok⟩
  · rw [hpm]
    exact ⟨[], rfl, Or.inl rfl, by simp, by simpa using hq, by simpa using hq, by simp,
      by simp, fun h => absurd h hq⟩
  · rw [hpm]
    refine ⟨tail, rfl, ?_, ?_, ?_, ?_, fun _ => htail, ?_, ?_⟩
    · right
      simp only [transactionTraces, List.mem_cons, List.mem_singleton, List.not_mem_nil,
        or_false] at htail
      rcases htail with h | h | h | h | h | h <;> rw [h] <;> rfl
    · simp only [transactionTraces, List.mem_cons, List.mem_singleton, List.not_mem_nil,
        or_false] at htail
      rcases htail with h | h | h | h | h | h <;> rw [h] <;> simp [hb, hc, hr, hs, hk, ha]
    · simp only [transactionTraces, List.mem_cons, List.mem_singleton, List.not_mem_nil,
        or_false] at htail
      rcases htail with h | h | h | h | h | h <;> rw [h] <;> simp [hq]
    · simp only [transactionTraces, List.mem_cons, List.mem_singleton, List.not_mem_nil,
        or_false] at htail
      rcases htail with h | h | h | h | h | h <;> rw [h] <;> simp [hq]
    · simp only [transactionTraces, List.mem_cons, List.mem_singleton, List.not_mem_nil,
        or_false] at htail
      rcases htail with h | h | h | h | h | h <;> rw [h] <;>
        simp [List.count_cons, hab]
    · intro _
      simp only [committedSteps, List.cons.injEq, true_and]
      exact hok

theorem allMessages_skipped (pre post : List Msg) (x : Msg) (hu : x.isUser = false)
    (hp : x.isPayment = false) : allMessages (pre ++ x :: post) = allMessages (pre ++ post) := by
  simp [allMessages_eq, stableReorder, List.filter_append, List.filter_cons, hu, hp]

/-- C23. Messages of an unrecognised aggregate type are silently skipped. For a
message that parses with an aggregate type other than `user` and `payment` (the
empty string included), at any position of a batch, `processMessageBatch` runs
no iteration on it, so `processMessage` is not called on it and neither `Ack`
nor `Nak` is issued for it; and the whole result of the batch, the final
committed database included, is that of the batch without the message. -/
theorem processMessageBatch_skips_unknown_aggregate {σ : Type} (F : ApplyFns σ)
    (env : Nat → Env) (db : TargetDB σ) (pre post : List Msg) (m : Msg)
    (rm : ReplicationMessage) (hm : m.decoded = some rm)
    (hnu : rm.AggregateType ≠ "user") (hnp : rm.AggregateType ≠ "payment") :
    (∀ h ∈ (processMessageBatch F env db (pre ++ m :: post)).2, h.msg ≠ m) ∧
      processMessageBatch F env db (pre ++ m :: post) =
        processMessageBatch F env db (pre ++ post) ∧
      (processMessageBatch F env db (pre ++ m :: post)).1 =
        (processMessageBatch F env db (pre ++ post)).1 := by
  have hu : m.isUser = false := by simp [Msg.isUser, hm, hnu]
  have hp : m.isPayment = false := by simp [Msg.isPayment, hm, hnp]
  have heq : processMessageBatch F env db (pre ++ m :: post) =
      processMessageBatch F env db (pre ++ post) := by
    unfold processMessageBatch
    rw [allMessages_skipped pre post m hu hp]
  refine ⟨fun h hh hmsg => ?_, heq, by rw [heq]⟩
  have hmem : h.msg ∈ (processMessageBatch F env db (pre ++ m :: post)).2.map (fun h => h.msg) :=
    List.mem_map_of_mem _ hh
  rw [processMessageBatch_msgs, hmsg] at hmem
  unfold stableReorder at hmem
  rcases List.mem_append.1 hmem with h1 | h1
  · have := (List.mem_filter.1 h1).2
    rw [hu] at this
    cases this
  · have := (List.mem_filter.1 h1).2
    rw [hp] at this
    cases this

/-! ## Claims on the configuration and on the data generator -/

/-- C24. What the code does with `POLL_INTERVAL=0` and `BATCH_SIZE=0`: both
strings convert without error, so the poll interval is 0 and the batch size is
0; the duration handed to `time.NewTicker` is 0, for which it panics. Negative
numbers are taken as they are too, while an unset or non-numeric value falls
back to the default. -/
theorem publisher_config_accepts_zero :
    publisherConfig "0" "0" = ⟨0, 0⟩ ∧
      NewTicker (tickerDuration (publisherConfig "0" "0").pollInterval) = none ∧
      publisherConfig "-5" "-3" = ⟨-5, -3⟩ ∧
      publisherConfig "" "abc" = ⟨1, 10⟩ := by
  decide

/-- The letters `ё` and `Ё` are not keys of the map: `transliterate` appends
them unchanged. No name of `firstNames` or `lastNames` holds either. -/
theorem transliterate_passes_yo_through :
    translitMap 'ё' = none ∧ translitMap 'Ё' = none ∧
      transliterate "ё" = "ё" ∧ transliterate "Фёдор" = "fёdor" ∧
      isLowerLatin (transliterate "Фёдор") = false ∧
      transliterate "Федоров" = "fedorov" ∧
      (∀ name ∈ firstNames ++ lastNames, 'ё' ∉ name.data ∧ 'Ё' ∉ name.data) := by
  decide

/-- Every letter of the range `А`..`я` is a key of the map, and its Latin text
is made of lower-case Latin letters. -/
theorem translitMap_letter (c : Char) (h : isRussianLetter c = true) :
    ∃ latin, translitMap c = some latin ∧ isLowerLatin latin = true := by
  have h1 : 1040 ≤ c.toNat ∧ c.toNat ≤ 1103 := by
    unfold isRussianLetter at h
    rw [decide_eq_true_eq] at h
    obtain ⟨h1, h2⟩ := h
    rw [Char.le_def] at h1 h2
    exact ⟨h1, h2⟩
  have hc : c = Char.ofNat c.toNat := (Char.ofNat_toNat c).symm
  generalize c.toNat = n at h1 hc
  subst hc
  obtain ⟨h1, h2⟩ := h1
  interval_cases n <;> exact ⟨_, rfl, rfl⟩

/-- The loop of `transliterate` on letters of the range `А`..`я`: the Latin
texts of the letters are appended in order. -/
theorem transliterate_foldl (cs : List Char) (acc : String)
    (h : ∀ c ∈ cs, isRussianLetter c = true) :
    (cs.foldl
      (fun result char =>
        match translitMap char with
        | some latin => result ++ latin
        | none => result ++ String.singleton char)
      acc).data = acc.data ++ cs.flatMap (fun c => ((translitMap c).getD "").data) := by
  induction cs generalizing acc with
  | nil => simp
  | cons c cs ih =>
    obtain ⟨latin, hl, -⟩ := translitMap_letter c (h c (List.mem_cons_self _ _))
    rw [List.foldl_cons, ih _ (fun x hx => h x (List.mem_cons_of_mem _ hx))]
    simp [hl, String.data_append]

/-- C27. Full transliteration for e-mail addresses: for every text made of
letters of the Russian alphabet in the range `А`..`я` (the 32 upper-case and
the 32 lower-case letters U+0410..U+044F; `Ё` and `ё` lie outside it),
`transliterate` returns a text that consists only of lower-case ASCII Latin
letters: the result is the Latin texts of the letters in order, every letter
of the input is a key of the map with a lower-case Latin text, and no rune of
the result is a rune of the input, so none is passed through unchanged. Every
name of `firstNames` and `lastNames`, the only texts `generateUser` passes to
`transliterate`, is such a text, and the local part of every e-mail address
that `generateUser` can build is made of two lower-case Latin words joined by
a dot. -/
theorem transliterate_lower_latin (text : String)
    (h : ∀ c ∈ text.data, isRussianLetter c = true) :
    isLowerLatin (transliterate text) = true ∧
      (transliterate text).data =
        text.data.flatMap (fun c => ((translitMap c).getD "").data) ∧
      (∀ c ∈ text.data, ∃ latin, translitMap c = some latin ∧ isLowerLatin latin = true) ∧
      (∀ c ∈ (transliterate text).data, c ∉ text.data) ∧
      (∀ name ∈ firstNames ++ lastNames, ∀ c ∈ name.data, isRussianLetter c = true) ∧
      (∀ firstName ∈ firstNames, ∀ lastName ∈ lastNames, ∀ domain,
        isLowerLatin (transliterate firstName) = true ∧
          isLowerLatin (transliterate lastName) = true ∧
          generateUserEmail firstName lastName domain =
            transliterate firstName ++ "." ++ transliterate lastName ++ "@" ++ domain) := by
  have hdata : (transliterate text).data =
      text.data.flatMap (fun c => ((translitMap c).getD "").data) := by
    unfold transliterate
    rw [transliterate_foldl text.data "" h]
    rfl
  have hlow : isLowerLatin (transliterate text) = true := by
    unfold isLowerLatin
    rw [hdata, List.all_eq_true]
    intro x hx
    obtain ⟨c, hc, hxc⟩ := List.mem_flatMap.1 hx
    obtain ⟨latin, hl, hll⟩ := translitMap_letter c (h c hc)
    rw [hl] at hxc
    unfold isLowerLatin at hll
    rw [List.all_eq_true] at hll
    exact hll x hxc
  refine ⟨hlow, hdata, fun c hc => translitMap_letter c (h c hc), ?_, ?_, ?_⟩
  · intro c hc hin
    unfold isLowerLatin at hlow
    rw [List.all_eq_true] at hlow
    have h1 := hlow c hc
    have h2 := h c hin
    unfold isRussianLetter at h2
    rw [decide_eq_true_eq] at h1 h2
    have h3 := h1.2
    have h4 := h2.1
    rw [Char.le_def] at h3 h4
    have h5 : c.toNat ≤ 122 := h3
    have h6 : 1040 ≤ c.toNat := h4
    omega
  · decide
  · intro firstName hf lastName hl domain
    have hnames : ∀ name ∈ firstNames ++ lastNames,
        isLowerLatin (transliterate name) = true := by decide
    exact ⟨hnames firstName (List.mem_append_left _ hf),
      hnames lastName (List.mem_append_right _ hl), rfl⟩

/-! ## Claims on the aggregator -/

theorem CountMap.get_set (m : CountMap) (k : String) (v : Nat) (k1 : String) :
    (m.set k v).get k1 = if k1 = k then v else m.get k1 := by
  induction m with
  | nil =>
    by_cases h : k1 = k
    · simp [CountMap.set, CountMap.get, List.lookup, h]
    · have hbeq : (k1 == k) = false := by simpa using h
      simp [CountMap.set, CountMap.get, List.lookup, h, hbeq]
  | cons kv rest ih =>
    obtain ⟨k2, v2⟩ := kv
    unfold CountMap.get at ih ⊢
    by_cases h2 : k2 = k
    · subst h2
      by_cases h : k1 = k2
      · simp [CountMap.set, List.lookup, h]
      · have hbeq : (k1 == k2) = false := by simpa using h
        simp [CountMap.set, List.lookup, h, hbeq]
    · by_cases h : k1 = k
      · have h3 : ¬ k = k2 := fun e => h2 e.symm
        simp only [CountMap.set, h2, if_false, List.lookup, h]
        have hbeq : (k == k2) = false := by simpa using h3
        rw [hbeq]
        simpa [h] using ih
      · by_cases h4 : k1 = k2
        · simp [CountMap.set, List.lookup, h2, h, h4]
        · have hbeq : (k1 == k2) = false := by simpa using h4
          simp only [CountMap.set, h2, if_false, List.lookup, hbeq]
          simpa [h] using ih

theorem CountMap.total_eq (m : CountMap) : m.total = (m.map (fun kv => kv.2)).sum := by
  unfold CountMap.total
  have key : ∀ (l : CountMap) (a : Nat),
      l.foldl (fun totalErrors kv => totalErrors + kv.2) a = a + (l.map (fun kv => kv.2)).sum := by
    intro l
    induction l with
    | nil => intro a; simp
    | cons x xs ih =>
      intro a
      rw [List.foldl_cons, ih]
      simp [Nat.add_assoc]
  rw [key m 0, Nat.zero_add]

theorem CountMap.total_set (m : CountMap) (k : String) (v : Nat) :
    (m.set k v).total + m.get k = m.total + v := by
  rw [CountMap.total_eq, CountMap.total_eq]
  induction m with
  | nil => simp [CountMap.set, CountMap.get, List.lookup]
  | cons kv rest ih =>
    obtain ⟨k2, v2⟩ := kv
    by_cases h2 : k2 = k
    · simp [CountMap.set, CountMap.get, List.lookup, h2]
      omega
    · have hbeq : (k == k2) = false := by
        simpa using fun e : k = k2 => h2 e.symm
      unfold CountMap.get at ih ⊢
      simp only [CountMap.set, h2, if_false, List.map_cons, List.sum_cons, List.lookup, hbeq]
      omega

theorem CountMap.set_keys (m : CountMap) (k : String) (v : Nat) :
    (m.set k v).map (fun kv => kv.1) =
      if k ∈ m.map (fun kv => kv.1) then m.map (fun kv => kv.1)
      else m.map (fun kv => kv.1) ++ [k] := by
  induction m with
  | nil => simp [CountMap.set]
  | cons kv rest ih =>
    obtain ⟨k2, v2⟩ := kv
    by_cases h2 : k2 = k
    · simp [CountMap.set, h2]
    · have h3 : ¬ k = k2 := fun e => h2 e.symm
      simp only [CountMap.set, h2, if_false, List.map_cons, ih, List.mem_cons, h3, false_or]
      split <;> simp

theorem CountMap.set_nodup (m : CountMap) (k : String) (v : Nat)
    (h : (m.map (fun kv => kv.1)).Nodup) : ((m.set k v).map (fun kv => kv.1)).Nodup := by
  rw [CountMap.set_keys]
  split
  · exact h
  · rename_i hk
    exact List.Nodup.append h (List.nodup_singleton k) (by simpa using hk)

theorem CountMap.set_of_not_mem (m : CountMap) (k : String) (v : Nat)
    (h : k ∉ m.map (fun kv => kv.1)) : m.set k v = m ++ [(k, v)] := by
  induction m with
  | nil => rfl
  | cons kv rest ih =>
    obtain ⟨k2, v2⟩ := kv
    simp only [List.map_cons, List.mem_cons, not_or] at h
    have h2 : ¬ k2 = k := fun e => h.1 e.symm
    simp [CountMap.set, h2, ih h.2]

theorem copyMap_foldl (acc m : CountMap)
    (h : ((acc ++ m).map (fun kv => kv.1)).Nodup) :
    m.foldl (fun copy kv => copy.set kv.1 kv.2) acc = acc ++ m := by
  induction m generalizing acc with
  | nil => simp
  | cons kv rest ih =>
    have hk : kv.1 ∉ acc.map (fun kv => kv.1) := by
      rw [List.map_append, List.map_cons] at h
      intro hmem
      have := (List.nodup_append.1 h).2.2
      exact this hmem (List.mem_cons_self _ _)
    rw [List.foldl_cons, CountMap.set_of_not_mem acc kv.1 kv.2 hk]
    have h2 : ((acc ++ [(kv.1, kv.2)] ++ rest).map (fun kv => kv.1)).Nodup := by
      simpa using h
    rw [ih _ h2]
    simp

/-- Copying a map with distinct keys gives the same entries. -/
theorem copyMap_eq (m : CountMap) (h : (m.map (fun kv => kv.1)).Nodup) : copyMap m = m := by
  unfold copyMap
  rw [copyMap_foldl [] m (by simpa using h)]
  simp

/-- The counters after a window: distinct keys, per service the messages of
that service added, in total the parsed messages added. -/
theorem countWindow_spec (m : CountMap) (w : List (Option ErrorLog))
    (h : (m.map (fun kv => kv.1)).Nodup) :
    ((countWindow m w).map (fun kv => kv.1)).Nodup ∧
      (∀ s, (countWindow m w).get s = m.get s + serviceCount w s) ∧
      (countWindow m w).total = m.total + parsedCount w ∧
      (parsedCount w = 0 → countWindow m w = m) := by
  induction w generalizing m with
  | nil => simp [countWindow, serviceCount, parsedCount, h]
  | cons o rest ih =>
    cases o with
    | none =>
      have := ih m h
      simpa [countWindow, serviceCount, parsedCount] using this
    | some e =>
      have hn := CountMap.set_nodup m e.Service (m.get e.Service + 1) h
      obtain ⟨h1, h2, h3, -⟩ := ih (m.incr e.Service) hn
      have hstep : countWindow m (some e :: rest) = countWindow (m.incr e.Service) rest := rfl
      rw [hstep]
      refine ⟨h1, fun s => ?_, ?_, fun h0 => ?_⟩
      · rw [h2 s, CountMap.incr, CountMap.get_set]
        by_cases hs : s = e.Service
        · simp [serviceCount, List.countP_cons, hs]
          omega
        · have hs2 : ¬ e.Service = s := fun x => hs x.symm
          simp [serviceCount, List.countP_cons, hs, hs2]
      · rw [h3]
        have ht : (m.incr e.Service).total + m.get e.Service =
            m.total + (m.get e.Service + 1) :=
          CountMap.total_set m e.Service (m.get e.Service + 1)
        have hp : parsedCount (some e :: rest) = parsedCount rest + 1 := by
          simp [parsedCount]
        omega
      · simp [parsedCount] at h0

theorem aggRun_cons (st : AggState) (ev : AggEvent) (rest : List AggEvent) :
    aggRun st (ev :: rest) =
      ((aggRun (aggStep st ev).1 rest).1, (aggStep st ev).2 ++ (aggRun (aggStep st ev).1 rest).2) :=
  rfl

theorem aggRun_messages (st : AggState) (w : List (Option ErrorLog)) (rest : List AggEvent) :
    aggRun st (w.map AggEvent.message ++ rest) =
      aggRun { st with errorCounts := countWindow st.errorCounts w } rest := by
  induction w generalizing st with
  | nil => rfl
  | cons o os ih =>
    rw [List.map_cons, List.cons_append, aggRun_cons]
    cases o with
    | none =>
      show ((aggRun st _).1, [] ++ (aggRun st _).2) = _
      rw [List.nil_append, ih]
      rfl
    | some e =>
      show ((aggRun _ _).1, [] ++ (aggRun _ _).2) = _
      rw [List.nil_append, ih]
      rfl

theorem countWindow_append (m : CountMap) (a b : List (Option ErrorLog)) :
    countWindow m (a ++ b) = countWindow (countWindow m a) b := by
  unfold countWindow
  rw [List.foldl_append]

/-- The counters are non-empty exactly when a message of the window parsed. -/
theorem countWindow_length (w : List (Option ErrorLog)) :
    (countWindow [] w).length > 0 ↔ 0 < parsedCount w := by
  obtain ⟨-, -, h3, h4⟩ := countWindow_spec [] w (by simp)
  have htot : (countWindow [] w).total = parsedCount w := by
    rw [h3]
    simp [CountMap.total]
  constructor
  · intro hlen
    by_contra hp
    have h0 : parsedCount w = 0 := by omega
    rw [h4 h0] at hlen
    simp at hlen
  · intro hpos
    cases hc : countWindow [] w with
    | nil =>
      rw [hc] at htot
      simp [CountMap.total] at htot
      omega
    | cons x xs => simp

theorem aggRun_append (s0 : AggState) (a b : List AggEvent) :
    aggRun s0 (a ++ b) =
      ((aggRun (aggRun s0 a).1 b).1, (aggRun s0 a).2 ++ (aggRun (aggRun s0 a).1 b).2) := by
  induction a generalizing s0 with
  | nil => simp [aggRun]
  | cons ev evs ih =>
    rw [List.cons_append, aggRun_cons, aggRun_cons, ih]
    simp only [List.append_assoc]

/-- One iteration of the main loop keeps the counters equal to the counts of
the open window. -/
theorem aggStep_counts (st : AggState) (w0 : List (Option ErrorLog))
    (hst : st.errorCounts = countWindow [] w0) (ev : AggEvent) :
    (aggStep st ev).1.errorCounts = countWindow [] (windowStep w0 ev) := by
  cases ev with
  | message o =>
    cases o with
    | none =>
      show st.errorCounts = countWindow [] (w0 ++ [none])
      rw [countWindow_append, hst]
      rfl
    | some e =>
      show st.errorCounts.incr e.Service = countWindow [] (w0 ++ [some e])
      rw [countWindow_append, hst]
      rfl
  | tick now generatedAt marshalErr writeErr =>
    have hlen := countWindow_length w0
    rw [← hst] at hlen
    unfold aggStep windowStep
    by_cases hp : 0 < parsedCount w0
    · have hl : st.errorCounts.length > 0 := hlen.2 hp
      cases marshalErr with
      | true => simp [hl, hst]
      | false => simp [hl, hp, countWindow]
    · have hl : ¬ st.errorCounts.length > 0 := fun h => hp (hlen.1 h)
      simp only [hl, if_false, hp, false_and]
      exact hst

/-- The counters are, at every point of the main loop, the counts of the open
window. -/
theorem aggRun_counts (evs : List AggEvent) (st : AggState) (w0 : List (Option ErrorLog))
    (hst : st.errorCounts = countWindow [] w0) :
    (aggRun st evs).1.errorCounts = countWindow [] (evs.foldl windowStep w0) := by
  induction evs generalizing st w0 with
  | nil => exact hst
  | cons ev rest ih =>
    rw [aggRun_cons, List.foldl_cons]
    exact ih (aggStep st ev).1 (windowStep w0 ev) (aggStep_counts st w0 hst ev)

/-- C26, as stated, fails. After a first emission the aggregator receives two
messages of the service `auth`, a tick at which the write to the output topic
fails, a message of the service `db` and a tick at which nothing fails. Between
the two emissions three messages were received and parsed, two of them of the
service `auth`, yet the second emission has `total_errors = 1` and no count for
`auth`: the failed write has reset the counters. -/
theorem failed_write_drops_window :
    (aggRun ⟨[], 0⟩
        [.message (some ⟨"t0", "web", "e0", "p0"⟩), .tick 60 61 false false,
          .message (some ⟨"t1", "auth", "e1", "p1"⟩), .message (some ⟨"t2", "auth", "e2", "p2"⟩),
          .tick 120 121 false true,
          .message (some ⟨"t3", "db", "e3", "p3"⟩), .tick 180 181 false false]).2 =
      [⟨0, 60, [("web", 1)], 1, 61⟩, ⟨120, 180, [("db", 1)], 1, 181⟩] ∧
      parsedCount [some ⟨"t1", "auth", "e1", "p1"⟩, some ⟨"t2", "auth", "e2", "p2"⟩,
        some ⟨"t3", "db", "e3", "p3"⟩] = 3 ∧
      serviceCount [some ⟨"t1", "auth", "e1", "p1"⟩, some ⟨"t2", "auth", "e2", "p2"⟩,
        some ⟨"t3", "db", "e3", "p3"⟩] "auth" = 2 ∧
      CountMap.get [("db", 1)] "auth" = 0 := by
  decide

/-- C26, amended. Window aggregation counts, the window being the messages
received since the counters were last reset (`sinceReset`), from empty counters
at the start. After any sequence `evs` of messages and ticks, whatever failed
at those ticks, the counters hold for every service `s` the number of parsed
messages of the open window whose service is `s`. At the next tick:
if a message of the window parsed and serialising and writing succeed, exactly
one `ErrorStats` is written, in which `services[s]` is that number for every
`s` and `total_errors` is the number of parsed messages of the window, which is
the sum of the service counts; in every other case nothing is written. The
counters are reset, and the next window starts empty, exactly when a message
of the window parsed and serialising succeeds, whether or not the write
succeeds; otherwise counters and window stay as they were. So a message is
counted in at most one emission, and in none when the write of its window
fails. -/
theorem aggregator_window_counts (st : AggState) (hst : st.errorCounts = [])
    (evs : List AggEvent) (now generatedAt : Time) (marshalErr writeErr : Bool) :
    (∀ s, (aggRun st evs).1.errorCounts.get s = serviceCount (sinceReset evs) s) ∧
      (aggRun st evs).1.errorCounts.total = parsedCount (sinceReset evs) ∧
      ((0 < parsedCount (sinceReset evs) ∧ marshalErr = false ∧ writeErr = false) →
        ∃ stats,
          (aggRun st (evs ++ [.tick now generatedAt marshalErr writeErr])).2 =
            (aggRun st evs).2 ++ [stats] ∧
          (∀ s, stats.Services.get s = serviceCount (sinceReset evs) s) ∧
          stats.TotalErrors = parsedCount (sinceReset evs) ∧
          stats.TotalErrors = stats.Services.total) ∧
      (¬ (0 < parsedCount (sinceReset evs) ∧ marshalErr = false ∧ writeErr = false) →
        (aggRun st (evs ++ [.tick now generatedAt marshalErr writeErr])).2 =
          (aggRun st evs).2) ∧
      ((0 < parsedCount (sinceReset evs) ∧ marshalErr = false) →
        (aggRun st (evs ++ [.tick now generatedAt marshalErr writeErr])).1.errorCounts = [] ∧
          sinceReset (evs ++ [.tick now generatedAt marshalErr writeErr]) = []) ∧
      (¬ (0 < parsedCount (sinceReset evs) ∧ marshalErr = false) →
        (aggRun st (evs ++ [.tick now generatedAt marshalErr writeErr])).1.errorCounts =
            (aggRun st evs).1.errorCounts ∧
          sinceReset (evs ++ [.tick now generatedAt marshalErr writeErr]) = sinceReset evs) ∧
      (∀ o, sinceReset (evs ++ [.message o]) = sinceReset evs ++ [o]) := by
  have hinv : (aggRun st evs).1.errorCounts = countWindow [] (sinceReset evs) :=
    aggRun_counts evs st [] (by rw [hst]; rfl)
  obtain ⟨hnd, hget, htot, -⟩ := countWindow_spec [] (sinceReset evs) (by simp)
  have hget0 : ∀ s, (countWindow [] (sinceReset evs)).get s = serviceCount (sinceReset evs) s := by
    intro s
    rw [hget s]
    simp [CountMap.get, List.lookup]
  have htot0 : (countWindow [] (sinceReset evs)).total = parsedCount (sinceReset evs) := by
    rw [htot]
    simp [CountMap.total]
  have hlen := countWindow_length (sinceReset evs)
  have hsnoc : ∀ ev, sinceReset (evs ++ [ev]) = windowStep (sinceReset evs) ev := by
    intro ev
    unfold sinceReset
    rw [List.foldl_append]
    rfl
  have hrun : ∀ ev, aggRun st (evs ++ [ev]) =
      ((aggStep (aggRun st evs).1 ev).1, (aggRun st evs).2 ++ (aggStep (aggRun st evs).1 ev).2) := by
    intro ev
    rw [aggRun_append]
    simp [aggRun]
  refine ⟨fun s => by rw [hinv, hget0 s], by rw [hinv, htot0], ?_, ?_, ?_, ?_, ?_⟩
  · rintro ⟨hp, hm, hw⟩
    subst hm hw
    have hl : (aggRun st evs).1.errorCounts.length > 0 := by
      rw [hinv]
      exact hlen.2 hp
    refine ⟨⟨(aggRun st evs).1.windowStart, now, countWindow [] (sinceReset evs),
      parsedCount (sinceReset evs), generatedAt⟩, ?_, hget0, rfl, htot0.symm⟩
    rw [hrun]
    simp only [aggStep, hl, if_true]
    rw [hinv, copyMap_eq _ hnd, htot0]
    rfl
  · intro hno
    rw [hrun]
    by_cases hp : 0 < parsedCount (sinceReset evs)
    · have hl : (aggRun st evs).1.errorCounts.length > 0 := by
        rw [hinv]
        exact hlen.2 hp
      cases marshalErr with
      | true => simp [aggStep, hl]
      | false =>
        cases writeErr with
        | true => simp [aggStep, hl]
        | false => exact absurd ⟨hp, rfl, rfl⟩ hno
    · have hl : ¬ (aggRun st evs).1.errorCounts.length > 0 := by
        rw [hinv]
        exact fun h => hp (hlen.1 h)
      simp [aggStep, hl]
  · rintro ⟨hp, hm⟩
    subst hm
    have hl : (aggRun st evs).1.errorCounts.length > 0 := by
      rw [hinv]
      exact hlen.2 hp
    constructor
    · rw [hrun]
      simp [aggStep, hl]
    · rw [hsnoc]
      simp [windowStep, hp]
  · intro hno
    constructor
    · rw [hrun]
      by_cases hp : 0 < parsedCount (sinceReset evs)
      · have hl : (aggRun st evs).1.errorCounts.length > 0 := by
          rw [hinv]
          exact hlen.2 hp
        cases marshalErr with
        | true => simp [aggStep, hl]
        | false => exact absurd ⟨hp, rfl⟩ hno
      · have hl : ¬ (aggRun st evs).1.errorCounts.length > 0 := by
          rw [hinv]
          exact fun h => hp (hlen.1 h)
        simp [aggStep, hl]
    · rw [hsnoc]
      show (if 0 < parsedCount (sinceReset evs) ∧ marshalErr = false then [] else sinceReset evs) =
        sinceReset evs
      rw [if_neg hno]
  · intro o
    rw [hsnoc]
    rfl

/-! ## Claims on the stats consumer -/

theorem getElem?_mid {α : Type} (pre : List α) (x : α) (post : List α) :
    (pre ++ x :: post)[pre.length]? = some x := by
  induction pre with
  | nil => simp
  | cons a pre ih => simpa using ih

theorem set_mid {α : Type} (pre : List α) (x y : α) (post : List α) :
    (pre ++ x :: post).set pre.length y = pre ++ y :: post := by
  induction pre with
  | nil => rfl
  | cons a pre ih => simp [ih]

theorem compareSwap_mid (pre done ts : List ServiceError) (cur t : ServiceError) :
    compareSwap (pre ++ cur :: (done ++ t :: ts)) pre.length (pre.length + 1 + done.length) =
      if t.count > cur.count then pre ++ t :: (done ++ cur :: ts)
      else pre ++ cur :: (done ++ t :: ts) := by
  have hi : (pre ++ cur :: (done ++ t :: ts))[pre.length]? = some cur := getElem?_mid _ _ _
  have hlen : (pre ++ cur :: done).length = pre.length + 1 + done.length := by
    simp only [List.length_append, List.length_cons]
    omega
  have hre : pre ++ cur :: (done ++ t :: ts) = (pre ++ cur :: done) ++ t :: ts := by simp
  have hj : (pre ++ cur :: (done ++ t :: ts))[pre.length + 1 + done.length]? = some t := by
    rw [hre, ← hlen]
    exact getElem?_mid _ _ _
  unfold compareSwap
  rw [hi, hj]
  simp only
  split
  · rw [set_mid]
    have hre2 : pre ++ t :: (done ++ t :: ts) = (pre ++ t :: done) ++ t :: ts := by simp
    have hlen2 : (pre ++ t :: done).length = pre.length + 1 + done.length := by
      simp only [List.length_append, List.length_cons]
      omega
    rw [hre2, ← hlen2, set_mid]
    simp
  · rfl

/-- The inner loop, run from position `j = i + 1 + |done|` on, is the exchange
pass on the entries not yet visited. -/
theorem innerLoop_fold (pre done : List ServiceError) (cur : ServiceError)
    (todo : List ServiceError) :
    (List.range' (pre.length + 1 + done.length) todo.length).foldl
        (fun acc j => compareSwap acc pre.length j) (pre ++ cur :: (done ++ todo)) =
      pre ++ (exchangePass cur todo).1 :: (done ++ (exchangePass cur todo).2) := by
  induction todo generalizing cur done with
  | nil => simp [exchangePass]
  | cons t ts ih =>
    rw [List.length_cons, List.range'_succ, List.foldl_cons, compareSwap_mid]
    by_cases hgt : t.count > cur.count
    · rw [if_pos hgt]
      have := ih (done ++ [cur]) t
      simp only [List.length_append, List.length_singleton, List.append_assoc,
        List.singleton_append] at this
      have hidx : pre.length + 1 + done.length + 1 = pre.length + 1 + (done.length + 1) := by
        omega
      rw [hidx, this]
      simp [exchangePass, hgt]
    · rw [if_neg hgt]
      have := ih (done ++ [t]) cur
      simp only [List.length_append, List.length_singleton, List.append_assoc,
        List.singleton_append] at this
      have hidx : pre.length + 1 + done.length + 1 = pre.length + 1 + (done.length + 1) := by
        omega
      rw [hidx, this]
      simp [exchangePass, hgt]

theorem innerLoop_eq (pre : List ServiceError) (cur : ServiceError) (rest : List ServiceError) :
    innerLoop (pre ++ cur :: rest) pre.length =
      pre ++ (exchangePass cur rest).1 :: (exchangePass cur rest).2 := by
  unfold innerLoop
  have hlen : (pre ++ cur :: rest).length - (pre.length + 1) = rest.length := by
    simp
    omega
  rw [hlen]
  have := innerLoop_fold pre [] cur rest
  simpa using this

theorem exchangePass_spec (si : ServiceError) (rest : List ServiceError) :
    ((exchangePass si rest).1 :: (exchangePass si rest).2).Perm (si :: rest) ∧
      (∀ y ∈ (exchangePass si rest).2, y.count ≤ (exchangePass si rest).1.count) ∧
      si.count ≤ (exchangePass si rest).1.count ∧
      (exchangePass si rest).2.length = rest.length := by
  induction rest generalizing si with
  | nil => simp [exchangePass]
  | cons sj rest ih =>
    by_cases hgt : sj.count > si.count
    · obtain ⟨h1, h2, h3, h4⟩ := ih sj
      simp only [exchangePass, hgt, if_true]
      refine ⟨?_, ?_, by omega, by simp [h4]⟩
      · exact (List.Perm.swap _ _ _).trans (List.Perm.cons si h1)
      · intro y hy
        rcases List.mem_cons.1 hy with rfl | hy
        · omega
        · exact h2 y hy
    · obtain ⟨h1, h2, h3, h4⟩ := ih si
      simp only [exchangePass, hgt, if_false]
      refine ⟨?_, ?_, h3, by simp [h4]⟩
      · exact ((List.Perm.swap _ _ _).trans (List.Perm.cons sj h1)).trans (List.Perm.swap _ _ _)
      · intro y hy
        rcases List.mem_cons.1 hy with rfl | hy
        · omega
        · exact h2 y hy

/-- The outer loop from position `|pre|` on: when the entries before that
position are in non-increasing order and none of them is smaller than a later
entry, the loop leaves a rearrangement in non-increasing order. -/
theorem outerLoop_fold (k : Nat) (suf pre : List ServiceError)
    (hpre : pre.Pairwise (fun a b => b.count ≤ a.count))
    (hle : ∀ a ∈ pre, ∀ b ∈ suf, b.count ≤ a.count) (hn : suf.length = k) :
    ((List.range' pre.length suf.length).foldl innerLoop (pre ++ suf)).Perm (pre ++ suf) ∧
      ((List.range' pre.length suf.length).foldl innerLoop (pre ++ suf)).Pairwise
        (fun a b => b.count ≤ a.count) := by
  induction k generalizing suf pre with
  | zero =>
    have : suf = [] := List.length_eq_zero.1 hn
    subst this
    simpa using hpre
  | succ k ih =>
    cases suf with
    | nil => simp at hn
    | cons x rest =>
      have hk : rest.length = k := by simpa using hn
      obtain ⟨h1, h2, h3, h4⟩ := exchangePass_spec x rest
      rw [List.length_cons, List.range'_succ, List.foldl_cons, innerLoop_eq]
      have hre : pre ++ (exchangePass x rest).1 :: (exchangePass x rest).2 =
          (pre ++ [(exchangePass x rest).1]) ++ (exchangePass x rest).2 := by simp
      have hlen : (pre ++ [(exchangePass x rest).1]).length = pre.length + 1 := by simp
      have hmem : ∀ y, y ∈ (exchangePass x rest).1 :: (exchangePass x rest).2 →
          y ∈ x :: rest := fun y hy => h1.subset hy
      have hpre2 : (pre ++ [(exchangePass x rest).1]).Pairwise
          (fun a b => b.count ≤ a.count) := by
        rw [List.pairwise_append]
        refine ⟨hpre, List.pairwise_singleton _ _, fun a ha b hb => ?_⟩
        rw [List.mem_singleton] at hb
        subst hb
        exact hle a ha _ (hmem _ (List.mem_cons_self _ _))
      have hle2 : ∀ a ∈ pre ++ [(exchangePass x rest).1], ∀ b ∈ (exchangePass x rest).2,
          b.count ≤ a.count := by
        intro a ha b hb
        rcases List.mem_append.1 ha with ha | ha
        · exact hle a ha b (hmem b (List.mem_cons_of_mem _ hb))
        · rw [List.mem_singleton] at ha
          subst ha
          exact h2 b hb
      have := ih (exchangePass x rest).2 (pre ++ [(exchangePass x rest).1]) hpre2 hle2
        (by rw [h4, hk])
      rw [hlen, h4] at this
      rw [hre]
      refine ⟨this.1.trans ?_, this.2⟩
      rw [← hre]
      exact List.Perm.append_left pre h1

/-- C25. Descending sort of the error statistics. For every list of
`(service, count)` entries, the nested loops of `displayStats` leave a
rearrangement of the list in which no entry has a larger count than an entry
before it; so the entry shown first has the maximum count. -/
theorem sortDescending_spec (sorted : List ServiceError) :
    (sortDescending sorted).Perm sorted ∧
      (sortDescending sorted).Pairwise (fun a b => b.count ≤ a.count) ∧
      (∀ first, (sortDescending sorted).head? = some first →
        ∀ y ∈ sorted, y.count ≤ first.count) := by
  have h := outerLoop_fold sorted.length sorted [] List.Pairwise.nil (by simp) rfl
  simp only [List.length_nil, List.nil_append] at h
  refine ⟨h.1, h.2, fun first hf y hy => ?_⟩
  have hy2 : y ∈ sortDescending sorted := h.1.symm.subset hy
  cases hs : sortDescending sorted with
  | nil =>
    rw [hs] at hy2
    simp at hy2
  | cons a l =>
    have hp : (a :: l).Pairwise (fun a b => b.count ≤ a.count) := by
      rw [← hs]
      exact h.2
    rw [hs] at hf hy2
    simp only [List.head?_cons, Option.some.injEq] at hf
    subst hf
    rcases List.mem_cons.1 hy2 with rfl | hy3
    · exact Int.le_refl _
    · exact (List.pairwise_cons.1 hp).1 y hy3

/-! ## The duplicate exit -/

/-- Once the predicate holds for the event of a message, every iteration of the
loop of `processMessageBatch` on that message whose idempotency query is
answered takes the duplicate exit, issues the query alone and calls `Ack`. -/
theorem processLoop_duplicate {σ : Type} (F : ApplyFns σ) (env : Nat → Env)
    (m : Msg) (rm : ReplicationMessage) (hm : m.decoded = some rm)
    (henv : ∀ j, (env j).checkErr = false) (i : Nat) (db : TargetDB σ) (msgs : List Msg)
    (hdb : is_event_processed db rm.EventID = true) :
    ∀ h ∈ (processLoop F env i db msgs).2, h.msg = m →
      h.decision = AckDecision.Ack ∧ h.result.ok = true ∧ h.result.exit = .duplicate ∧
        h.result.steps = [Step.isEventProcessed .db rm.EventID] := by
  induction msgs generalizing i db with
  | nil => simp [processLoop]
  | cons x xs ih =>
    intro h hh hmsg
    simp only [processLoop, List.mem_cons] at hh
    rcases hh with rfl | hh
    · simp only at hmsg
      subst hmsg
      have hq : isEventProcessed (env i) db rm.EventID = some true := by
        unfold isEventProcessed
        rw [henv i, hdb]
        rfl
      simp [processMessage_duplicate F (env i) db x rm hm hq]
    · exact ih (i + 1) _ (is_event_processed_mono F (env i) db x rm.EventID hdb) h hh hmsg

/-- C6. Duplicate absorbed silently: for every target state `s` and message
`m` that parses, with the aggregate type `user` or `payment` of the events the
processor commits, such that the idempotency query answers true,
`processMessage` returns true, leaves the committed state equal to `s` and
issues that query alone (no insert, no apply call, no mark, no transaction);
`processMessageBatch` on the batch made of `m` calls `Ack` on it; and in any
batch that holds `m`, with every idempotency query answered, an iteration on
`m` is run and every iteration on `m` takes the duplicate exit and calls `Ack`.
Moreover every iteration of any batch that takes the duplicate exit calls
`Ack`, and only messages of type `user` or `payment` are ever committed. -/
theorem processMessage_duplicate_absorbed {σ : Type} (F : ApplyFns σ) (env : Nat → Env)
    (s : TargetDB σ) (m : Msg) (rm : ReplicationMessage) (hm : m.decoded = some rm)
    (hty : rm.AggregateType = "user" ∨ rm.AggregateType = "payment")
    (hdup : isEventProcessed (env 0) s rm.EventID = some true) :
    processMessage F (env 0) s m =
        ⟨true, s, .duplicate, [Step.isEventProcessed .db rm.EventID]⟩ ∧
      processMessageBatch F env s [m] =
        (s, [⟨m, ⟨true, s, .duplicate, [Step.isEventProcessed .db rm.EventID]⟩,
          AckDecision.Ack⟩]) ∧
      (∀ (pre post : List Msg), (∀ j, (env j).checkErr = false) →
        (∃ h ∈ (processMessageBatch F env s (pre ++ m :: post)).2, h.msg = m) ∧
        ∀ h ∈ (processMessageBatch F env s (pre ++ m :: post)).2, h.msg = m →
          h.decision = AckDecision.Ack ∧ h.result.ok = true ∧ h.result.exit = .duplicate ∧
            h.result.steps = [Step.isEventProcessed .db rm.EventID]) ∧
      (∀ (db : TargetDB σ) (messages : List Msg),
        ∀ h ∈ (processMessageBatch F env db messages).2,
          h.result.exit = .duplicate → h.decision = AckDecision.Ack) ∧
      (∀ (e : Env) (db : TargetDB σ) (x : Msg), (processMessage F e db x).exit = .done →
        ∃ rx, x.decoded = some rx ∧
          (rx.AggregateType = "user" ∨ rx.AggregateType = "payment")) := by
  have hpm := processMessage_duplicate F (env 0) s m rm hm hdup
  have hsorted : m.isUser = true ∨ m.isPayment = true := by
    rcases hty with hu | hp
    · exact Or.inl (by simp [Msg.isUser, hm, hu])
    · exact Or.inr (by simp [Msg.isPayment, hm, hp])
  have hs : is_event_processed s rm.EventID = true := by
    unfold isEventProcessed at hdup
    split at hdup
    · cases hdup
    · exact Option.some.inj hdup
  refine ⟨hpm, ?_, ?_, ?_, ?_⟩
  · have hall : allMessages [m] = [m] := by
      rw [allMessages_eq]
      unfold stableReorder
      rcases hty with hu | hp
      · have h1 : m.isUser = true := by simp [Msg.isUser, hm, hu]
        have h2 : m.isPayment = false := by
          simp [Msg.isPayment, hm, hu]
        simp [List.filter_cons, h1, h2]
      · have h1 : m.isUser = false := by
          simp [Msg.isUser, hm, hp]
        have h2 : m.isPayment = true := by simp [Msg.isPayment, hm, hp]
        simp [List.filter_cons, h1, h2]
    unfold processMessageBatch
    rw [hall]
    simp only [processLoop, hpm]
    rfl
  · intro pre post henv
    constructor
    · have hmem : m ∈ (processMessageBatch F env s (pre ++ m :: post)).2.map (fun h => h.msg) := by
        rw [processMessageBatch_msgs]
        unfold stableReorder
        rw [List.mem_append, List.mem_filter, List.mem_filter]
        rcases hsorted with hu | hp
        · exact Or.inl ⟨by simp, hu⟩
        · exact Or.inr ⟨by simp, hp⟩
      obtain ⟨h, hh, hmsg⟩ := List.mem_map.1 hmem
      exact ⟨h, hh, hmsg⟩
    · exact processLoop_duplicate F env m rm hm henv 0 s _ hs
  · intro db messages h hh hex
    obtain ⟨⟨j, db1, hres⟩, hdec⟩ := processLoop_entry F env 0 db (allMessages messages) h hh
    have hok : h.result.ok = true := by
      rw [hres] at hex ⊢
      rcases processMessage_cases F (env j) db1 h.msg with ⟨-, -, hiff⟩ | ⟨_, -, hdone, -⟩
      · exact hiff.2 hex
      · rw [hdone] at hex
        cases hex
    rw [hdec, hok]
    rfl
  · intro e db x hx
    rcases processMessage_cases F e db x with ⟨-, hne, -⟩ | ⟨rx, hrx, -, -, -, htyx, -⟩
    · exact absurd hx hne
    · exact ⟨rx, hrx, htyx⟩

/-! ## Instances of the statements on the sample data -/

/-- A user message processed on the empty database and delivered twice more:
both further calls return true. -/
theorem processMessage_redelivery_idempotent_witness :
    (processMessage sampleApply calmEnv ⟨[], []⟩ userMsg).ok = true ∧
      (deliver sampleApply userMsg [calmEnv, calmEnv]
        (processMessage sampleApply calmEnv ⟨[], []⟩ userMsg).db).length = 2 ∧
      (∀ r ∈ deliver sampleApply userMsg [calmEnv, calmEnv]
        (processMessage sampleApply calmEnv ⟨[], []⟩ userMsg).db, r.ok = true) :=
  ⟨by decide,
    (processMessage_redelivery_idempotent sampleApply calmEnv ⟨[], []⟩ userMsg
      ⟨11, 21, "user", "created", "u1", 1, 2⟩ [calmEnv, calmEnv] rfl (Or.inl rfl)
      (by decide)).1,
    (processMessage_redelivery_idempotent sampleApply calmEnv ⟨[], []⟩ userMsg
      ⟨11, 21, "user", "created", "u1", 1, 2⟩ [calmEnv, calmEnv] rfl (Or.inl rfl)
      (by decide)).2.2 (by decide)⟩

/-- A user message whose apply query fails after the inbox insert: the call
returns false and the database is the one before. -/
theorem processMessage_failure_atomic_witness :
    (processMessage sampleApply applyFailEnv dbWithOrder userMsg).exit = Exit.applyError ∧
      (processMessage sampleApply applyFailEnv dbWithOrder userMsg).ok = false ∧
      (processMessage sampleApply applyFailEnv dbWithOrder userMsg).db = dbWithOrder :=
  ⟨by decide,
    (processMessage_failure_atomic sampleApply applyFailEnv dbWithOrder userMsg (by decide)).1,
    (processMessage_failure_atomic sampleApply applyFailEnv dbWithOrder userMsg (by decide)).2.1⟩

/-- The rows C, A, B with limit 2 and nothing failing: the loop goes through
the selected rows. -/
theorem processOutboxBatch_oldest_first_witness :
    steadyPoll.queryErr = false ∧
      (processOutboxBatch steadyPoll [rowC, rowA, rowB] 2).attempts.map Attempt.event =
        (selectUnprocessed [rowC, rowA, rowB] (2 : Int).toNat).map OutboxRow.toEvent :=
  ⟨rfl, (processOutboxBatch_oldest_first steadyPoll [rowC, rowA, rowB] 2 rfl
    (fun _ => rfl) rfl).1⟩

/-- The rows C, A, B with limit 2 and a failing publish of A. -/
theorem processOutboxBatch_marked_iff_published_witness :
    ([rowC, rowA, rowB].map (fun r => r.id)).Nodup ∧
      List.Forall₂
        (fun r r1 => r1.id = r.id ∧
          (r1.processed = true ↔ r.processed = true ∨
            ∃ a ∈ (processOutboxBatch flakyPoll [rowC, rowA, rowB] 2).attempts,
              a.isPublished = true ∧ a.event = r.toEvent))
        [rowC, rowA, rowB] (processOutboxBatch flakyPoll [rowC, rowA, rowB] 2).table :=
  ⟨by decide,
    processOutboxBatch_marked_iff_published flakyPoll [rowC, rowA, rowB] 2 (by decide)
      (fun _ => rfl)⟩

/-- The rows C, A, B with limit 2 and a failing publish of A: A is not in the
to-mark list and the next poll selects it again. -/
theorem processOutboxBatch_publish_failure_contained_witness :
    getUnprocessedEvents flakyPoll [rowC, rowA, rowB] 2 = some [rowA.toEvent, rowB.toEvent] ∧
      rowA.toEvent.ID ∉ (processOutboxBatch flakyPoll [rowC, rowA, rowB] 2).processedIDs ∧
      rowA.toEvent ∈
        (selectUnprocessed (processOutboxBatch flakyPoll [rowC, rowA, rowB] 2).table
          (2 : Int).toNat).map OutboxRow.toEvent :=
  ⟨by decide,
    (processOutboxBatch_publish_failure_contained flakyPoll [rowC, rowA, rowB] 2
      [rowA.toEvent, rowB.toEvent] 0 (by decide) (by decide) (by decide)
      (Or.inr (by decide))).2.2.2.1,
    (processOutboxBatch_publish_failure_contained flakyPoll [rowC, rowA, rowB] 2
      [rowA.toEvent, rowB.toEvent] 0 (by decide) (by decide) (by decide)
      (Or.inr (by decide))).2.2.2.2.2⟩

/-- The id of row A marked twice in the table of A and B. -/
theorem markEventsProcessed_no_double_mark_witness :
    updateOutboxProcessed 9 1 (updateOutboxProcessed 5 1 [rowA, rowB]) =
        updateOutboxProcessed 5 1 [rowA, rowB] ∧
      (markEventsProcessed steadyPoll [rowA, rowB] [1, 1]).1 =
        (markEventsProcessed steadyPoll [rowA, rowB] [1]).1 :=
  ⟨(markEventsProcessed_no_double_mark 5 9 1 [rowA, rowB]).1,
    (markEventsProcessed_no_double_mark 5 9 1 [rowA, rowB]).2.2.2 steadyPoll rfl rfl⟩

/-- A poison message between a payment and a user message changes nothing. -/
theorem processMessageBatch_poison_isolation_witness :
    poisonMsg.decoded = none ∧
      processMessageBatch sampleApply (fun _ => calmEnv) ⟨[], []⟩
          ([paymentMsg] ++ poisonMsg :: [userMsg]) =
        processMessageBatch sampleApply (fun _ => calmEnv) ⟨[], []⟩
          ([paymentMsg] ++ [userMsg]) :=
  ⟨rfl,
    (processMessageBatch_poison_isolation sampleApply (fun _ => calmEnv) ⟨[], []⟩
      [paymentMsg] [userMsg] poisonMsg rfl).1⟩

/-- Three ids to mark and a failing second update: an error is returned. -/
theorem markEventsProcessed_failure_keeps_earlier_witness :
    secondMarkFailPoll.markErr 1 = true ∧
      (markEventsProcessed secondMarkFailPoll [rowA, rowB, rowC] [1, 2, 3]).2 = true :=
  ⟨rfl,
    (markEventsProcessed_failure_keeps_earlier secondMarkFailPoll [rowA, rowB, rowC] [1, 2, 3] 1
      (by decide) rfl
      (fun j hj => by
        have h0 : j = 0 := by omega
        subst h0
        rfl)).1⟩

/-- A batch that holds the same user message twice, on the empty database:
the invariant holds afterwards and the apply function is committed once. -/
theorem inbox_exactly_once_effect_witness :
    AtMostOnce (processMessageBatch sampleApply countingEnv ⟨[], []⟩
        [userMsg, paymentMsg, userMsg]).1 ∧
      commitCount (processMessageBatch sampleApply countingEnv ⟨[], []⟩
        [userMsg, paymentMsg, userMsg]).2 11 = 1 :=
  ⟨(inbox_exactly_once_effect sampleApply countingEnv ⟨[], []⟩ [userMsg, paymentMsg, userMsg]
      (fun _ => Nat.zero_le 1) (fun _ r hr => by simp at hr)
      (fun i j h => by
        have h2 : 100 + i = 100 + j := h
        omega)).2.2.1,
    by decide⟩

/-- A user message processed on the empty database adds its row. -/
theorem processMessage_inbox_row_witness :
    (processMessage sampleApply calmEnv ⟨[], []⟩ userMsg).ok = true ∧
      (processMessage sampleApply calmEnv ⟨[], []⟩ userMsg).db.inbox =
        updateInboxProcessed calmEnv.sqlNow calmEnv.newID [] ++
          [committedRow calmEnv ⟨11, 21, "user", "created", "u1", 1, 2⟩] :=
  ⟨by decide,
    (processMessage_inbox_row sampleApply calmEnv ⟨[], []⟩ userMsg
      ⟨11, 21, "user", "created", "u1", 1, 2⟩ rfl (Or.inl rfl) (by decide) (by decide)).1⟩

/-- A payment message for which the sample apply function returns false is
committed all the same. -/
theorem processMessage_apply_result_ignored_witness :
    applyFor sampleApply ⟨12, 22, "payment", "created", "p1", 1, 2⟩ dbPaid.agg =
        some (false, ["p1", "p1"]) ∧
      (processMessage sampleApply calmEnv dbPaid paymentMsg).ok = true :=
  ⟨by decide,
    (processMessage_apply_result_ignored sampleApply calmEnv dbPaid paymentMsg
      ⟨12, 22, "payment", "created", "p1", 1, 2⟩ false ["p1", "p1"] rfl (Or.inr rfl)
      (by decide) ⟨rfl, rfl, rfl, rfl, rfl, rfl⟩ (by decide)).2.1⟩

/-- Event 11 is processed before a payment message is handled and after it. -/
theorem processMessage_processed_terminal_witness :
    is_event_processed dbWithUser 11 = true ∧
      is_event_processed (processMessage sampleApply calmEnv dbWithUser paymentMsg).db 11 = true :=
  ⟨by decide,
    (processMessage_processed_terminal sampleApply calmEnv dbWithUser paymentMsg 11
      (by decide)).1⟩

/-- A failing query on the table of A and B: nothing is published or marked. -/
theorem processOutboxBatch_read_failure_witness :
    downPoll.queryErr = true ∧
      processOutboxBatch downPoll [rowA, rowB] 2 = ⟨[rowA, rowB], true, [], [], false⟩ :=
  ⟨rfl, (processOutboxBatch_read_failure downPoll [rowA, rowB] 2 (Or.inl rfl)).1⟩

/-- A user message on the empty database: the query first, then the
transaction, which is the committed trace. -/
theorem processMessage_check_before_transaction_witness :
    userMsg.decoded = some ⟨11, 21, "user", "created", "u1", 1, 2⟩ ∧
      ∃ tail, (processMessage sampleApply calmEnv ⟨[], []⟩ userMsg).steps =
          Step.isEventProcessed .db 11 :: tail ∧
        (tail = [] ∨ tail.head? = some Step.begin) ∧
        (∀ s ∈ tail, s.inTransaction = true) ∧
        (Step.begin ∈ tail ↔ isEventProcessed calmEnv (⟨[], []⟩ : TargetDB (List String)) 11 =
          some false) :=
  ⟨rfl,
    (processMessage_check_before_transaction sampleApply calmEnv ⟨[], []⟩ userMsg
      ⟨11, 21, "user", "created", "u1", 1, 2⟩ rfl).imp
      (fun _ h => ⟨h.1, h.2.1, h.2.2.1, h.2.2.2.1⟩)⟩

/-- An order message between a user and a payment message is skipped. -/
theorem processMessageBatch_skips_unknown_aggregate_witness :
    orderMsg.decoded = some ⟨14, 24, "order", "created", "o1", 1, 2⟩ ∧
      processMessageBatch sampleApply (fun _ => calmEnv) ⟨[], []⟩
          ([userMsg] ++ orderMsg :: [paymentMsg]) =
        processMessageBatch sampleApply (fun _ => calmEnv) ⟨[], []⟩
          ([userMsg] ++ [paymentMsg]) :=
  ⟨rfl,
    (processMessageBatch_skips_unknown_aggregate sampleApply (fun _ => calmEnv) ⟨[], []⟩
      [userMsg] [paymentMsg] orderMsg ⟨14, 24, "order", "created", "o1", 1, 2⟩ rfl
      (by decide) (by decide)).2.1⟩

/-- The sample window from empty counters, closed by a tick at which nothing
fails: the statistics written count two `auth`, one `db`, three in total. -/
theorem aggregator_window_counts_witness :
    (∀ s, (aggRun ⟨[], 0⟩ (sampleWindow.map AggEvent.message)).1.errorCounts.get s =
        serviceCount (sinceReset (sampleWindow.map AggEvent.message)) s) ∧
      sinceReset (sampleWindow.map AggEvent.message) = sampleWindow ∧
      (aggRun ⟨[], 0⟩ (sampleWindow.map AggEvent.message ++ [.tick 60 61 false false])).2 =
        [⟨0, 60, [("auth", 2), ("db", 1)], 3, 61⟩] :=
  ⟨(aggregator_window_counts ⟨[], 0⟩ rfl (sampleWindow.map AggEvent.message) 60 61
      false false).1, by decide, by decide⟩

/-- A user message whose event is already processed: the duplicate exit, and
the `Ack` of the batch made of it. -/
theorem processMessage_duplicate_absorbed_witness :
    isEventProcessed calmEnv dbWithUser 11 = some true ∧
      processMessage sampleApply calmEnv dbWithUser userMsg =
        ⟨true, dbWithUser, .duplicate, [Step.isEventProcessed .db 11]⟩ ∧
      processMessageBatch sampleApply (fun _ => calmEnv) dbWithUser [userMsg] =
        (dbWithUser, [⟨userMsg, ⟨true, dbWithUser, .duplicate, [Step.isEventProcessed .db 11]⟩,
          AckDecision.Ack⟩]) :=
  ⟨by decide,
    (processMessage_duplicate_absorbed sampleApply (fun _ => calmEnv) dbWithUser userMsg
      ⟨11, 21, "user", "created", "u1", 1, 2⟩ rfl (Or.inl rfl) (by decide)).1,
    (processMessage_duplicate_absorbed sampleApply (fun _ => calmEnv) dbWithUser userMsg
      ⟨11, 21, "user", "created", "u1", 1, 2⟩ rfl (Or.inl rfl) (by decide)).2.1⟩

/-- The name `Александр` is made of letters of the range, and its
transliteration is `aleksandr`. -/
theorem transliterate_lower_latin_witness :
    (∀ c ∈ "Александр".data, isRussianLetter c = true) ∧
      isLowerLatin (transliterate "Александр") = true ∧
      transliterate "Александр" = "aleksandr" :=
  ⟨by decide, (transliterate_lower_latin "Александр" (by decide)).1, by decide⟩

end Queues
